import Mathlib

/-!
A shallow embedding of the node-replacement engine of to-markdown
(`src/index.js`).

The DOM tree that `index.js` walks is embedded as an inductive type, node
references are embedded as paths of child indices from the root, and every
function of `index.js` becomes a Lean function of the same name.

Collaborators that `index.js` only `require`s (`lib/html-to-dom`,
`lib/md-converters`, `lib/utilities`, `he`) are fields of the structure
`Host`.
-/

namespace ToMarkdown

/-! ## Data model -/

/-- A JavaScript string, as its list of characters. -/
abbrev JSString := List Char

/-- A DOM node, with the members that `index.js` and `innerHTML` read:
`nodeType` 1 (element), 3 (text) and 8 (comment). Only elements have
child nodes. -/
inductive Node where
  | element (tagName : JSString) (attributes : List (JSString × JSString))
      (childNodes : List Node)
  | text (nodeValue : JSString)
  | comment (nodeValue : JSString)

/-- The DOM member `node.nodeType`. -/
def Node.nodeType : Node → Nat
  | .element _ _ _ => 1
  | .text _ => 3
  | .comment _ => 8

/-- The DOM member `node.childNodes`. -/
def Node.childNodes : Node → List Node
  | .element _ _ cs => cs
  | .text _ => []
  | .comment _ => []

mutual
/-- Number of nodes of a tree. -/
def Node.size : Node → Nat
  | .element _ _ cs => 1 + Node.sizeList cs
  | .text _ => 1
  | .comment _ => 1
/-- Number of nodes of a forest. -/
def Node.sizeList : List Node → Nat
  | [] => 0
  | c :: cs => c.size + Node.sizeList cs
end

/-- A node reference: the child indices leading from the root to the node.
The root is `[]`. -/
abbrev Path := List Nat

/-- Dereference a path in a tree. -/
def Node.getAt : Node → Path → Option Node
  | n, [] => some n
  | .element _ _ cs, i :: p =>
    match cs.get? i with
    | some c => c.getAt p
    | none => none
  | .text _, _ :: _ => none
  | .comment _, _ :: _ => none

/-- The node at `p` is an element node. -/
def Node.isElementAt (root : Node) (p : Path) : Prop :=
  ∃ t a cs, root.getAt p = some (.element t a cs)

/-- Path `a` is a proper ancestor of path `d`. -/
def Path.IsProperAncestor (a d : Path) : Prop :=
  ∃ s, s ≠ [] ∧ d = a ++ s

/-- Document (left-to-right) order of two nodes of the same depth. -/
def Path.docLt : Path → Path → Prop
  | i :: p, j :: q => i < j ∨ (i = j ∧ Path.docLt p q)
  | _, _ => False

/-- Breadth-first order: smaller depth first, document order within a depth. -/
def Path.bfsLt (p q : Path) : Prop :=
  p.length < q.length ∨ (p.length = q.length ∧ Path.docLt p q)

/-! ## `bfsOrder` (index.js 63-78) -/

/-- The inner `for` loop of `bfsOrder`: `children[i]` is pushed on `inqueue`
when its `nodeType` is 1. `p` is the reference of `elem`. -/
def pushElementChildren (p : Path) :
    Nat → List Node → List (Path × Node) → List (Path × Node)
  | _, [], inqueue => inqueue
  | i, c :: cs, inqueue =>
    pushElementChildren p (i + 1) cs
      (if c.nodeType = 1 then inqueue ++ [(p ++ [i], c)] else inqueue)

/-- The `while (inqueue.length > 0)` loop of `bfsOrder`. A queue entry is a
node reference together with the node it refers to. The first argument
bounds the number of iterations. -/
def bfsLoop : Nat → List (Path × Node) → List (Path × Node) → List (Path × Node)
  | 0, _, outqueue => outqueue
  | _ + 1, [], outqueue => outqueue
  | fuel + 1, elem :: inqueue, outqueue =>
    bfsLoop fuel (pushElementChildren elem.1 0 elem.2.childNodes inqueue)
      (outqueue ++ [elem])

/-- `bfsOrder(root)`: the references of the nodes in `outqueue` after
`outqueue.shift()`. The loop runs at most once per node of the tree. -/
def bfsOrder (root : Node) : List Path :=
  ((bfsLoop (root.size + 1) [([], root)] []).tail).map Prod.fst


/-- Replace the node at `p`: `parent.replaceChild(replacement, node)` for the
node that `p` refers to. -/
def Node.replaceAt : Node → Path → Node → Node
  | _, [], r => r
  | .element t a cs, i :: p, r =>
    match cs.get? i with
    | some c => .element t a (cs.set i (c.replaceAt p r))
    | none => .element t a cs
  | .text v, _ :: _, _ => .text v
  | .comment v, _ :: _, _ => .comment v

/-! ## JavaScript values, strings and regular expressions -/

/-- A JavaScript value, as far as `typeof` and string conversion tell
values apart. A number and an object stand by the string that the
conversion gives for them, which the language defines case by case. A value
whose conversion to a string throws, such as a Symbol, is no value of this
type. -/
inductive JSValue where
  | undefined
  | null
  | boolean (b : Bool)
  /-- A number that the conversion writes as `text`: `5`, `1e+21`, `NaN`. -/
  | number (text : JSString)
  | string (s : JSString)
  /-- An object that the conversion writes as `text`: `[object Object]`, or
  `1,2` for the array `[1, 2]`. -/
  | object (text : JSString)

/-- What `index.js` can throw. -/
inductive JSError where
  /-- `new TypeError(...)`, also raised by a member access on `null` or `undefined`. -/
  | typeError
  /-- `new RegExp(...)` on a pattern that is not a regular expression. -/
  | syntaxError
  /-- The string thrown by `canConvertNode`. -/
  | filterError
  /-- The string thrown by `replacementForNode`. -/
  | replacementError
deriving DecidableEq

/-- Conversion of a value to a DOM string, as `createTextNode` applies it to
its argument. -/
def JSValue.toDOMString : JSValue → JSString
  | .undefined => "undefined".toList
  | .null => "null".toList
  | .boolean true => "true".toList
  | .boolean false => "false".toList
  | .number text => text
  | .string s => s
  | .object text => text

/-- The class `\s` of JavaScript regular expressions. -/
def isWhiteSpace (c : Char) : Bool :=
  let n := c.toNat
  n == 0x09 || n == 0x0A || n == 0x0B || n == 0x0C || n == 0x0D || n == 0x20 ||
  n == 0xA0 || n == 0x1680 || (0x2000 ≤ n && n ≤ 0x200A) || n == 0x2028 ||
  n == 0x2029 || n == 0x202F || n == 0x205F || n == 0x3000 || n == 0xFEFF

/-- The class `\d` of JavaScript regular expressions. -/
def isDigit (c : Char) : Bool :=
  0x30 ≤ c.toNat && c.toNat ≤ 0x39

/-- `s.toLowerCase()`, on the letters A to Z. -/
def toLowerCase (s : JSString) : JSString :=
  s.map Char.toLower

/-- `/^\s*$/i.test(s)`. -/
def isBlankString (s : JSString) : Bool :=
  s.all isWhiteSpace

/-- `/\S/.test(s)`. -/
def hasNonWhiteSpace (s : JSString) : Bool :=
  s.any (fun c => !isWhiteSpace c)

/-- `s.replace(re, ...)` for a global regular expression `re` that matches
no empty string. `matchAt rest` is the match of `re` that starts at the
current position, as the text that replaces it and the input that follows
it. Where there is no match the character is copied and the search goes on
one character further. The first argument bounds the number of steps. -/
def replaceAll (matchAt : JSString → Option (JSString × JSString)) :
    Nat → JSString → JSString
  | 0, s => s
  | _ + 1, [] => []
  | fuel + 1, c :: t =>
    match matchAt (c :: t) with
    | some (replacement, rest) => replacement ++ replaceAll matchAt fuel rest
    | none => c :: replaceAll matchAt fuel t

/-- A match of `/(\d+)\. /` at the current position, replaced by
`'$1\\. '`: the longest run of digits, then a dot and a space. -/
def matchOlTrigger (s : JSString) : Option (JSString × JSString) :=
  let digits := s.takeWhile isDigit
  if digits = [] then none
  else
    match s.dropWhile isDigit with
    | '.' :: ' ' :: rest => some (digits ++ ['\\', '.', ' '], rest)
    | _ => none

/-- The statement `input = input.replace(/(\d+)\. /g, '$1\\. ')`. -/
def escapeOlTriggers (input : JSString) : JSString :=
  replaceAll matchOlTrigger input.length input

/-- A match of `/\s+/` at the current position, replaced by `' '`. -/
def matchWhiteSpaceRun (s : JSString) : Option (JSString × JSString) :=
  if s.takeWhile isWhiteSpace = [] then none
  else some ([' '], s.dropWhile isWhiteSpace)

/-- The expression `value.replace(/\s+/gm, ' ')`. -/
def collapseWhiteSpace (value : JSString) : JSString :=
  replaceAll matchWhiteSpaceRun value.length value

/-- A match of `/\n\s+\n/` at the current position, replaced by `'\n\n'`:
a newline, then the longest run of white space that leaves a final newline
to match, then that newline. -/
def matchBlankLine (s : JSString) : Option (JSString × JSString) :=
  match s with
  | '\n' :: t =>
    let run := t.takeWhile isWhiteSpace
    let tailLen := (run.reverse.takeWhile (fun c => c != '\n')).length
    if tailLen + 2 ≤ run.length then
      some (['\n', '\n'], t.drop (run.length - tailLen))
    else none
  | _ => none

/-- A match of `/\n{3,}/` at the current position, replaced by `'\n\n'`. -/
def matchNewlines (s : JSString) : Option (JSString × JSString) :=
  if 3 ≤ (s.takeWhile (fun c => c == '\n')).length then
    some (['\n', '\n'], s.dropWhile (fun c => c == '\n'))
  else none

/-- The expression `output.replace(/^[\t\r\n]+|[\t\r\n\s]+$/g, '')`: the
first alternative matches at the start of the string only, the second one
the white space that ends the string. -/
def stripEdges (output : JSString) : JSString :=
  let rest := output.dropWhile (fun c => c == '\t' || c == '\r' || c == '\n')
  (rest.reverse.dropWhile isWhiteSpace).reverse

/-- The three `replace` calls that end `toMarkdown` (index.js 54-56). -/
def postProcess (output : JSString) : JSString :=
  let s1 := stripEdges output
  let s2 := replaceAll matchBlankLine s1.length s1
  replaceAll matchNewlines s2.length s2

/-! ## The DOM members `tagName` and `innerHTML` -/

/-- The DOM member `node.tagName`, `undefined` on a node that is no element. -/
def Node.tagName : Node → Option JSString
  | .element t _ _ => some t
  | .text _ => none
  | .comment _ => none

/-- The elements that the HTML serialisation writes without content and
without end tag. -/
def serializesAsVoid : List JSString :=
  ["area", "base", "basefont", "bgsound", "br", "col", "embed", "frame", "hr",
   "img", "input", "keygen", "link", "meta", "param", "source", "track",
   "wbr"].map String.toList

/-- The elements whose text children the HTML serialisation writes as they
are. -/
def rawTextElements : List JSString :=
  ["style", "script", "xmp", "iframe", "noembed", "noframes", "plaintext"].map
    String.toList

/-- Escaping of a text node in the HTML serialisation. -/
def escapeText : JSString → JSString
  | [] => []
  | c :: s =>
    (if c = '&' then "&amp;".toList
     else if c.toNat = 0xA0 then "&nbsp;".toList
     else if c = '<' then "&lt;".toList
     else if c = '>' then "&gt;".toList
     else [c]) ++ escapeText s

/-- Escaping of an attribute value in the HTML serialisation. -/
def escapeAttribute : JSString → JSString
  | [] => []
  | c :: s =>
    (if c = '&' then "&amp;".toList
     else if c.toNat = 0xA0 then "&nbsp;".toList
     else if c = '"' then "&quot;".toList
     else [c]) ++ escapeAttribute s

/-- The attributes of a start tag in the HTML serialisation. -/
def serializeAttributes : List (JSString × JSString) → JSString
  | [] => []
  | (name, value) :: rest =>
    [' '] ++ name ++ ['=', '"'] ++ escapeAttribute value ++ ['"'] ++
      serializeAttributes rest

mutual
/-- The HTML serialisation of one node; `raw` says that its parent is one of
`rawTextElements`. -/
def Node.outerHTML (raw : Bool) : Node → JSString
  | .element t a cs =>
    let name := toLowerCase t
    ['<'] ++ name ++ serializeAttributes a ++ ['>'] ++
      (if name ∈ serializesAsVoid then []
       else Node.serializeChildren (decide (name ∈ rawTextElements)) cs ++
         ['<', '/'] ++ name ++ ['>'])
  | .text v => if raw then v else escapeText v
  | .comment v => ['<', '!', '-', '-'] ++ v ++ ['-', '-', '>']
/-- The HTML serialisation of a list of child nodes. -/
def Node.serializeChildren (raw : Bool) : List Node → JSString
  | [] => []
  | c :: cs => Node.outerHTML raw c ++ Node.serializeChildren raw cs
end

/-- The DOM member `node.innerHTML` of an element (the HTML fragment
serialisation of its children), `undefined` on a node that is no element. -/
def Node.innerHTML : Node → Option JSString
  | .element t _ cs =>
    let name := toLowerCase t
    if name ∈ serializesAsVoid then some []
    else some (Node.serializeChildren (decide (name ∈ rawTextElements)) cs)
  | .text _ => none
  | .comment _ => none

/-! ## Conversion rules and the collaborators of `index.js` -/

/-- The `filter` of a conversion rule, by the three kinds that
`canConvertNode` tells apart, and anything else. -/
inductive Filter where
  /-- A value for which `isRegExp` holds, with its method `test`. -/
  | regExp (test : JSString → Bool)
  /-- A string. -/
  | string (pattern : JSString)
  /-- A function, called with the node; its result is read as a boolean. -/
  | function (call : Node → Bool)
  /-- Any other value. -/
  | other

/-- The `replacement` of a conversion rule: a function of the decoded inner
HTML and the node, or any other value. -/
inductive Replacement where
  | function (call : JSString → Node → JSValue)
  | other

/-- A conversion rule, an entry of `lib/md-converters`. -/
structure Converter where
  filter : Filter
  replacement : Replacement

/-- What `index.js` obtains through `require` and from the JavaScript
runtime. -/
structure Host where
  /-- The child nodes of `htmlToDom(input).body` (`lib/html-to-dom`). -/
  htmlToDom : JSString → List Node
  /-- The rule list `converters` (`lib/md-converters`). -/
  converters : List Converter
  /-- The Block-Level Tag Set of `lib/utilities`, as a predicate on tag
  names. -/
  blockLevelTag : JSString → Bool
  /-- The white-space characters that `trim` strips (`lib/utilities`). -/
  trimSpace : Char → Bool
  /-- The function `decode` of the package `he`. -/
  decodeHTMLEntities : JSString → JSString
  /-- The method `test` of `new RegExp(pattern, flags)`, or nothing when the
  constructor throws. -/
  newRegExp : JSString → JSString → Option (JSString → Bool)

/-- Modelled from the spec: `isBlockLevel` of `lib/utilities` is not part of
`src/`. The spec describes the Block-Level Tag Set as "a fixed set of tag
names" and the predicate as "a block-level-tag-membership predicate": a
node is block-level when it has a tag name that is in the set. -/
def Host.isBlockLevel (host : Host) (node : Node) : Bool :=
  match node.tagName with
  | some tagName => host.blockLevelTag tagName
  | none => false

/-- The array `VOID_ELEMENTS` (index.js 20-23). -/
def VOID_ELEMENTS : List JSString :=
  ["area", "base", "br", "col", "command", "embed", "hr", "img", "input",
   "keygen", "link", "meta", "param", "source", "track", "wbr"].map String.toList

/-- `array.indexOf(x)`: the first index of `x`, or `-1`. -/
def indexOf (array : List JSString) (x : JSString) : Int :=
  match array with
  | [] => -1
  | y :: rest =>
    if y = x then 0
    else
      let k := indexOf rest x
      if k = -1 then -1 else k + 1

/-! ## `canConvertNode` and `replacementForNode` (index.js 80-121) -/

/-- A call that `replacementForNode` makes into the rule list: the filter
of rule `i` is evaluated, or the replacement of rule `i` is invoked. -/
inductive Event where
  | filterEvaluated (i : Nat)
  | replacementInvoked (i : Nat)
deriving DecidableEq

/-- `canConvertNode(node, filter)`. -/
def canConvertNode (host : Host) (node : Node) (filter : Filter) : Except JSError Bool :=
  match filter with
  | .regExp test =>
    match node.tagName with
    | some tagName => .ok (test tagName)
    | none => .ok (test "undefined".toList)
  | .string pattern =>
    match host.newRegExp (['^'] ++ pattern ++ ['$']) ['i'] with
    | some test =>
      match node.tagName with
      | some tagName => .ok (test tagName)
      | none => .ok (test "undefined".toList)
    | none => .error .syntaxError
  | .function call => .ok (call node)
  | .other => .error .filterError

/-- The `for` loop of `replacementForNode` from rule `i` on, with the calls
it makes. -/
def convertersLoop (host : Host) (node : Node) (innerHTML : JSString) :
    Nat → List Converter → Except JSError (Option Node) × List Event
  | _, [] => (.ok none, [])
  | i, converter :: rest =>
    match canConvertNode host node converter.filter with
    | .error e => (.error e, [.filterEvaluated i])
    | .ok false =>
      let r := convertersLoop host node innerHTML (i + 1) rest
      (r.1, .filterEvaluated i :: r.2)
    | .ok true =>
      match converter.replacement with
      | .other => (.error .replacementError, [.filterEvaluated i])
      | .function call =>
        let text := call (host.decodeHTMLEntities innerHTML) node
        (.ok (some (.text text.toDOMString)),
          [.filterEvaluated i, .replacementInvoked i])

/-- `replacementForNode(node, doc)`: the replacement text node or `null`,
with the calls made into the rule list. -/
def replacementForNode (host : Host) (node : Node) :
    Except JSError (Option Node) × List Event :=
  match node.tagName, node.innerHTML with
  | some tagName, some innerHTML =>
    if indexOf VOID_ELEMENTS (toLowerCase tagName) = -1 ∧ isBlankString innerHTML then
      (.ok (some (.text [])), [])
    else convertersLoop host node innerHTML 0 host.converters
  | _, _ => (.error .typeError, [])

/-! ## `removeBlankNodes` (index.js 123-165) -/

/-- What prepending node `n` to the sibling list `rest` gives once the HTML
parser has read it back: an empty text node disappears, adjacent text nodes
are one node. -/
def mergeText (n : Node) (rest : List Node) : List Node :=
  match n with
  | .text v =>
    if v = [] then rest
    else
      match rest with
      | .text w :: r => .text (v ++ w) :: r
      | _ => .text v :: rest
  | _ => n :: rest

/-- The newlines of the input of the HTML parser: a carriage return, together
with the newline that follows it if there is one, is read as one newline.
`afterCR` says that the character before was a carriage return. -/
def normalizeNewlines : Bool → JSString → JSString
  | _, [] => []
  | afterCR, c :: t =>
    if c = '\r' then '\n' :: normalizeNewlines true t
    else if c = '\n' ∧ afterCR = true then normalizeNewlines false t
    else c :: normalizeNewlines false t

/-- The data of a text or comment node as the parser reads it back. -/
def Node.normalizeData : Node → Node
  | .text v => .text (normalizeNewlines false v)
  | .comment v => .comment (normalizeNewlines false v)
  | .element t a cs => .element t a cs

/-- The parser drops a newline that comes right after the start tag of a
`pre`, `listing` or `textarea` element. -/
def skipNewline (tagName : JSString) (cs : List Node) : List Node :=
  if toLowerCase tagName ∈ ["pre", "listing", "textarea"].map String.toList then
    match cs with
    | .text ('\n' :: v) :: rest => if v = [] then rest else .text v :: rest
    | _ => cs
  else cs

mutual
/-- The tree that parsing the serialisation of a node gives. The data of the
text and comment nodes among the siblings at the top is left as it is
written, see `Node.normalizeData`. -/
def Node.reparse : Node → Node
  | .element t a cs =>
    .element t (a.map (fun kv => (kv.1, normalizeNewlines false kv.2)))
      (skipNewline t ((Node.reparseList cs).map Node.normalizeData))
  | .text v => .text v
  | .comment v => .comment v
/-- The child list that parsing the serialisation of a child list gives. -/
def Node.reparseList : List Node → List Node
  | [] => []
  | c :: cs => mergeText (Node.reparse c) (Node.reparseList cs)
end

/-- Strip the characters `strip` from the start of the first node when it
is a text node. -/
def stripLeading (strip : Char → Bool) : List Node → List Node
  | .text v :: rest =>
    if v.dropWhile strip = [] then rest else .text (v.dropWhile strip) :: rest
  | cs => cs

/-- Strip the characters `strip` from the end of the last node when it is a
text node. -/
def stripTrailing (strip : Char → Bool) : List Node → List Node
  | [] => []
  | [.text v] =>
    if (v.reverse.dropWhile strip).reverse = [] then []
    else [.text (v.reverse.dropWhile strip).reverse]
  | [n] => [n]
  | n :: m :: rest => n :: stripTrailing strip (m :: rest)

/-- The characters that `trim` strips from the serialisation of the children
of an element with tag `tagName`: white space that `trim` strips and that
the serialisation writes as it is. U+00A0 is written `&nbsp;`, except in an
element of `rawTextElements`. -/
def trimStrips (host : Host) (tagName : JSString) (c : Char) : Bool :=
  isWhiteSpace c && host.trimSpace c &&
    (decide (toLowerCase tagName ∈ rawTextElements) || c.toNat != 0xA0)

/-- Modelled from the spec: `trim` of `lib/utilities` and the `innerHTML`
setter of the DOM are not part of `src/`. The statement
`node.innerHTML = trim(node.innerHTML)`, on the child list of `node`: the
serialisation starts or ends with white space only through a first or last
text node, and parsing the trimmed serialisation gives the children back
with adjacent text nodes merged, empty ones dropped, carriage returns read
as newlines, and without the newline that starts the content of a `pre`,
`listing` or `textarea` element below `node`. What else the HTML parser
changes when it reads a serialisation back is not modelled. An element that
serialises as void has an empty `innerHTML`. -/
def trimInner (host : Host) (tagName : JSString) (cs : List Node) : List Node :=
  if toLowerCase tagName ∈ serializesAsVoid then []
  else
    (stripTrailing (trimStrips host tagName)
      (stripLeading (trimStrips host tagName) (Node.reparseList cs))).map Node.normalizeData

/-- The variable `hasAdjacentBlockSibling` of `removeBlankNodes`:
`(prevSibling && isBlockLevel(prevSibling)) ||
(nextSibling && isBlockLevel(nextSibling))`, for the previous sibling, if
any, and the siblings that follow the node. -/
def hasAdjacentBlockSibling (host : Host) (prev : Option Node) (next : List Node) : Bool :=
  (match prev with
    | some prevSibling => host.isBlockLevel prevSibling
    | none => false) ||
  (match next with
    | nextSibling :: _ => host.isBlockLevel nextSibling
    | [] => false)

/-- The `while (child)` loop of `removeBlankNodes` over the children of an
element with tag `parentTag`, one `switch` per child. `prev` is the
previous sibling of the child as it now stands in the tree, the head of
the list is the child, and what follows it are its next siblings, not yet
visited. The result is the child list after the loop. `recurse` is
`removeBlankNodes` on an element child. -/
def removeBlankChildren (host : Host) (recurse : Node → Node) (parentTag : JSString) :
    Option Node → List Node → List Node
  | _, [] => []
  | prev, .text value :: rest =>
    if parentTag ≠ "PRE".toList ∧ parentTag ≠ "CODE".toList then
      if hasNonWhiteSpace value then
        Node.text (collapseWhiteSpace value) ::
          removeBlankChildren host recurse parentTag
            (some (Node.text (collapseWhiteSpace value))) rest
      else if hasAdjacentBlockSibling host prev rest then
        removeBlankChildren host recurse parentTag prev rest
      else
        Node.text [' '] ::
          removeBlankChildren host recurse parentTag (some (Node.text [' '])) rest
    else
      Node.text value ::
        removeBlankChildren host recurse parentTag (some (Node.text value)) rest
  | prev, .comment _ :: rest => removeBlankChildren host recurse parentTag prev rest
  | _, .element t a cs :: rest =>
    recurse (.element t a cs) ::
      removeBlankChildren host recurse parentTag (some (recurse (.element t a cs))) rest

/-- `removeBlankNodes(node)` on an element node, as the tree that `node`
has become. The first argument bounds the depth of the recursion. -/
def removeBlankNodesFuel (host : Host) : Nat → Node → Node
  | 0, node => node
  | fuel + 1, .element t a cs =>
    .element t a
      (removeBlankChildren host (removeBlankNodesFuel host fuel) t none
        (if t ≠ "PRE".toList ∧ host.isBlockLevel (.element t a cs) = true then
          trimInner host t cs
        else cs))
  | _ + 1, .text v => .text v
  | _ + 1, .comment v => .comment v

/-- `removeBlankNodes(node)` on a node without parent, as `toMarkdown`
calls it: a text or comment node has a `parentNode` that is `null`. The
recursion is at most as deep as the tree has nodes. -/
def removeBlankNodes (host : Host) (node : Node) : Except JSError Node :=
  match node with
  | .element t a cs => .ok (removeBlankNodesFuel host (Node.size (.element t a cs)) (.element t a cs))
  | .text _ => .error .typeError
  | .comment _ => .error .typeError

/-! ## `toMarkdown` (index.js 27-57) -/

/-- One pass of the body of the `for` loop of `toMarkdown` (index.js 47-49)
for the node that `p` refers to: the tree after the pass, with the calls
made into the rule list. -/
def replaceStep (host : Host) (tree : Node) (p : Path) :
    Except JSError Node × List (Path × Event) :=
  match tree.getAt p with
  | none => (.error .typeError, [])
  | some node =>
    match replacementForNode host node with
    | (.error e, calls) => (.error e, calls.map (fun c => (p, c)))
    | (.ok none, calls) => (.ok tree, calls.map (fun c => (p, c)))
    | (.ok (some replacement), calls) =>
      (.ok (tree.replaceAt p replacement), calls.map (fun c => (p, c)))

/-- The `for` loop of `toMarkdown` over the references still to visit, the
next one first. -/
def replaceLoop (host : Host) : List Path → Node → Except JSError Node × List (Path × Event)
  | [], tree => (.ok tree, [])
  | p :: rest, tree =>
    match replaceStep host tree p with
    | (.error e, calls) => (.error e, calls)
    | (.ok tree', calls) =>
      let r := replaceLoop host rest tree'
      (r.1, calls ++ r.2)

/-- The steps of `toMarkdown` on the tree `clone`, from `removeBlankNodes`
to the final `replace` calls (index.js 39-56). -/
def convertTree (host : Host) (clone : Node) :
    Except JSError JSString × List (Path × Event) :=
  match removeBlankNodes host clone with
  | .error e => (.error e, [])
  | .ok clone =>
    let nodes := bfsOrder clone
    match replaceLoop host nodes.reverse clone with
    | (.error e, calls) => (.error e, calls)
    | (.ok clone, calls) =>
      match clone.innerHTML with
      | none => (.error .typeError, calls)
      | some innerHTML => (.ok (postProcess (host.decodeHTMLEntities innerHTML)), calls)

/-- `toMarkdown(input)`: the string returned or the error thrown, with the
calls made into the rule list. -/
def toMarkdown (host : Host) (input : JSValue) :
    Except JSError JSString × List (Path × Event) :=
  match input with
  | .string input =>
    convertTree host (.element "BODY".toList [] (host.htmlToDom (escapeOlTriggers input)))
  | _ => (.error .typeError, [])

/-! ## Descriptions taken from the specification -/

/-- Ordered-list escaping as the specification words it: every character of
the input is kept, in order, and one backslash is written immediately
before each dot that follows a digit and is followed by a space. `prev` is
the character before the current one. -/
def insertBackslashes (prev : Option Char) : JSString → JSString
  | [] => []
  | c :: rest =>
    (if c = '.' ∧ (∃ d, prev = some d ∧ isDigit d = true) ∧ rest.head? = some ' ' then
      ['\\', '.']
     else [c]) ++ insertBackslashes (some c) rest

/-! ## Auxiliary definitions of the proofs -/

/-- The entries that `pushElementChildren` appends to the queue. -/
def elemKids (p : Path) : Nat → List Node → List (Path × Node)
  | _, [] => []
  | i, c :: cs =>
    (if c.nodeType = 1 then [(p ++ [i], c)] else []) ++ elemKids p (i + 1) cs

/-- Invariant of the queues of `bfsLoop` on the tree `root`. -/
structure BfsInv (root : Node) (inq outq : List (Path × Node)) : Prop where
  valid : ∀ x ∈ outq ++ inq, root.getAt x.1 = some x.2 ∧ (x.1 ≠ [] → x.2.nodeType = 1)
  sorted : ((outq ++ inq).map Prod.fst).Pairwise Path.bfsLt
  parent : ∀ x ∈ outq ++ inq, x.1 = [] ∨ ∃ y ∈ outq, ∃ i, x.1 = y.1 ++ [i]
  closed : ∀ y ∈ outq, ∀ i c, y.2.childNodes.get? i = some c → c.nodeType = 1 →
    (y.1 ++ [i], c) ∈ outq ++ inq
  first : (outq ++ inq).head? = some ([], root)


mutual
/-- The tree holds a comment node. -/
def Node.hasComment : Node → Bool
  | .element _ _ cs => Node.hasCommentList cs
  | .text _ => false
  | .comment _ => true
/-- One of the trees of the list holds a comment node. -/
def Node.hasCommentList : List Node → Bool
  | [] => false
  | c :: cs => Node.hasComment c || Node.hasCommentList cs
end

/-- White-space collapsing, character by character: a run of white space
becomes one space. `inRun` says that the character before was white
space. -/
def squeeze : Bool → JSString → JSString
  | _, [] => []
  | inRun, c :: t =>
    if isWhiteSpace c then
      if inRun then squeeze true t else ' ' :: squeeze true t
    else c :: squeeze false t

/-! ## Example trees and a reference host -/

/-- The tree of the body of `<p>   </p>`. -/
def blankParagraph : Node :=
  .element "BODY".toList [] [.element "P".toList [] [.text "   ".toList]]

/-- The tree of the body of `<p>Hello <b>World</b></p>`. -/
def helloWorld : Node :=
  .element "BODY".toList []
    [.element "P".toList []
      [.text "Hello ".toList, .element "B".toList [] [.text "World".toList]]]

/-- The bold rule: the string filter `'b'`, and `**` around the content. -/
def boldRule : Converter where
  filter := .string ['b']
  replacement := .function (fun content _ => .string (['*', '*'] ++ content ++ ['*', '*']))

/-- A paragraph rule: the string filter `'p'`, and the content as it is. -/
def paragraphRule : Converter where
  filter := .string ['p']
  replacement := .function (fun content _ => .string content)

/-- The block-level tag names of the reference host. -/
def refBlockElements : List JSString :=
  ["address", "article", "aside", "audio", "blockquote", "body", "canvas",
   "center", "dd", "dir", "div", "dl", "dt", "fieldset", "figcaption", "figure",
   "footer", "form", "frameset", "h1", "h2", "h3", "h4", "h5", "h6", "header",
   "hgroup", "hr", "html", "isindex", "li", "main", "menu", "nav", "noframes",
   "noscript", "ol", "output", "p", "pre", "section", "table", "tbody", "td",
   "tfoot", "th", "thead", "tr", "ul"].map String.toList

/-- A character reference at the current position, among those that the
HTML serialisation writes, with the character it stands for. -/
def matchEntity (s : JSString) : Option (JSString × JSString) :=
  if s.take 5 = "&amp;".toList then some (['&'], s.drop 5)
  else if s.take 4 = "&lt;".toList then some (['<'], s.drop 4)
  else if s.take 4 = "&gt;".toList then some (['>'], s.drop 4)
  else if s.take 6 = "&quot;".toList then some (['"'], s.drop 6)
  else if s.take 6 = "&nbsp;".toList then some ([Char.ofNat 0xA0], s.drop 6)
  else none

/-- The entity decoder of the reference host: it decodes the character
references that the HTML serialisation writes. -/
def refDecode (s : JSString) : JSString :=
  replaceAll matchEntity s.length s

/-- The `RegExp` constructor of the reference host. It builds the regular
expressions that a string filter naming a tag gives, `^word$` with the flag
`i` for a word of letters and digits, and no other. -/
def refNewRegExp (pattern flags : JSString) : Option (JSString → Bool) :=
  match pattern with
  | '^' :: rest =>
    match rest.reverse with
    | '$' :: word =>
      if word.all Char.isAlphanum ∧ flags = ['i'] then
        some (fun s => decide (toLowerCase s = toLowerCase word.reverse))
      else none
    | _ => none
  | _ => none

/-- The reference host with a given rule list. Its parser reads an input
without markup: the body holds the input as one text node. -/
def refHost (converters : List Converter) : Host where
  htmlToDom := fun input => if input = [] then [] else [.text input]
  converters := converters
  blockLevelTag := fun tagName => decide (toLowerCase tagName ∈ refBlockElements)
  trimSpace := fun c => c = ' ' || c = '\t' || c = '\r' || c = '\n'
  decodeHTMLEntities := refDecode
  newRegExp := refNewRegExp

/-- The tree of the body of `a<b>x</b>  <!--c--><p>y</p>`. -/
def commentTree : Node :=
  .element "BODY".toList []
    [.text "a".toList, .element "B".toList [] [.text "x".toList], .text "  ".toList,
     .comment "c".toList, .element "P".toList [] [.text "y".toList]]

/-- The tag name is one of the two that `removeBlankNodes` tests the parent
of a text node for. -/
def isPreOrCode (tagName : JSString) : Bool :=
  decide (tagName = "PRE".toList) || decide (tagName = "CODE".toList)

mutual
/-- The values, in document order, of the text nodes of the tree that stand
in a `PRE` or `CODE` element: with `deep`, at any depth below such an
element; without, as its children. `inside` says that the node itself
stands so. -/
def Node.textsInPre (deep : Bool) : Bool → Node → List JSString
  | inside, .element t _ cs =>
    Node.textsInPreList deep ((deep && inside) || isPreOrCode t) cs
  | inside, .text v => if inside then [v] else []
  | _, .comment _ => []
/-- The values of the text nodes of the list of siblings and of their
descendants that stand in a `PRE` or `CODE` element. -/
def Node.textsInPreList (deep : Bool) : Bool → List Node → List JSString
  | _, [] => []
  | inside, c :: cs => Node.textsInPre deep inside c ++ Node.textsInPreList deep inside cs
end

mutual
/-- No element of the tree has its content trimmed and read back by
`removeBlankNodes` (index.js 152-155): each one is a `PRE` element or is not
block-level. -/
def Node.trimFree (host : Host) : Node → Bool
  | .element t _ cs =>
    (decide (t = "PRE".toList) || !host.blockLevelTag t) && Node.trimFreeList host cs
  | .text _ => true
  | .comment _ => true
/-- No element of the trees of the list has its content trimmed. -/
def Node.trimFreeList (host : Host) : List Node → Bool
  | [] => true
  | c :: cs => Node.trimFree host c && Node.trimFreeList host cs
end

/-- The tree of the body of `<pre><b>x  y</b><span> <div></div></span></pre>`. -/
def preTree : Node :=
  .element "BODY".toList []
    [.element "PRE".toList []
      [.element "B".toList [] [.text "x  y".toList],
       .element "SPAN".toList [] [.text " ".toList, .element "DIV".toList [] []]]]

/-! ## A fragment of the regular expressions of JavaScript

`canConvertNode` hands a string filter to `new RegExp`. The definitions
below read and run the patterns that are built from characters of ASCII,
`.`, classes with ranges, groups, `|`, the quantifiers `*`, `+`, `?` and the
assertions `^` and `$`, without flags or with the flag `i`. -/

/-- A regular expression of the fragment. -/
inductive RegEx where
  /-- The empty pattern. -/
  | empty
  /-- One character. -/
  | char (c : Char)
  /-- The pattern `.`. -/
  | any
  /-- A class `[...]` or `[^...]`, as ranges of characters. -/
  | set (negated : Bool) (ranges : List (Char × Char))
  /-- The assertion `^`. -/
  | start
  /-- The assertion `$`. -/
  | stop
  /-- One pattern after the other. -/
  | seq (a b : RegEx)
  /-- The patterns on the two sides of `|`. -/
  | alt (a b : RegEx)
  /-- The quantifier `*`. -/
  | star (a : RegEx)

/-- The alternatives read so far at one level of grouping, and the terms of
the alternative that is being read. -/
structure Frame where
  alts : List RegEx
  terms : List RegEx

/-- Where the reader of a pattern stands. -/
inductive Mode where
  /-- Between terms: `quantifiable` when the last term may take a quantifier,
  `lazyOK` right after a quantifier, which a `?` may follow. -/
  | normal (quantifiable lazyOK : Bool)
  /-- After a backslash. -/
  | escape
  /-- After `(`. -/
  | opened
  /-- After `(?`. -/
  | openedQ
  /-- In a class: `first` right after `[`, `last` the character that a `-`
  may make the lower end of a range, `dash` when that `-` has been read. -/
  | cls (first negated : Bool) (ranges : List (Char × Char)) (last : Option Char)
      (dash : Bool)

/-- The state of the reader: the level of grouping that is being read, the
levels around it, and the mode. -/
structure ParseState where
  frame : Frame
  stack : List Frame
  mode : Mode

/-- A character that stands for itself in a pattern of the fragment: a
character of ASCII that has no meaning in the pattern grammar. -/
def isPatternCharacter (c : Char) : Bool :=
  decide (c.toNat < 128) &&
    !("^$\\.*+?()[]\x7b\x7d|".toList.contains c)

/-- The terms of an alternative, one after the other. -/
def mkSeq (terms : List RegEx) : RegEx :=
  terms.foldr RegEx.seq RegEx.empty

/-- The alternatives of a level of grouping, the last one being made of
`terms`. -/
def closeFrame (f : Frame) : RegEx :=
  f.alts.foldr RegEx.alt (mkSeq f.terms)

/-- The reader takes a term. -/
def ParseState.push (st : ParseState) (term : RegEx) (quantifiable : Bool) : ParseState :=
  { st with
    frame := { st.frame with terms := st.frame.terms ++ [term] }
    mode := .normal quantifiable false }

/-- The reader takes a quantifier, which applies to the last term. -/
def ParseState.quantify (st : ParseState) (q : RegEx → RegEx) : Option ParseState :=
  match st.frame.terms.getLast? with
  | some term =>
    some { st with
      frame := { st.frame with terms := st.frame.terms.dropLast ++ [q term] }
      mode := .normal false true }
  | none => none

/-- One character of the pattern between terms. -/
def ParseState.readNormal (st : ParseState) (quantifiable lazyOK : Bool) (c : Char) :
    Option ParseState :=
  if isPatternCharacter c then some (st.push (.char c) true)
  else if c = '\\' then some { st with mode := .escape }
  else if c = '.' then some (st.push .any true)
  else if c = '^' then some (st.push .start false)
  else if c = '$' then some (st.push .stop false)
  else if c = '[' then some { st with mode := .cls true false [] none false }
  else if c = '(' then
    some { frame := ⟨[], []⟩, stack := st.frame :: st.stack, mode := .opened }
  else if c = ')' then
    match st.stack with
    | parent :: stack =>
      some { frame := { parent with terms := parent.terms ++ [closeFrame st.frame] },
             stack := stack, mode := .normal true false }
    | [] => none
  else if c = '|' then
    some { st with
      frame := ⟨st.frame.alts ++ [mkSeq st.frame.terms], []⟩
      mode := .normal false false }
  else if c = '*' then
    if quantifiable then st.quantify RegEx.star else none
  else if c = '+' then
    if quantifiable then st.quantify (fun a => .seq a (.star a)) else none
  else if c = '?' then
    if lazyOK then some { st with mode := .normal false false }
    else if quantifiable then st.quantify (fun a => .alt a .empty)
    else none
  else none

/-- The ranges of a class at its end: those read, the pending character and
a pending `-`. -/
def closeClass (ranges : List (Char × Char)) (last : Option Char) (dash : Bool) :
    List (Char × Char) :=
  ranges ++
    (match last with
      | some lo => [(lo, lo)]
      | none => []) ++
    (if dash then [('-', '-')] else [])

/-- One character of the pattern. -/
def ParseState.read (st : ParseState) (c : Char) : Option ParseState :=
  match st.mode with
  | .normal quantifiable lazyOK => st.readNormal quantifiable lazyOK c
  | .escape =>
    if "^$\\.*+?()[]\x7b\x7d|/".toList.contains c then some (st.push (.char c) true) else none
  | .opened =>
    if c = '?' then some { st with mode := .openedQ }
    else st.readNormal false false c
  | .openedQ =>
    if c = ':' then some { st with mode := .normal false false } else none
  | .cls first negated ranges last dash =>
    if c = '^' ∧ first = true then some { st with mode := .cls false true [] none false }
    else if c = ']' then some (st.push (.set negated (closeClass ranges last dash)) true)
    else if c = '\\' ∨ 128 ≤ c.toNat then none
    else
      match last, dash with
      | some lo, true =>
        if lo ≤ c then some { st with mode := .cls false negated (ranges ++ [(lo, c)]) none false }
        else none
      | some lo, false =>
        if c = '-' then some { st with mode := .cls false negated ranges (some lo) true }
        else some { st with mode := .cls false negated (ranges ++ [(lo, lo)]) (some c) false }
      | none, _ => some { st with mode := .cls false negated ranges (some c) false }

/-- The reader along the pattern. -/
def ParseState.readAll : ParseState → JSString → Option ParseState
  | st, [] => some st
  | st, c :: rest =>
    match st.read c with
    | some st' => ParseState.readAll st' rest
    | none => none

/-- The regular expression that a pattern of the fragment denotes. -/
def RegEx.parse (pattern : JSString) : Option RegEx :=
  match ParseState.readAll ⟨⟨[], []⟩, [], .normal false false⟩ pattern with
  | some ⟨frame, [], .normal _ _⟩ => some (closeFrame frame)
  | _ => none

/-- The character as the comparison of the matcher sees it: with the flag
`i`, the letters A to Z and a to z without their case. -/
def canonicalize (ignoreCase : Bool) (c : Char) : Char :=
  if ignoreCase then c.toLower else c

/-- The character is in one of the ranges, up to the case of letters with
the flag `i`. -/
def inRanges (ignoreCase : Bool) (ranges : List (Char × Char)) (c : Char) : Bool :=
  ranges.any (fun r =>
    (decide (r.1 ≤ c) && decide (c ≤ r.2)) ||
      (ignoreCase &&
        ((decide (r.1 ≤ c.toLower) && decide (c.toLower ≤ r.2)) ||
         (decide (r.1 ≤ c.toUpper) && decide (c.toUpper ≤ r.2)))))

/-- A line terminator, which `.` does not match. -/
def isLineTerminator (c : Char) : Bool :=
  c = '\n' || c = '\r' || c.toNat = 0x2028 || c.toNat = 0x2029

/-- A match of one character: the positions after it. A position is what
is left of the input, with a flag that tells the start of the input. -/
def consume (accept : Char → Bool) (ps : List (Bool × JSString)) : List (Bool × JSString) :=
  ps.filterMap (fun p =>
    match p.2 with
    | x :: t => if accept x then some (false, t) else none
    | [] => none)

/-- The positions reached from `ps` by at most `n` rounds of `f`. -/
def closure (f : List (Bool × JSString) → List (Bool × JSString)) :
    Nat → List (Bool × JSString) → List (Bool × JSString)
  | 0, ps => ps
  | n + 1, ps => ps ++ closure f n (f ps)

/-- The positions at which a match of the regular expression ends when it
starts at one of the positions `ps`. -/
def RegEx.step (ignoreCase : Bool) : RegEx → List (Bool × JSString) → List (Bool × JSString)
  | .empty, ps => ps
  | .char c, ps =>
    consume (fun x => canonicalize ignoreCase x = canonicalize ignoreCase c) ps
  | .any, ps => consume (fun x => !isLineTerminator x) ps
  | .set negated ranges, ps => consume (fun x => inRanges ignoreCase ranges x != negated) ps
  | .start, ps => ps.filter (fun p => p.1)
  | .stop, ps => ps.filter (fun p => p.2.isEmpty)
  | .seq a b, ps => RegEx.step ignoreCase b (RegEx.step ignoreCase a ps)
  | .alt a b, ps => RegEx.step ignoreCase a ps ++ RegEx.step ignoreCase b ps
  | .star a, ps =>
    closure (RegEx.step ignoreCase a) ((ps.map (fun p => p.2.length)).foldr max 0) ps

/-- The positions of the input at which a match may start. -/
def positions : Bool → JSString → List (Bool × JSString)
  | atStart, [] => [(atStart, [])]
  | atStart, c :: t => (atStart, c :: t) :: positions false t

/-- The method `test` of a regular expression without the flags `g` and
`y`: there is a match that starts somewhere in the input. -/
def RegEx.test (ignoreCase : Bool) (r : RegEx) (s : JSString) : Bool :=
  !(r.step ignoreCase (positions true s)).isEmpty

/-- The constructor `new RegExp(pattern, flags)` on the fragment, as the
method `test` of the object it gives. Outside the fragment it gives
nothing. -/
def newRegExp (pattern flags : JSString) : Option (JSString → Bool) :=
  if flags = [] ∨ flags = ['i'] then
    (RegEx.parse pattern).map (fun r => r.test (decide (flags = ['i'])))
  else none

/-- The reference host with the constructor `newRegExp`. -/
def regExpHost (converters : List Converter) : Host :=
  { refHost converters with newRegExp := newRegExp }

/-! ## Theorems on `bfsOrder` -/

theorem pushElementChildren_eq (p : Path) (cs : List Node) :
    ∀ (i : Nat) (inqueue : List (Path × Node)),
      pushElementChildren p i cs inqueue = inqueue ++ elemKids p i cs := by
  induction cs with
  | nil => intro i q; simp [pushElementChildren, elemKids]
  | cons c cs ih =>
    intro i q
    simp only [pushElementChildren, elemKids, ih]
    split <;> simp

theorem mem_elemKids (p : Path) (cs : List Node) :
    ∀ (i : Nat) (x : Path × Node),
      x ∈ elemKids p i cs ↔
        ∃ j c, cs.get? j = some c ∧ c.nodeType = 1 ∧ x = (p ++ [i + j], c) := by
  induction cs with
  | nil => intro i x; simp [elemKids]
  | cons c cs ih =>
    intro i x
    simp only [elemKids, List.mem_append, ih]
    constructor
    · rintro (h | ⟨j, d, hj, hd, rfl⟩)
      · by_cases hc : c.nodeType = 1
        · simp only [hc, if_true, List.mem_singleton] at h
          exact ⟨0, c, by simp, hc, by simpa using h⟩
        · simp [hc] at h
      · exact ⟨j + 1, d, by simpa using hj, hd, by
          have : i + 1 + j = i + (j + 1) := by omega
          rw [this]⟩
    · rintro ⟨j, d, hj, hd, rfl⟩
      cases j with
      | zero =>
        left
        simp only [List.get?_cons_zero, Option.some.injEq] at hj
        subst hj
        simp [hd]
      | succ j =>
        right
        refine ⟨j, d, by simpa using hj, hd, ?_⟩
        have : i + 1 + j = i + (j + 1) := by omega
        rw [this]

theorem sizeList_elemKids (p : Path) (cs : List Node) :
    ∀ i : Nat, Node.sizeList ((elemKids p i cs).map Prod.snd) ≤ Node.sizeList cs := by
  induction cs with
  | nil => intro i; simp [elemKids, Node.sizeList]
  | cons c cs ih =>
    intro i
    have := ih (i + 1)
    simp only [elemKids]
    split <;> simp [Node.sizeList] <;> omega

theorem sizeList_append (xs ys : List Node) :
    Node.sizeList (xs ++ ys) = Node.sizeList xs + Node.sizeList ys := by
  induction xs with
  | nil => simp [Node.sizeList]
  | cons x xs ih => simp [Node.sizeList, ih]; omega

theorem sizeList_childNodes_lt (n : Node) : Node.sizeList n.childNodes < n.size := by
  cases n <;> simp [Node.childNodes, Node.size, Node.sizeList]


/-! ### Path order lemmas -/

theorem docLt_irrefl : ∀ p : Path, ¬ Path.docLt p p
  | [] => by simp [Path.docLt]
  | i :: p => by
    simp only [Path.docLt, lt_self_iff_false, true_and, false_or]
    exact docLt_irrefl p

theorem docLt_append (a b : Path) : ∀ p q : Path, Path.docLt p q → Path.docLt (p ++ a) (q ++ b)
  | [], _, h => by simp [Path.docLt] at h
  | _ :: _, [], h => by simp [Path.docLt] at h
  | i :: p, j :: q, h => by
    simp only [Path.docLt] at h
    simp only [List.cons_append, Path.docLt]
    rcases h with h | ⟨h1, h2⟩
    · exact Or.inl h
    · exact Or.inr ⟨h1, docLt_append a b p q h2⟩

theorem docLt_snoc (i j : Nat) (h : i < j) : ∀ p : Path, Path.docLt (p ++ [i]) (p ++ [j])
  | [] => by simp [Path.docLt, h]
  | k :: p => by
    simp only [List.cons_append, Path.docLt, lt_self_iff_false, true_and, false_or]
    exact docLt_snoc i j h p

theorem bfsLt_irrefl (p : Path) : ¬ Path.bfsLt p p := by
  intro h
  rcases h with h | ⟨_, h⟩
  · omega
  · exact docLt_irrefl p h

theorem bfsLt_snoc_snoc (p q : Path) (i j : Nat) (h : Path.bfsLt p q) :
    Path.bfsLt (p ++ [i]) (q ++ [j]) := by
  rcases h with h | ⟨h1, h2⟩
  · left; simp; omega
  · right; exact ⟨by simp [h1], docLt_append _ _ p q h2⟩

theorem bfsLt_nil_snoc (q : Path) (j : Nat) : Path.bfsLt [] (q ++ [j]) := by
  left; simp

theorem bfsLt_self_snoc (q : Path) (j : Nat) : Path.bfsLt q (q ++ [j]) := by
  left; simp

/-! ### Dereferencing lemmas -/

theorem getAt_append (p q : Path) : ∀ root : Node,
    root.getAt (p ++ q) = (root.getAt p).bind (fun n => n.getAt q) := by
  induction p with
  | nil => intro root; simp [Node.getAt]
  | cons i p ih =>
    intro root
    cases root with
    | element t a cs =>
      simp only [List.cons_append, Node.getAt]
      cases h : cs.get? i with
      | none => simp
      | some c => simpa using ih c
    | text v => simp [Node.getAt]
    | comment v => simp [Node.getAt]

theorem getAt_singleton (n : Node) (i : Nat) : n.getAt [i] = n.childNodes.get? i := by
  cases n with
  | element t a cs =>
    simp only [Node.getAt, Node.childNodes]
    cases cs.get? i <;> simp [Node.getAt]
  | text v => simp [Node.getAt, Node.childNodes]
  | comment v => simp [Node.getAt, Node.childNodes]

theorem nodeType_eq_one_iff (n : Node) : n.nodeType = 1 ↔ ∃ t a cs, n = .element t a cs := by
  cases n <;> simp [Node.nodeType]

/-! ### The loop invariant of `bfsOrder` -/

theorem BfsInv.init (root : Node) : BfsInv root [([], root)] [] where
  valid := by simp [Node.getAt]
  sorted := by simp
  parent := by simp
  closed := by simp
  first := by simp

theorem BfsInv.step {root : Node} {h : Path × Node} {inq outq : List (Path × Node)}
    (inv : BfsInv root (h :: inq) outq) :
    BfsInv root (inq ++ elemKids h.1 0 h.2.childNodes) (outq ++ [h]) := by
  have hre : outq ++ [h] ++ (inq ++ elemKids h.1 0 h.2.childNodes)
      = (outq ++ h :: inq) ++ elemKids h.1 0 h.2.childNodes := by simp
  have hval := inv.valid h (by simp)
  refine ⟨?_, ?_, ?_, ?_, ?_⟩
  · intro x hx
    rw [hre, List.mem_append] at hx
    rcases hx with hx | hx
    · exact inv.valid x hx
    · obtain ⟨j, c, hj, hc, rfl⟩ := (mem_elemKids _ _ _ _).1 hx
      refine ⟨?_, fun _ => hc⟩
      simp only [Nat.zero_add]
      rw [getAt_append, hval.1]
      simpa [getAt_singleton] using hj
  · rw [hre, List.map_append, List.pairwise_append]
    refine ⟨inv.sorted, ?_, ?_⟩
    · -- the children of `h` are in document order
      have : ∀ (cs : List Node) (i : Nat),
          ((elemKids h.1 i cs).map Prod.fst).Pairwise Path.bfsLt ∧
          ∀ x ∈ elemKids h.1 i cs, ∃ j, i ≤ j ∧ x.1 = h.1 ++ [j] := by
        intro cs
        induction cs with
        | nil => intro i; simp [elemKids]
        | cons c cs ih =>
          intro i
          obtain ⟨ih1, ih2⟩ := ih (i + 1)
          simp only [elemKids]
          split
          · refine ⟨?_, ?_⟩
            · simp only [List.singleton_append, List.map_cons, List.pairwise_cons]
              refine ⟨?_, ih1⟩
              intro q hq
              obtain ⟨x, hx, rfl⟩ := List.mem_map.1 hq
              obtain ⟨j, hj, hxj⟩ := ih2 x hx
              rw [hxj]
              exact Or.inr ⟨by simp, docLt_snoc i j (by omega) _⟩
            · intro x hx
              simp only [List.singleton_append, List.mem_cons] at hx
              rcases hx with rfl | hx
              · exact ⟨i, le_refl _, rfl⟩
              · obtain ⟨j, hj, hxj⟩ := ih2 x hx
                exact ⟨j, by omega, hxj⟩
          · refine ⟨by simpa using ih1, ?_⟩
            intro x hx
            simp only [List.nil_append] at hx
            obtain ⟨j, hj, hxj⟩ := ih2 x hx
            exact ⟨j, by omega, hxj⟩
      exact (this _ 0).1
    · intro a ha b hb
      obtain ⟨x, hx, rfl⟩ := List.mem_map.1 ha
      obtain ⟨k, hk, rfl⟩ := List.mem_map.1 hb
      obtain ⟨j, c, -, -, rfl⟩ := (mem_elemKids _ _ _ _).1 hk
      simp only [Nat.zero_add]
      rcases inv.parent x hx with hx0 | ⟨y, hy, i, hyi⟩
      · rw [hx0]; exact bfsLt_nil_snoc _ _
      · rw [hyi]
        apply bfsLt_snoc_snoc
        have hs := inv.sorted
        rw [List.map_append, List.pairwise_append] at hs
        exact hs.2.2 y.1 (List.mem_map.2 ⟨y, hy, rfl⟩) h.1 (by simp)
  · intro x hx
    rw [hre, List.mem_append] at hx
    rcases hx with hx | hx
    · rcases inv.parent x hx with hx0 | ⟨y, hy, i, hyi⟩
      · exact Or.inl hx0
      · exact Or.inr ⟨y, by simp [hy], i, hyi⟩
    · obtain ⟨j, c, -, -, rfl⟩ := (mem_elemKids _ _ _ _).1 hx
      exact Or.inr ⟨h, by simp, j, by simp⟩
  · intro y hy i c hi hc
    rw [hre]
    rw [List.mem_append, List.mem_singleton] at hy
    rcases hy with hy | rfl
    · exact List.mem_append_left _ (inv.closed y hy i c hi hc)
    · exact List.mem_append_right _ ((mem_elemKids _ _ _ _).2 ⟨i, c, hi, hc, by simp⟩)
  · rw [hre]
    have := inv.first
    cases hq : outq ++ h :: inq with
    | nil => simp at hq
    | cons z zs => rw [hq] at this; simpa using this

/-- With enough iterations the loop of `bfsOrder` ends on an empty queue,
and the invariant holds of its result. -/
theorem bfsLoop_inv (root : Node) : ∀ (fuel : Nat) (inq outq : List (Path × Node)),
    Node.sizeList (inq.map Prod.snd) < fuel → BfsInv root inq outq →
    BfsInv root [] (bfsLoop fuel inq outq) := by
  intro fuel
  induction fuel with
  | zero => intro inq outq h; omega
  | succ fuel ih =>
    intro inq outq hf inv
    cases inq with
    | nil => simpa [bfsLoop] using inv
    | cons h inq =>
      simp only [bfsLoop, pushElementChildren_eq]
      apply ih _ _ _ inv.step
      have h1 := sizeList_elemKids h.1 h.2.childNodes 0
      have h2 := sizeList_childNodes_lt h.2
      simp only [List.map_cons, Node.sizeList, List.map_append, sizeList_append] at hf ⊢
      omega


theorem bfsOrder_eq (root : Node) :
    ∃ o : List (Path × Node), BfsInv root [] (([], root) :: o) ∧ bfsOrder root = o.map Prod.fst := by
  have inv := bfsLoop_inv root (root.size + 1) [([], root)] []
    (by simp [Node.sizeList]) (BfsInv.init root)
  have hf := inv.first
  cases hres : bfsLoop (root.size + 1) [([], root)] [] with
  | nil => rw [hres] at hf; simp at hf
  | cons z o =>
    rw [hres] at hf inv
    simp only [List.append_nil, List.head?_cons, Option.some.injEq] at hf
    subst hf
    exact ⟨o, inv, by simp [bfsOrder, hres]⟩

theorem bfsOrder_sorted (root : Node) : (bfsOrder root).Pairwise Path.bfsLt := by
  obtain ⟨o, inv, ho⟩ := bfsOrder_eq root
  have hs := inv.sorted
  simp only [List.append_nil, List.map_cons, List.pairwise_cons] at hs
  rw [ho]; exact hs.2

theorem mem_bfsOrder (root : Node) (p : Path) :
    p ∈ bfsOrder root ↔ p ≠ [] ∧ root.isElementAt p := by
  obtain ⟨o, inv, ho⟩ := bfsOrder_eq root
  rw [ho]
  constructor
  · intro hp
    obtain ⟨x, hx, rfl⟩ := List.mem_map.1 hp
    have hs := inv.sorted
    simp only [List.append_nil, List.map_cons, List.pairwise_cons] at hs
    have hne : x.1 ≠ [] := by
      intro h0
      have := hs.1 x.1 (List.mem_map.2 ⟨x, hx, rfl⟩)
      rw [h0] at this
      exact bfsLt_irrefl [] this
    have hv := inv.valid x (by simp [hx])
    obtain ⟨t, a, cs, hn⟩ := (nodeType_eq_one_iff _).1 (hv.2 hne)
    exact ⟨hne, t, a, cs, by rw [hv.1, hn]⟩
  · -- every element reachable from the root has been dequeued
    have key : ∀ (n : Nat) (p : Path) (m : Node), p.length = n → root.getAt p = some m →
        (p ≠ [] → m.nodeType = 1) → (p, m) ∈ ([], root) :: o := by
      intro n
      induction n with
      | zero =>
        intro p m hl hg _
        have : p = [] := List.length_eq_zero.1 hl
        subst this
        simp only [Node.getAt, Option.some.injEq] at hg
        subst hg
        simp
      | succ n ih =>
        intro p m hl hg hm
        obtain ⟨q, i, rfl⟩ : ∃ q i, p = q ++ [i] := by
          rcases List.eq_nil_or_concat p with h | ⟨q, i, h⟩
          · subst h; simp at hl
          · exact ⟨q, i, by simpa using h⟩
        rw [getAt_append] at hg
        cases hq : root.getAt q with
        | none => rw [hq] at hg; simp at hg
        | some y =>
          rw [hq] at hg
          simp only [Option.some_bind, getAt_singleton] at hg
          have hy1 : y.nodeType = 1 := by
            cases y with
            | element => rfl
            | text => simp [Node.childNodes] at hg
            | comment => simp [Node.childNodes] at hg
          have hmem := ih q y (by simpa using hl) hq (fun _ => hy1)
          have := inv.closed (q, y) hmem i m hg (hm (by simp))
          simpa using this
    rintro ⟨hne, t, a, cs, hg⟩
    have := key p.length p _ rfl hg (fun _ => rfl)
    simp only [List.mem_cons, Prod.mk.injEq] at this
    rcases this with ⟨h0, _⟩ | h
    · exact absurd h0 hne
    · exact List.mem_map.2 ⟨_, h, rfl⟩

/-- C2. `bfsOrder(root)` lists exactly the element nodes that are proper
descendants of the root (never the root, never a text or comment node), each
once, in breadth-first order: depth never decreases along the list, and two
nodes of the same depth appear in document order. -/
theorem bfsOrder_breadth_first (root : Node) :
    (∀ p : Path, p ∈ bfsOrder root ↔ p ≠ [] ∧ root.isElementAt p) ∧
    (bfsOrder root).Nodup ∧
    (bfsOrder root).Pairwise
      (fun p q => p.length < q.length ∨ (p.length = q.length ∧ Path.docLt p q)) := by
  refine ⟨mem_bfsOrder root, ?_, bfsOrder_sorted root⟩
  have := bfsOrder_sorted root
  have hne : ∀ {a b : Path}, Path.bfsLt a b → a ≠ b := by
    intro a b h hab
    subst hab
    exact bfsLt_irrefl a h
  exact List.Pairwise.imp hne this

theorem isElementAt_of_descendant (root : Node) (a s : Path) (hs : s ≠ [])
    (h : root.isElementAt (a ++ s)) : root.isElementAt a := by
  obtain ⟨t, at', cs, hg⟩ := h
  rw [getAt_append] at hg
  cases ha : root.getAt a with
  | none => rw [ha] at hg; simp at hg
  | some y =>
    rw [ha] at hg
    cases s with
    | nil => exact absurd rfl hs
    | cons i s =>
      cases y with
      | element t2 a2 cs2 => exact ⟨t2, a2, cs2, ha⟩
      | text => simp [Node.getAt] at hg
      | comment => simp [Node.getAt] at hg


/-! ## Theorems on `replacementForNode` -/

theorem indexOf_eq_neg_one_iff (array : List JSString) (x : JSString) :
    indexOf array x = -1 ↔ x ∉ array := by
  induction array with
  | nil => simp [indexOf]
  | cons y rest ih =>
    have hnn : ∀ (l : List JSString), 0 ≤ indexOf l x ∨ indexOf l x = -1 := by
      intro l
      induction l with
      | nil => right; simp [indexOf]
      | cons z l ihl =>
        simp only [indexOf]
        split
        · left; omega
        · split
          · right; rfl
          · left; rcases ihl with h | h
            · omega
            · contradiction
    simp only [indexOf, List.mem_cons, not_or]
    by_cases hy : y = x
    · simp [hy]
    · simp only [hy, if_false]
      have hxy : ¬ x = y := fun h => hy h.symm
      split
      · rename_i hk
        simp [hxy, ih.1 hk]
      · rename_i hk
        have hmem : ¬ (x ∉ rest) := fun h => hk (ih.2 h)
        constructor
        · intro h
          rcases hnn rest with h' | h'
          · omega
          · exact absurd h' hk
        · intro h; exact absurd h.2 hmem

theorem isBlankString_iff (s : JSString) :
    isBlankString s = true ↔ ∀ c ∈ s, isWhiteSpace c = true := by
  simp [isBlankString, List.all_eq_true]

theorem convertersLoop_no_match (host : Host) (node : Node) (inner : JSString) :
    ∀ (cs : List Converter) (i : Nat),
      (∀ c ∈ cs, canConvertNode host node c.filter = .ok false) →
      convertersLoop host node inner i cs =
        (.ok none, (List.range' i cs.length).map Event.filterEvaluated) := by
  intro cs
  induction cs with
  | nil => intro i _; simp [convertersLoop]
  | cons c cs ih =>
    intro i h
    have hc := h c (by simp)
    have hcs := ih (i + 1) (fun d hd => h d (by simp [hd]))
    simp [convertersLoop, hc, hcs, List.range'_succ]

theorem convertersLoop_first_match (host : Host) (node : Node) (inner : JSString)
    (f : Filter) (r : Replacement) (post : List Converter)
    (hf : canConvertNode host node f = .ok true) :
    ∀ (pre : List Converter) (i : Nat),
      (∀ c ∈ pre, canConvertNode host node c.filter = .ok false) →
      convertersLoop host node inner i (pre ++ ⟨f, r⟩ :: post) =
        (match r with
          | .function call =>
            (.ok (some (.text (call (host.decodeHTMLEntities inner) node).toDOMString)),
              (List.range' i (pre.length + 1)).map Event.filterEvaluated ++
                [Event.replacementInvoked (i + pre.length)])
          | .other =>
            (.error .replacementError,
              (List.range' i (pre.length + 1)).map Event.filterEvaluated)) := by
  intro pre
  induction pre with
  | nil =>
    intro i _
    cases r <;> simp [convertersLoop, hf]
  | cons c pre ih =>
    intro i h
    have hc := h c (by simp)
    have hpre := ih (i + 1) (fun d hd => h d (by simp [hd]))
    have e1 : i + 1 + pre.length = i + (pre.length + 1) := by omega
    have hstep : convertersLoop host node inner i (c :: (pre ++ ⟨f, r⟩ :: post)) =
        ((convertersLoop host node inner (i + 1) (pre ++ ⟨f, r⟩ :: post)).1,
          Event.filterEvaluated i ::
            (convertersLoop host node inner (i + 1) (pre ++ ⟨f, r⟩ :: post)).2) := by
      simp only [convertersLoop, hc]
    rw [List.cons_append, hstep, hpre, List.length_cons,
      List.range'_succ i (pre.length + 1), e1]
    cases r <;> simp

theorem replacementForNode_not_blank (host : Host) (node : Node) (tagName inner : JSString)
    (htag : node.tagName = some tagName) (hinner : node.innerHTML = some inner)
    (hnb : ¬ (toLowerCase tagName ∉ VOID_ELEMENTS ∧ ∀ c ∈ inner, isWhiteSpace c = true)) :
    replacementForNode host node = convertersLoop host node inner 0 host.converters := by
  simp only [replacementForNode, htag, hinner, indexOf_eq_neg_one_iff, isBlankString_iff]
  rw [if_neg hnb]

theorem replacementForNode_blank (host : Host) (node : Node) (tagName inner : JSString)
    (htag : node.tagName = some tagName) (hinner : node.innerHTML = some inner)
    (hb : toLowerCase tagName ∉ VOID_ELEMENTS ∧ ∀ c ∈ inner, isWhiteSpace c = true) :
    replacementForNode host node = (.ok (some (.text [])), []) := by
  simp only [replacementForNode, htag, hinner, indexOf_eq_neg_one_iff, isBlankString_iff]
  rw [if_pos hb]

theorem convertersLoop_calls_nil (host : Host) (node : Node) (inner : JSString) (i : Nat)
    (cs : List Converter) (h : (convertersLoop host node inner i cs).2 = []) :
    convertersLoop host node inner i cs = (.ok none, []) := by
  cases cs with
  | nil => simp [convertersLoop]
  | cons c cs =>
    simp only [convertersLoop] at h
    split at h
    · simp at h
    · simp at h
    · split at h <;> simp at h

/-- C3. Rule precedence. For a node that is not blank, when rule `i` is the
first rule whose filter accepts the node (the filter of every rule before
it returns false) and its replacement is a function, `replacementForNode`
returns the text node holding what that function returns for the decoded
`innerHTML` and the node, which is exactly the returned string when it
returns a string. The calls made are the filters of rules 0 to `i`, once
each, then the replacement of rule `i`: whatever the rules after `i` are,
also rules that match or rules with an invalid filter, none of their
filters is evaluated and none of their replacements is invoked. -/
theorem replacementForNode_first_match_wins (host : Host) (node : Node)
    (tagName inner : JSString) (pre post : List Converter) (f : Filter)
    (call : JSString → Node → JSValue)
    (htag : node.tagName = some tagName) (hinner : node.innerHTML = some inner)
    (hnb : ¬ (toLowerCase tagName ∉ VOID_ELEMENTS ∧ ∀ c ∈ inner, isWhiteSpace c = true))
    (hrules : host.converters = pre ++ ⟨f, .function call⟩ :: post)
    (hpre : ∀ c ∈ pre, canConvertNode host node c.filter = .ok false)
    (hf : canConvertNode host node f = .ok true) :
    (replacementForNode host node).1 =
        .ok (some (.text (call (host.decodeHTMLEntities inner) node).toDOMString)) ∧
    (∀ out : JSString, call (host.decodeHTMLEntities inner) node = .string out →
      (replacementForNode host node).1 = .ok (some (.text out))) ∧
    (replacementForNode host node).2 =
        (List.range (pre.length + 1)).map Event.filterEvaluated ++
          [Event.replacementInvoked pre.length] ∧
    (∀ j : Nat, pre.length < j →
      Event.filterEvaluated j ∉ (replacementForNode host node).2 ∧
      Event.replacementInvoked j ∉ (replacementForNode host node).2) := by
  have h := replacementForNode_not_blank host node tagName inner htag hinner hnb
  rw [hrules, convertersLoop_first_match host node inner f _ post hf pre 0 hpre] at h
  simp only [Nat.zero_add] at h
  rw [h]
  refine ⟨rfl, ?_, ?_, ?_⟩
  · intro out hout
    simp [hout, JSValue.toDOMString]
  · simp [List.range_eq_range']
  · intro j hj
    simp only [List.mem_append, List.mem_map, List.mem_range', List.mem_singleton]
    constructor
    · rintro (⟨k, hk, hkj⟩ | h')
      · simp only [Event.filterEvaluated.injEq] at hkj
        obtain ⟨m, hm, rfl⟩ := hk
        omega
      · cases h'
    · rintro (⟨k, hk, hkj⟩ | h')
      · cases hkj
      · simp only [Event.replacementInvoked.injEq] at h'
        omega

/-- C5. Pass-through. For an element that is not blank and for which the
filter of every rule returns false, `replacementForNode` returns `null`
after evaluating every filter once and invoking no replacement, and the
pass of the loop of `toMarkdown` for that node calls no `replaceChild`: the
tree after the pass is the tree before it. -/
theorem replacementForNode_pass_through (host : Host) (node : Node)
    (tagName inner : JSString)
    (htag : node.tagName = some tagName) (hinner : node.innerHTML = some inner)
    (hnb : ¬ (toLowerCase tagName ∉ VOID_ELEMENTS ∧ ∀ c ∈ inner, isWhiteSpace c = true))
    (hno : ∀ c ∈ host.converters, canConvertNode host node c.filter = .ok false) :
    replacementForNode host node =
        (.ok none, (List.range host.converters.length).map Event.filterEvaluated) ∧
    (∀ (tree : Node) (p : Path), tree.getAt p = some node →
      (replaceStep host tree p).1 = .ok tree ∧
      (∀ i : Nat, (p, Event.replacementInvoked i) ∉ (replaceStep host tree p).2)) := by
  have h := replacementForNode_not_blank host node tagName inner htag hinner hnb
  rw [convertersLoop_no_match host node inner _ 0 hno] at h
  refine ⟨by rw [h, List.range_eq_range'], ?_⟩
  intro tree p hp
  simp only [replaceStep, hp, h]
  refine ⟨trivial, ?_⟩
  intro i
  simp

/-! ## Theorems on the loop of `toMarkdown` -/

theorem isElementAt_replaceAt (r : Node) : ∀ (p q : Path) (tree : Node),
    tree.isElementAt q → ¬ p <+: q → (tree.replaceAt p r).isElementAt q := by
  intro p
  induction p with
  | nil => intro q tree _ h; exact absurd List.nil_prefix h
  | cons i p ih =>
    intro q tree hq hpq
    obtain ⟨t, a, cs, hg⟩ := hq
    cases tree with
    | text v => cases q <;> simp [Node.getAt] at hg
    | comment v => cases q <;> simp [Node.getAt] at hg
    | element t0 a0 cs0 =>
      cases q with
      | nil =>
        simp only [Node.replaceAt]
        split <;> exact ⟨_, _, _, rfl⟩
      | cons j q =>
        simp only [Node.getAt, List.get?_eq_getElem?] at hg
        cases hj : cs0[j]? with
        | none => simp [hj] at hg
        | some c =>
          simp only [hj] at hg
          simp only [Node.replaceAt, List.get?_eq_getElem?]
          cases hi : cs0[i]? with
          | none =>
            exact ⟨t, a, cs, by simp [Node.getAt, List.get?_eq_getElem?, hj, hg]⟩
          | some ci =>
            simp only []
            by_cases hij : i = j
            · subst hij
              have hci : ci = c := by rw [hi] at hj; exact Option.some.inj hj
              subst hci
              have hpq' : ¬ p <+: q := fun h => hpq (List.cons_prefix_cons.2 ⟨rfl, h⟩)
              obtain ⟨t', a', cs', hg'⟩ := ih q ci ⟨t, a, cs, hg⟩ hpq'
              have hlt : i < cs0.length := by
                rw [List.getElem?_eq_some_iff] at hi
                exact hi.1
              refine ⟨t', a', cs', ?_⟩
              simp only [Node.getAt, List.get?_eq_getElem?]
              rw [List.getElem?_set_self hlt]
              simpa using hg'
            · refine ⟨t, a, cs, ?_⟩
              simp only [Node.getAt, List.get?_eq_getElem?]
              rw [List.getElem?_set_ne hij, hj]
              simpa using hg

theorem canConvertNode_ne_typeError (host : Host) (node : Node) (f : Filter) :
    canConvertNode host node f ≠ .error .typeError := by
  cases f with
  | regExp test => simp only [canConvertNode]; split <;> simp
  | string pattern =>
    simp only [canConvertNode]
    split
    · split <;> simp
    · simp
  | function call => simp [canConvertNode]
  | other => simp [canConvertNode]

theorem convertersLoop_ne_typeError (host : Host) (node : Node) (inner : JSString) :
    ∀ (cs : List Converter) (i : Nat),
      (convertersLoop host node inner i cs).1 ≠ .error .typeError := by
  intro cs
  induction cs with
  | nil => intro i; simp [convertersLoop]
  | cons c cs ih =>
    intro i
    simp only [convertersLoop]
    split
    · rename_i e he
      intro h
      simp only [Except.error.injEq] at h
      subst h
      exact canConvertNode_ne_typeError host node c.filter he
    · exact ih (i + 1)
    · split <;> simp

theorem replacementForNode_element (host : Host) (t : JSString)
    (a : List (JSString × JSString)) (cs : List Node) :
    (∃ e calls, replacementForNode host (.element t a cs) = (.error e, calls) ∧
        e ≠ .typeError) ∨
    (∃ calls, replacementForNode host (.element t a cs) = (.ok none, calls)) ∨
    (∃ v calls, replacementForNode host (.element t a cs) = (.ok (some (.text v)), calls)) := by
  have hform : ∀ (inner : JSString) (cs' : List Converter) (i : Nat),
      (∃ e calls, convertersLoop host (.element t a cs) inner i cs' = (.error e, calls) ∧
          e ≠ .typeError) ∨
      (∃ calls, convertersLoop host (.element t a cs) inner i cs' = (.ok none, calls)) ∨
      (∃ v calls, convertersLoop host (.element t a cs) inner i cs' =
        (.ok (some (.text v)), calls)) := by
    intro inner cs'
    induction cs' with
    | nil => intro i; right; left; exact ⟨[], by simp [convertersLoop]⟩
    | cons c cs' ih =>
      intro i
      simp only [convertersLoop]
      split
      · rename_i e he
        left
        refine ⟨e, _, rfl, ?_⟩
        intro h; subst h
        exact canConvertNode_ne_typeError host _ c.filter he
      · rcases ih (i + 1) with ⟨e, calls, h, he⟩ | ⟨calls, h⟩ | ⟨v, calls, h⟩
        · left; exact ⟨e, _, by rw [h], he⟩
        · right; left; exact ⟨_, by rw [h]⟩
        · right; right; exact ⟨v, _, by rw [h]⟩
      · split
        · left; exact ⟨_, _, rfl, by simp⟩
        · right; right; exact ⟨_, _, rfl⟩
  simp only [replacementForNode, Node.tagName, Node.innerHTML]
  split
  · rename_i tagName inner h1 h2
    split
    · right; right; exact ⟨[], [], rfl⟩
    · exact hform _ _ _
  · rename_i h
    exfalso
    by_cases hv : toLowerCase t ∈ serializesAsVoid
    · exact h t [] rfl (by simp [hv])
    · exact h t (Node.serializeChildren (decide (toLowerCase t ∈ rawTextElements)) cs) rfl
        (by simp [hv])

theorem replaceStep_cases (host : Host) (tree : Node) (p : Path)
    (hp : tree.isElementAt p) :
    (∃ e calls, replaceStep host tree p = (.error e, calls) ∧ e ≠ .typeError) ∨
    (∃ calls, replaceStep host tree p = (.ok tree, calls)) ∨
    (∃ v calls, replaceStep host tree p = (.ok (tree.replaceAt p (.text v)), calls)) := by
  obtain ⟨t, a, cs, hg⟩ := hp
  simp only [replaceStep, hg]
  rcases replacementForNode_element host t a cs with
    ⟨e, calls, h, he⟩ | ⟨calls, h⟩ | ⟨v, calls, h⟩
  · left; exact ⟨e, _, by rw [h], he⟩
  · right; left; exact ⟨_, by rw [h]⟩
  · right; right; exact ⟨v, _, by rw [h]⟩

/-- The loop of `toMarkdown` keeps every element whose reference has no
visited reference as a prefix. -/
theorem replaceLoop_isElementAt (host : Host) : ∀ (visit : List Path) (tree tree' : Node)
    (calls : List (Path × Event)),
    (∀ p ∈ visit, tree.isElementAt p) →
    visit.Pairwise (fun p q => ¬ p <+: q) →
    replaceLoop host visit tree = (.ok tree', calls) →
    ∀ q : Path, tree.isElementAt q → (∀ p ∈ visit, ¬ p <+: q) → tree'.isElementAt q := by
  intro visit
  induction visit with
  | nil =>
    intro tree tree' calls _ _ h q hq _
    simp only [replaceLoop, Prod.mk.injEq, Except.ok.injEq] at h
    rw [← h.1]; exact hq
  | cons p rest ih =>
    intro tree tree' calls hel hpw h q hq hnp
    rw [List.pairwise_cons] at hpw
    have hstep := replaceStep_cases host tree p (hel p (by simp))
    simp only [replaceLoop] at h
    rcases hstep with ⟨e, c, hs, -⟩ | ⟨c, hs⟩ | ⟨v, c, hs⟩
    · rw [hs] at h; simp at h
    · rw [hs] at h
      simp only [Prod.mk.injEq] at h
      exact ih tree tree' _ (fun x hx => hel x (by simp [hx])) hpw.2
        (Prod.ext h.1 rfl) q hq (fun x hx => hnp x (by simp [hx]))
    · rw [hs] at h
      simp only [Prod.mk.injEq] at h
      exact ih (tree.replaceAt p (.text v)) tree' _
        (fun x hx => isElementAt_replaceAt _ p x tree (hel x (by simp [hx])) (hpw.1 x hx))
        hpw.2 (Prod.ext h.1 rfl) q
        (isElementAt_replaceAt _ p q tree hq (hnp p (by simp)))
        (fun x hx => hnp x (by simp [hx]))

/-- The loop of `toMarkdown` never dereferences a missing node. -/
theorem replaceLoop_ne_typeError (host : Host) : ∀ (visit : List Path) (tree : Node),
    (∀ p ∈ visit, tree.isElementAt p) →
    visit.Pairwise (fun p q => ¬ p <+: q) →
    (replaceLoop host visit tree).1 ≠ .error .typeError := by
  intro visit
  induction visit with
  | nil => intro tree _ _; simp [replaceLoop]
  | cons p rest ih =>
    intro tree hel hpw
    rw [List.pairwise_cons] at hpw
    have hstep := replaceStep_cases host tree p (hel p (by simp))
    simp only [replaceLoop]
    rcases hstep with ⟨e, c, hs, he⟩ | ⟨c, hs⟩ | ⟨v, c, hs⟩
    · rw [hs]; simpa using he
    · rw [hs]
      exact ih tree (fun x hx => hel x (by simp [hx])) hpw.2
    · rw [hs]
      exact ih _
        (fun x hx => isElementAt_replaceAt _ p x tree (hel x (by simp [hx])) (hpw.1 x hx))
        hpw.2

theorem not_ancestor_of_bfsLt (p q : Path) (h : Path.bfsLt q p) : ¬ p <+: q := by
  rintro ⟨s, rfl⟩
  rcases h with h | ⟨h1, h2⟩
  · simp at h
  · have : s = [] := by simpa using h1
    subst this
    simp only [List.append_nil] at h2
    exact docLt_irrefl p h2

theorem bfsOrder_reverse_pairwise (root : Node) :
    (bfsOrder root).reverse.Pairwise (fun p q => ¬ p <+: q) := by
  rw [List.pairwise_reverse]
  exact (bfsOrder_sorted root).imp (fun {a b} h => not_ancestor_of_bfsLt b a h)

theorem replaceLoop_append (host : Host) : ∀ (pre rest : List Path) (tree : Node),
    replaceLoop host (pre ++ rest) tree =
      match replaceLoop host pre tree with
      | (.error e, calls) => (.error e, calls)
      | (.ok tree', calls) =>
        ((replaceLoop host rest tree').1, calls ++ (replaceLoop host rest tree').2) := by
  intro pre
  induction pre with
  | nil => intro rest tree; simp [replaceLoop]
  | cons p pre ih =>
    intro rest tree
    rw [List.cons_append]
    simp only [replaceLoop]
    rcases hs : replaceStep host tree p with ⟨_ | tree1, c1⟩
    · simp
    · simp only []
      rw [ih rest tree1]
      rcases hl : replaceLoop host pre tree1 with ⟨_ | tree2, c2⟩ <;> simp

/-- C1. `toMarkdown` visits `bfsOrder(clone)` from its last entry to its
first. Let `q` be any entry, `pre` the entries visited before it and `post`
the entries visited after it. Every element that is a proper descendant of
`q` is in `pre`, so it has been processed when `q` is handed to
`replacementForNode`; no proper ancestor of `q` is in `pre`, and every
proper ancestor below the root is in `post`: every element is processed
before each of its proper ancestors. In the tree that the loop has reached
when it comes to `q` (the result of the loop over `pre`), `q` and all its
ancestors are still elements: none of them has been replaced. -/
theorem reverse_bfsOrder_descendants_first (host : Host) (root : Node)
    (pre post : List Path) (q : Path)
    (h : (bfsOrder root).reverse = pre ++ q :: post) :
    (∀ d : Path, root.isElementAt d → Path.IsProperAncestor q d → d ∈ pre) ∧
    (∀ a : Path, Path.IsProperAncestor a q → a ∉ pre) ∧
    (∀ a : Path, a ≠ [] → Path.IsProperAncestor a q → a ∈ post) ∧
    (∀ (tree : Node) (calls : List (Path × Event)),
      replaceLoop host pre root = (.ok tree, calls) →
      tree.isElementAt q ∧ ∀ a : Path, Path.IsProperAncestor a q → tree.isElementAt a) := by
  have hord : bfsOrder root = post.reverse ++ q :: pre.reverse := by
    have := congrArg List.reverse h
    simpa using this
  have hs := bfsOrder_sorted root
  rw [hord, List.pairwise_append, List.pairwise_cons] at hs
  obtain ⟨-, ⟨hq, -⟩, hpost⟩ := hs
  have hqmem : q ∈ bfsOrder root := by rw [hord]; simp
  have hqel := ((mem_bfsOrder root q).1 hqmem).2
  have hlen : ∀ p s : Path, s ≠ [] → ¬ Path.bfsLt (p ++ s) p := by
    intro p s hs hlt
    rcases hlt with hl | ⟨hl, -⟩
    · simp at hl
    · simp at hl; exact hs hl
  refine ⟨?_, ?_, ?_, ?_⟩
  · rintro d hd ⟨s, hs, rfl⟩
    have hmem : q ++ s ∈ bfsOrder root := (mem_bfsOrder root _).2 ⟨by simp [hs], hd⟩
    rw [hord] at hmem
    simp only [List.mem_append, List.mem_reverse, List.mem_cons] at hmem
    rcases hmem with hm | hm | hm
    · exact absurd (hpost _ (by simpa using hm) q (by simp)) (hlen q s hs)
    · exact absurd hm (by simp [hs])
    · exact hm
  · rintro a ⟨s, hs, rfl⟩ hmem
    exact hlen a s hs (hq a (by simpa using hmem))
  · rintro a ha ⟨s, hs, rfl⟩
    have hmem : a ∈ bfsOrder root :=
      (mem_bfsOrder root _).2 ⟨ha, isElementAt_of_descendant root a s hs hqel⟩
    rw [hord] at hmem
    simp only [List.mem_append, List.mem_reverse, List.mem_cons] at hmem
    rcases hmem with hm | hm | hm
    · exact hm
    · exact absurd hm.symm (by simp [hs])
    · exact absurd (hq a (by simpa using hm)) (hlen a s hs)
  · intro tree calls hloop
    have hpw := bfsOrder_reverse_pairwise root
    rw [h, List.pairwise_append] at hpw
    obtain ⟨hpre, -, hcross⟩ := hpw
    have hpreel : ∀ p ∈ pre, root.isElementAt p := by
      intro p hp
      have : p ∈ bfsOrder root := by rw [hord]; simp [hp]
      exact ((mem_bfsOrder root p).1 this).2
    have hnq : ∀ p ∈ pre, ¬ p <+: q := fun p hp => hcross p hp q (by simp)
    refine ⟨replaceLoop_isElementAt host pre root tree calls hpreel hpre hloop q hqel hnq, ?_⟩
    rintro a ⟨s, hs, rfl⟩
    refine replaceLoop_isElementAt host pre root tree calls hpreel hpre hloop a
      (isElementAt_of_descendant root a s hs hqel) ?_
    intro p hp hpa
    exact hnq p hp (hpa.trans (List.prefix_append a s))

theorem removeBlankNodes_element (host : Host) (t : JSString)
    (a : List (JSString × JSString)) (cs : List Node) :
    ∃ cs', removeBlankNodes host (.element t a cs) = .ok (.element t a cs') := by
  have hsz : Node.size (.element t a cs) = Node.sizeList cs + 1 := by
    simp [Node.size]; omega
  simp only [removeBlankNodes, hsz, removeBlankNodesFuel]
  exact ⟨_, rfl⟩

theorem convertTree_ne_typeError (host : Host) (t : JSString)
    (a : List (JSString × JSString)) (cs : List Node) :
    (convertTree host (.element t a cs)).1 ≠ .error .typeError := by
  obtain ⟨cs', hr⟩ := removeBlankNodes_element host t a cs
  simp only [convertTree, hr]
  have hel : ∀ p ∈ (bfsOrder (.element t a cs')).reverse,
      (Node.element t a cs').isElementAt p := by
    intro p hp
    exact ((mem_bfsOrder _ p).1 (by simpa using hp)).2
  have hpw := bfsOrder_reverse_pairwise (.element t a cs')
  have hne := replaceLoop_ne_typeError host _ _ hel hpw
  rcases hl : replaceLoop host (bfsOrder (.element t a cs')).reverse (.element t a cs')
    with ⟨e | tree, calls⟩
  · rw [hl] at hne
    simpa using hne
  · have hroot := replaceLoop_isElementAt host _ _ tree calls hel hpw hl []
      ⟨t, a, cs', rfl⟩ (by
        intro p hp hpre
        have : p = [] := List.prefix_nil.1 hpre
        subst this
        exact ((mem_bfsOrder _ []).1 (by simpa using hp)).1 rfl)
    obtain ⟨t', a', cs'', hg⟩ := hroot
    simp only [Node.getAt, Option.some.injEq] at hg
    subst hg
    simp only [Node.innerHTML]
    by_cases hv : toLowerCase t' ∈ serializesAsVoid <;> simp [hv]

/-- C8. `toMarkdown(input)` throws a `TypeError` exactly when `input` is not
a string (the collaborators being total functions). In that case the
result does not depend on the host: nothing is escaped, parsed or
normalised, no filter is evaluated, no replacement is invoked and no output
is produced. -/
theorem toMarkdown_typeError_iff (host : Host) (input : JSValue) :
    ((toMarkdown host input).1 = .error .typeError ↔ ∀ s : JSString, input ≠ .string s) ∧
    ((∀ s : JSString, input ≠ .string s) → toMarkdown host input = (.error .typeError, [])) := by
  cases input with
  | string s =>
    simp only [toMarkdown]
    refine ⟨⟨fun h => absurd h (convertTree_ne_typeError host _ _ _), fun h => absurd rfl (h s)⟩,
      fun h => absurd rfl (h s)⟩
  | undefined => simp [toMarkdown]
  | null => simp [toMarkdown]
  | boolean b => simp [toMarkdown]
  | number n => simp [toMarkdown]
  | object => simp [toMarkdown]

/-! ## Blank nodes, void elements and the first end-to-end scenarios -/

/-- C4. Blank-node rule with void exemption. For an element with tag name
`tagName` and inner HTML `inner`, `replacementForNode` returns an empty text
node without evaluating any filter or replacement exactly when the
lower-cased tag name is not in `VOID_ELEMENTS` and `inner` is white space
only (the empty string included). For a tag in `VOID_ELEMENTS` the node is
never treated as blank: when a rule is the first whose filter accepts the
node, its replacement is invoked and gives the text returned. The tree of
`<p>   </p>` converts to the empty string, and no rule is consulted. -/
theorem replacementForNode_blank_iff (host : Host) (node : Node) (tagName inner : JSString)
    (htag : node.tagName = some tagName) (hinner : node.innerHTML = some inner) :
    (replacementForNode host node = (.ok (some (.text [])), []) ↔
      (toLowerCase tagName ∉ VOID_ELEMENTS ∧ ∀ c ∈ inner, isWhiteSpace c = true)) ∧
    (toLowerCase tagName ∈ VOID_ELEMENTS →
      (replacementForNode host node ≠ (.ok (some (.text [])), [])) ∧
      ∀ (pre post : List Converter) (f : Filter) (call : JSString → Node → JSValue),
        host.converters = pre ++ ⟨f, .function call⟩ :: post →
        (∀ c ∈ pre, canConvertNode host node c.filter = .ok false) →
        canConvertNode host node f = .ok true →
        Event.replacementInvoked pre.length ∈ (replacementForNode host node).2 ∧
        (replacementForNode host node).1 =
          .ok (some (.text (call (host.decodeHTMLEntities inner) node).toDOMString))) ∧
    (host.decodeHTMLEntities [] = [] → convertTree host blankParagraph = (.ok [], [])) := by
  have hiff : replacementForNode host node = (.ok (some (.text [])), []) ↔
      (toLowerCase tagName ∉ VOID_ELEMENTS ∧ ∀ c ∈ inner, isWhiteSpace c = true) := by
    constructor
    · intro h
      by_contra hnb
      rw [replacementForNode_not_blank host node tagName inner htag hinner hnb] at h
      have h2 := convertersLoop_calls_nil host node inner 0 host.converters (by rw [h])
      rw [h2] at h
      simp at h
    · exact replacementForNode_blank host node tagName inner htag hinner
  refine ⟨hiff, ?_, ?_⟩
  · intro hvoid
    have hnb : ¬ (toLowerCase tagName ∉ VOID_ELEMENTS ∧ ∀ c ∈ inner, isWhiteSpace c = true) :=
      fun h => h.1 hvoid
    refine ⟨fun h => hnb (hiff.1 h), ?_⟩
    intro pre post f call hrules hpre hf
    have h := replacementForNode_not_blank host node tagName inner htag hinner hnb
    rw [hrules, convertersLoop_first_match host node inner f _ post hf pre 0 hpre] at h
    rw [h]
    simp
  · intro hd
    cases hb : host.blockLevelTag ['B', 'O', 'D', 'Y'] <;>
    cases hp : host.blockLevelTag ['P'] <;>
    cases hs : host.trimSpace ' ' <;>
    simp [convertTree, blankParagraph, removeBlankNodes, removeBlankNodesFuel, Node.size,
      Node.sizeList, removeBlankChildren, hasAdjacentBlockSibling, trimInner, trimStrips,
      Host.isBlockLevel, hb, hp, hs,
      Node.reparseList, Node.reparse, mergeText, stripLeading, stripTrailing, toLowerCase,
      Node.normalizeData, normalizeNewlines, skipNewline,
      serializesAsVoid, rawTextElements, isWhiteSpace, hasNonWhiteSpace, bfsOrder, bfsLoop,
      pushElementChildren, Node.nodeType, Node.childNodes, replaceLoop, replaceStep,
      Node.getAt, replacementForNode, Node.tagName, Node.innerHTML, Node.serializeChildren,
      Node.outerHTML, escapeText, VOID_ELEMENTS, indexOf, isBlankString, Node.replaceAt, hd,
      postProcess, stripEdges, replaceAll]

/-- C6, as the code has it. With a rule list that holds the bold rule only,
the tree of `<p>Hello <b>World</b></p>` converts to
`<p>Hello **World**</p>`: the `b` element is replaced, the `p` element is
matched by no rule and stays in the tree with its tags. With a paragraph
rule after the bold rule the result is `Hello **World**`. -/
theorem convertTree_helloWorld (host : Host) (test : JSString → Bool)
    (hrules : host.converters = [boldRule])
    (hre : host.newRegExp "^b$".toList "i".toList = some test)
    (hB : test "B".toList = true) (hP : test "P".toList = false)
    (hd1 : host.decodeHTMLEntities "World".toList = "World".toList)
    (hd2 : host.decodeHTMLEntities "<p>Hello **World**</p>".toList =
      "<p>Hello **World**</p>".toList) :
    convertTree host helloWorld =
      (.ok "<p>Hello **World**</p>".toList,
        [([0, 1], Event.filterEvaluated 0), ([0, 1], Event.replacementInvoked 0),
         ([0], Event.filterEvaluated 0)]) ∧
    (convertTree (refHost [boldRule, paragraphRule]) helloWorld).1 =
      .ok "Hello **World**".toList := by
  refine ⟨?_, rfl⟩
  have hre' : host.newRegExp ['^', 'b', '$'] ['i'] = some test := hre
  have hB' : test ['B'] = true := hB
  have hP' : test ['P'] = false := hP
  have hd1' : host.decodeHTMLEntities ['W', 'o', 'r', 'l', 'd'] = ['W', 'o', 'r', 'l', 'd'] := hd1
  have hnorm : removeBlankNodes host helloWorld = .ok helloWorld := by
    cases hb : host.blockLevelTag ['B', 'O', 'D', 'Y'] <;>
    cases hp : host.blockLevelTag ['P'] <;>
    cases hbb : host.blockLevelTag ['B'] <;>
    simp [helloWorld, removeBlankNodes, removeBlankNodesFuel, Node.size,
      Node.sizeList, removeBlankChildren, hasAdjacentBlockSibling, trimInner, trimStrips,
      Host.isBlockLevel, hb, hp, hbb,
      Node.reparseList, Node.reparse, mergeText, stripLeading, stripTrailing, toLowerCase,
      Node.normalizeData, normalizeNewlines, skipNewline,
      serializesAsVoid, rawTextElements, isWhiteSpace, hasNonWhiteSpace, Node.tagName,
      replaceAll, collapseWhiteSpace, matchWhiteSpaceRun]
  have horder : bfsOrder helloWorld = [[0], [0, 1]] := by decide
  have hstep1 : replaceStep host helloWorld [0, 1] =
      (.ok (.element "BODY".toList [] [.element "P".toList []
          [.text "Hello ".toList, .text "**World**".toList]]),
        [([0, 1], Event.filterEvaluated 0), ([0, 1], Event.replacementInvoked 0)]) := by
    simp [helloWorld, replaceStep, Node.getAt, replacementForNode, Node.tagName,
      Node.innerHTML, Node.serializeChildren, Node.outerHTML, escapeText, VOID_ELEMENTS,
      indexOf, isBlankString, isWhiteSpace, Node.replaceAt, toLowerCase, serializesAsVoid,
      rawTextElements, convertersLoop, canConvertNode, hrules, boldRule, hre', hB', hd1',
      JSValue.toDOMString]
  have hstep2 : replaceStep host (.element "BODY".toList [] [.element "P".toList []
          [.text "Hello ".toList, .text "**World**".toList]]) [0] =
      (.ok (.element "BODY".toList [] [.element "P".toList []
          [.text "Hello ".toList, .text "**World**".toList]]),
        [([0], Event.filterEvaluated 0)]) := by
    simp [replaceStep, Node.getAt, replacementForNode, Node.tagName,
      Node.innerHTML, Node.serializeChildren, Node.outerHTML, escapeText, VOID_ELEMENTS,
      indexOf, isBlankString, isWhiteSpace, toLowerCase, serializesAsVoid,
      rawTextElements, convertersLoop, canConvertNode, hrules, boldRule, hre', hP']
  have hinner : (Node.element "BODY".toList [] [.element "P".toList []
          [.text "Hello ".toList, .text "**World**".toList]]).innerHTML =
      some "<p>Hello **World**</p>".toList := by decide
  have hpost : postProcess "<p>Hello **World**</p>".toList = "<p>Hello **World**</p>".toList := by
    decide
  simp only [convertTree, hnorm, horder, List.reverse_cons, List.reverse_nil, List.nil_append,
    List.singleton_append, replaceLoop, hstep1, hstep2, hinner, hd2, hpost, List.append_nil]
  rfl

/-! ## Ordered-list escaping -/

theorem isDigit_ne_dot (c : Char) (h : isDigit c = true) : c ≠ '.' := by
  intro hc; subst hc; revert h; decide

theorem insertBackslashes_digits (r : JSString) : ∀ (ds : JSString) (prev : Option Char),
    ds ≠ [] → (∀ d ∈ ds, isDigit d = true) →
    insertBackslashes prev (ds ++ '.' :: ' ' :: r) =
      ds ++ ['\\', '.', ' '] ++ insertBackslashes (some ' ') r := by
  intro ds
  induction ds with
  | nil => intro prev h; exact absurd rfl h
  | cons d ds ih =>
    intro prev _ hd
    have hdd : isDigit d = true := hd d (by simp)
    have hne : d ≠ '.' := isDigit_ne_dot d hdd
    cases ds with
    | nil =>
      simp [insertBackslashes, hne, hdd]
    | cons d2 ds =>
      have := ih (some d) (by simp) (fun x hx => hd x (by simp [hx]))
      simp only [List.cons_append] at this ⊢
      rw [insertBackslashes, this]
      simp [hne]

theorem replaceAll_matchOlTrigger : ∀ (fuel : Nat) (s : JSString) (prev : Option Char),
    s.length ≤ fuel →
    ¬ ((∃ d, prev = some d ∧ isDigit d = true) ∧ ∃ r, s = '.' :: ' ' :: r) →
    replaceAll matchOlTrigger fuel s = insertBackslashes prev s := by
  intro fuel
  induction fuel with
  | zero =>
    intro s prev hl _
    have : s = [] := List.length_eq_zero.1 (Nat.le_zero.1 hl)
    subst this
    simp [replaceAll, insertBackslashes]
  | succ fuel ih =>
    intro s prev hl hgood
    cases s with
    | nil => simp [replaceAll, insertBackslashes]
    | cons c t =>
      have hlt : t.length ≤ fuel := by simpa using hl
      by_cases hc : isDigit c = true
      · -- a run of digits starts here
        have hsplit : c :: t = (c :: t.takeWhile isDigit) ++ t.dropWhile isDigit := by
          simp [List.takeWhile_append_dropWhile]
        have hne : c ≠ '.' := isDigit_ne_dot c hc
        by_cases hex : ∃ r, t.dropWhile isDigit = '.' :: ' ' :: r
        · obtain ⟨rest, hrest⟩ := hex
          have hm : matchOlTrigger (c :: t) =
              some (c :: t.takeWhile isDigit ++ ['\\', '.', ' '], rest) := by
            simp [matchOlTrigger, hc, hrest]
          simp only [replaceAll, hm]
          have hlen : rest.length ≤ fuel := by
            have h1 := congrArg List.length (List.takeWhile_append_dropWhile isDigit t)
            rw [hrest] at h1
            simp only [List.length_append, List.length_cons] at h1
            omega
          rw [ih rest (some ' ') hlen (by
            rintro ⟨⟨d, hd, hdig⟩, -⟩
            simp only [Option.some.injEq] at hd
            subst hd
            revert hdig; decide)]
          rw [hsplit, hrest,
            insertBackslashes_digits rest (c :: t.takeWhile isDigit) prev (by simp)
              (by
                intro d hd
                rcases List.mem_cons.1 hd with rfl | hd
                · exact hc
                · exact (List.mem_takeWhile_imp hd))]
        · have hm : matchOlTrigger (c :: t) = none := by
            simp only [matchOlTrigger, List.takeWhile_cons, hc, if_true, List.dropWhile_cons,
              reduceCtorEq, if_false]
            split
            · rename_i rest hrest
              exact absurd ⟨rest, hrest⟩ hex
            · rfl
          simp only [replaceAll, hm]
          rw [ih t (some c) hlt (by
            rintro ⟨-, r, hr⟩
            apply hex
            refine ⟨r, ?_⟩
            rw [hr]
            simp [List.dropWhile, show isDigit '.' = false by decide])]
          simp [insertBackslashes, hne]
      · have hcf : isDigit c = false := by simpa using hc
        simp only [replaceAll, matchOlTrigger, List.takeWhile_cons, hcf, Bool.false_eq_true,
          if_false, if_true]
        rw [ih t (some c) hlt (by
          rintro ⟨⟨d, hd, hdig⟩, -⟩
          simp only [Option.some.injEq] at hd
          subst hd
          exact hc hdig)]
        simp only [insertBackslashes]
        have : ¬ (c = '.' ∧ (∃ d, prev = some d ∧ isDigit d = true) ∧ t.head? = some ' ') := by
          rintro ⟨h1, h2, h3⟩
          apply hgood
          refine ⟨h2, ?_⟩
          cases t with
          | nil => simp at h3
          | cons x t' =>
            simp only [List.head?_cons, Option.some.injEq] at h3
            exact ⟨t', by rw [h1, h3]⟩
        rw [if_neg this]
        simp

theorem insertBackslashes_no_trigger : ∀ (s : JSString) (prev : Option Char)
    (pre post : JSString) (d : Char), isDigit d = true →
    insertBackslashes prev s ≠ pre ++ d :: '.' :: ' ' :: post := by
  intro s
  induction s with
  | nil => intro prev pre post d _ h; simp [insertBackslashes] at h
  | cons c rest ih =>
    intro prev pre post d hd h
    simp only [insertBackslashes] at h
    have hbs : d ≠ '\\' := by intro hc; subst hc; revert hd; decide
    have hdot : d ≠ '.' := isDigit_ne_dot d hd
    split at h
    · -- a backslash is written before this dot
      rename_i htrig
      cases pre with
      | nil =>
        simp only [List.nil_append, List.cons_append, List.cons.injEq] at h
        exact hbs h.1.symm
      | cons x pre' =>
        cases pre' with
        | nil =>
          simp only [List.cons_append, List.nil_append, List.cons.injEq] at h
          exact hdot h.2.1.symm
        | cons y pre'' =>
          simp only [List.cons_append, List.nil_append, List.cons.injEq] at h
          exact ih (some c) pre'' post d hd h.2.2
    · rename_i hntrig
      cases pre with
      | cons x pre' =>
        simp only [List.cons_append, List.nil_append, List.cons.injEq] at h
        exact ih (some c) pre' post d hd h.2
      | nil =>
        simp only [List.nil_append, List.cons_append, List.cons.injEq] at h
        obtain ⟨hcd, h⟩ := h
        subst hcd
        cases rest with
        | nil => simp [insertBackslashes] at h
        | cons c2 rest2 =>
          simp only [insertBackslashes] at h
          split at h
          · simp at h
          · rename_i hn2
            simp only [List.cons_append, List.nil_append, List.cons.injEq] at h
            obtain ⟨hc2, h⟩ := h
            subst hc2
            cases rest2 with
            | nil => simp [insertBackslashes] at h
            | cons c3 rest3 =>
              simp only [insertBackslashes] at h
              split at h
              · simp at h
              · simp only [List.cons_append, List.nil_append, List.cons.injEq] at h
                apply hn2
                exact ⟨rfl, ⟨c, rfl, hd⟩, by simp [h.1]⟩

/-- C7. Ordered-list escaping. The statement
`input.replace(/(\d+)\. /g, '$1\\. ')` returns the input with one backslash
written before each dot that follows a digit and is followed by a space,
every other character unchanged and in order; the result holds no digit
immediately followed by a dot and a space. `1. First` becomes `1\. First`,
with one backslash, and `toMarkdown` returns that string once the parser
reads it as one text node and the entity decoder leaves it as it is. -/
theorem escapeOlTriggers_spec (host : Host) (input : JSString)
    (hparse : host.htmlToDom "1\\. First".toList = [.text "1\\. First".toList])
    (hdecode : host.decodeHTMLEntities "1\\. First".toList = "1\\. First".toList) :
    escapeOlTriggers input = insertBackslashes none input ∧
    (∀ (pre post : JSString) (d : Char), isDigit d = true →
      escapeOlTriggers input ≠ pre ++ d :: '.' :: ' ' :: post) ∧
    escapeOlTriggers "1. First".toList = "1\\. First".toList ∧
    toMarkdown host (.string "1. First".toList) = (.ok "1\\. First".toList, []) := by
  have hspec : ∀ s : JSString, escapeOlTriggers s = insertBackslashes none s := by
    intro s
    exact replaceAll_matchOlTrigger s.length s none (le_refl _) (by simp)
  refine ⟨hspec input, ?_, by decide, ?_⟩
  · intro pre post d hd
    rw [hspec]
    exact insertBackslashes_no_trigger input none pre post d hd
  · have hesc : toMarkdown host (.string "1. First".toList) =
        convertTree host (.element "BODY".toList [] (host.htmlToDom "1\\. First".toList)) := rfl
    rw [hesc, hparse]
    have hnorm : removeBlankNodes host (.element "BODY".toList [] [.text "1\\. First".toList]) =
        .ok (.element "BODY".toList [] [.text "1\\. First".toList]) := by
      cases hb : host.blockLevelTag ['B', 'O', 'D', 'Y'] <;>
      simp [removeBlankNodes, removeBlankNodesFuel, Node.size,
        Node.sizeList, removeBlankChildren, hasAdjacentBlockSibling, trimInner, trimStrips,
      Host.isBlockLevel, hb,
        Node.reparseList, Node.reparse, mergeText, stripLeading, stripTrailing, toLowerCase,
      Node.normalizeData, normalizeNewlines, skipNewline,
        serializesAsVoid, rawTextElements, isWhiteSpace, hasNonWhiteSpace, Node.tagName,
        replaceAll, collapseWhiteSpace, matchWhiteSpaceRun]
    have horder : bfsOrder (.element "BODY".toList [] [.text "1\\. First".toList]) = [] := by
      decide
    have hinner : (Node.element "BODY".toList [] [.text "1\\. First".toList]).innerHTML =
        some "1\\. First".toList := by decide
    have hpost : postProcess "1\\. First".toList = "1\\. First".toList := by decide
    simp only [convertTree, hnorm, horder, List.reverse_nil, replaceLoop, hinner, hdecode, hpost]

/-! ## Theorems on `removeBlankNodes` -/

theorem size_pos (n : Node) : 0 < n.size := by
  cases n <;> simp [Node.size]

theorem size_le_sizeList_of_mem {n : Node} : ∀ {cs : List Node}, n ∈ cs →
    n.size ≤ Node.sizeList cs := by
  intro cs
  induction cs with
  | nil => intro h; cases h
  | cons c cs ih =>
    intro h
    simp only [Node.sizeList]
    rcases List.mem_cons.1 h with rfl | h
    · omega
    · have := ih h; omega

theorem sizeList_mergeText (n : Node) (rest : List Node) :
    Node.sizeList (mergeText n rest) ≤ n.size + Node.sizeList rest := by
  cases n with
  | element t a cs => simp [mergeText, Node.sizeList]
  | comment v => simp [mergeText, Node.sizeList]
  | text v =>
    simp only [mergeText]
    split
    · omega
    · split <;> simp [Node.sizeList, Node.size]

theorem size_normalizeData (n : Node) : n.normalizeData.size = n.size := by
  cases n <;> simp [Node.normalizeData, Node.size]

theorem sizeList_map_normalizeData : ∀ cs : List Node,
    Node.sizeList (cs.map Node.normalizeData) = Node.sizeList cs
  | [] => rfl
  | c :: cs => by
    simp only [List.map_cons, Node.sizeList, size_normalizeData,
      sizeList_map_normalizeData cs]

theorem sizeList_skipNewline (t : JSString) (cs : List Node) :
    Node.sizeList (skipNewline t cs) ≤ Node.sizeList cs := by
  simp only [skipNewline]
  split
  · split
    · split <;> simp [Node.sizeList, Node.size]
    · exact le_refl _
  · exact le_refl _

mutual
theorem size_reparse : ∀ n : Node, (Node.reparse n).size ≤ n.size
  | .element t a cs => by
    simp only [Node.reparse, Node.size]
    have := sizeList_reparseList cs
    have h2 := sizeList_skipNewline t ((Node.reparseList cs).map Node.normalizeData)
    rw [sizeList_map_normalizeData] at h2
    omega
  | .text v => by simp [Node.reparse]
  | .comment v => by simp [Node.reparse]
theorem sizeList_reparseList : ∀ cs : List Node,
    Node.sizeList (Node.reparseList cs) ≤ Node.sizeList cs
  | [] => by simp [Node.reparseList]
  | c :: cs => by
    simp only [Node.reparseList, Node.sizeList]
    have h1 := sizeList_mergeText (Node.reparse c) (Node.reparseList cs)
    have h2 := size_reparse c
    have h3 := sizeList_reparseList cs
    omega
end

theorem sizeList_stripLeading (strip : Char → Bool) (cs : List Node) :
    Node.sizeList (stripLeading strip cs) ≤ Node.sizeList cs := by
  cases cs with
  | nil => simp [stripLeading]
  | cons c cs =>
    cases c with
    | element t a ks => simp [stripLeading]
    | comment v => simp [stripLeading]
    | text v =>
      simp only [stripLeading]
      split <;> simp [Node.sizeList, Node.size]

theorem sizeList_stripTrailing (strip : Char → Bool) : ∀ cs : List Node,
    Node.sizeList (stripTrailing strip cs) ≤ Node.sizeList cs
  | [] => by simp [stripTrailing]
  | [c] => by
    cases c with
    | element t a ks => simp [stripTrailing]
    | comment v => simp [stripTrailing]
    | text v =>
      simp only [stripTrailing]
      split <;> simp [Node.sizeList, Node.size]
  | c :: d :: cs => by
    have := sizeList_stripTrailing strip (d :: cs)
    simp only [stripTrailing, Node.sizeList] at this ⊢
    omega

theorem sizeList_trimInner (host : Host) (t : JSString) (cs : List Node) :
    Node.sizeList (trimInner host t cs) ≤ Node.sizeList cs := by
  simp only [trimInner]
  split
  · simp [Node.sizeList]
  · rw [sizeList_map_normalizeData]
    exact le_trans (sizeList_stripTrailing _ _)
      (le_trans (sizeList_stripLeading _ _) (sizeList_reparseList cs))

theorem hasCommentList_eq_false_iff : ∀ cs : List Node,
    Node.hasCommentList cs = false ↔ ∀ c ∈ cs, c.hasComment = false
  | [] => by simp [Node.hasCommentList]
  | c :: cs => by
    simp [Node.hasCommentList, hasCommentList_eq_false_iff cs]

theorem removeBlankChildren_no_comment (host : Host) (recurse : Node → Node)
    (parentTag : JSString) : ∀ (todo : List Node) (prev : Option Node),
    (∀ t a cs, Node.element t a cs ∈ todo → (recurse (.element t a cs)).hasComment = false) →
    Node.hasCommentList (removeBlankChildren host recurse parentTag prev todo) = false := by
  intro todo
  induction todo with
  | nil => intro prev _; simp [removeBlankChildren, Node.hasCommentList]
  | cons c rest ih =>
    intro prev h
    have hrest : ∀ prev', Node.hasCommentList
        (removeBlankChildren host recurse parentTag prev' rest) = false :=
      fun prev' => ih prev' (fun t a cs hm => h t a cs (by simp [hm]))
    cases c with
    | comment v => simpa [removeBlankChildren] using hrest prev
    | element t a cs =>
      simp only [removeBlankChildren, Node.hasCommentList, hrest, Bool.or_false]
      exact h t a cs (by simp)
    | text v =>
      simp only [removeBlankChildren]
      split
      · split
        · simp [Node.hasCommentList, Node.hasComment, hrest]
        · split
          · exact hrest prev
          · simp [Node.hasCommentList, Node.hasComment, hrest]
      · simp [Node.hasCommentList, Node.hasComment, hrest]

theorem removeBlankNodesFuel_no_comment (host : Host) : ∀ (fuel : Nat) (t : JSString)
    (a : List (JSString × JSString)) (cs : List Node),
    Node.size (.element t a cs) ≤ fuel →
    (removeBlankNodesFuel host fuel (.element t a cs)).hasComment = false := by
  intro fuel
  induction fuel with
  | zero =>
    intro t a cs h
    have := size_pos (.element t a cs)
    omega
  | succ fuel ih =>
    intro t a cs h
    simp only [removeBlankNodesFuel, Node.hasComment]
    apply removeBlankChildren_no_comment
    intro t' a' cs' hm
    apply ih
    have h1 := size_le_sizeList_of_mem hm
    have h2 : Node.sizeList
        (if t ≠ "PRE".toList ∧ host.isBlockLevel (.element t a cs) = true then
          trimInner host t cs else cs) ≤ Node.sizeList cs := by
      split
      · exact sizeList_trimInner host t cs
      · exact le_refl _
    simp only [Node.size] at h
    omega

theorem hasComment_replaceAt (v : JSString) : ∀ (p : Path) (tree : Node),
    tree.hasComment = false → (tree.replaceAt p (.text v)).hasComment = false := by
  intro p
  induction p with
  | nil => intro tree _; simp [Node.replaceAt, Node.hasComment]
  | cons i p ih =>
    intro tree h
    cases tree with
    | text w => simpa [Node.replaceAt] using h
    | comment w => simp [Node.hasComment] at h
    | element t a cs =>
      simp only [Node.replaceAt]
      cases hi : cs.get? i with
      | none => simpa using h
      | some c =>
        simp only [Node.hasComment] at h ⊢
        rw [hasCommentList_eq_false_iff] at h ⊢
        intro x hx
        rcases List.mem_or_eq_of_mem_set hx with hx | rfl
        · exact h x hx
        · exact ih c (h c (List.get?_mem hi))

theorem replaceStep_ok (host : Host) (tree tree' : Node) (p : Path)
    (calls : List (Path × Event)) (h : replaceStep host tree p = (.ok tree', calls)) :
    tree' = tree ∨ ∃ v, tree' = tree.replaceAt p (.text v) := by
  simp only [replaceStep] at h
  cases hg : tree.getAt p with
  | none => simp [hg] at h
  | some node =>
    simp only [hg] at h
    cases node with
    | text w => simp [replacementForNode, Node.tagName] at h
    | comment w => simp [replacementForNode, Node.tagName] at h
    | element t a cs =>
      rcases replacementForNode_element host t a cs with
        ⟨e, c, hr, -⟩ | ⟨c, hr⟩ | ⟨v, c, hr⟩
      · rw [hr] at h; simp at h
      · rw [hr] at h
        simp only [Prod.mk.injEq, Except.ok.injEq] at h
        exact Or.inl h.1.symm
      · rw [hr] at h
        simp only [Prod.mk.injEq, Except.ok.injEq] at h
        exact Or.inr ⟨v, h.1.symm⟩

theorem replaceLoop_no_comment (host : Host) : ∀ (visit : List Path) (tree tree' : Node)
    (calls : List (Path × Event)),
    replaceLoop host visit tree = (.ok tree', calls) →
    tree.hasComment = false → tree'.hasComment = false := by
  intro visit
  induction visit with
  | nil =>
    intro tree tree' calls h hc
    simp only [replaceLoop, Prod.mk.injEq, Except.ok.injEq] at h
    rw [← h.1]; exact hc
  | cons p rest ih =>
    intro tree tree' calls h hc
    simp only [replaceLoop] at h
    rcases hs : replaceStep host tree p with ⟨e | tree1, c1⟩
    · rw [hs] at h; simp at h
    · rw [hs] at h
      simp only [Prod.mk.injEq] at h
      refine ih tree1 tree' _ (Prod.ext h.1 rfl) ?_
      rcases replaceStep_ok host tree tree1 p c1 hs with rfl | ⟨v, rfl⟩
      · exact hc
      · exact hasComment_replaceAt v p tree hc

/-- C10. Comment removal. For every tree rooted at an element,
`removeBlankNodes(root)` returns, and the tree it leaves holds no comment
node at any depth, whatever the parent of the comment was (`PRE` and `CODE`
included). The loop of `toMarkdown` puts text nodes only into the tree, so
the tree whose `innerHTML` becomes the output holds no comment node
either. -/
theorem removeBlankNodes_no_comment (host : Host) (t : JSString)
    (a : List (JSString × JSString)) (cs : List Node) :
    ∃ clone : Node, removeBlankNodes host (.element t a cs) = .ok clone ∧
      clone.hasComment = false ∧
      ∀ (tree : Node) (calls : List (Path × Event)),
        replaceLoop host (bfsOrder clone).reverse clone = (.ok tree, calls) →
        tree.hasComment = false := by
  refine ⟨removeBlankNodesFuel host (Node.size (.element t a cs)) (.element t a cs), rfl, ?_, ?_⟩
  · exact removeBlankNodesFuel_no_comment host _ t a cs (le_refl _)
  · intro tree calls h
    exact replaceLoop_no_comment host _ _ tree calls h
      (removeBlankNodesFuel_no_comment host _ t a cs (le_refl _))

/-! ## White-space collapsing and the bound of the recursion of `removeBlankNodes` -/

theorem squeeze_true_eq (t : JSString) :
    squeeze true t = squeeze false (t.dropWhile isWhiteSpace) := by
  induction t with
  | nil => simp [squeeze]
  | cons c t ih =>
    by_cases hc : isWhiteSpace c = true
    · simp [squeeze, List.dropWhile, hc, ih]
    · have hcf : isWhiteSpace c = false := by simpa using hc
      simp [squeeze, List.dropWhile, hcf]

theorem replaceAll_matchWhiteSpaceRun : ∀ (fuel : Nat) (s : JSString), s.length ≤ fuel →
    replaceAll matchWhiteSpaceRun fuel s = squeeze false s := by
  intro fuel
  induction fuel with
  | zero =>
    intro s hl
    have : s = [] := List.length_eq_zero.1 (Nat.le_zero.1 hl)
    subst this
    simp [replaceAll, squeeze]
  | succ fuel ih =>
    intro s hl
    cases s with
    | nil => simp [replaceAll, squeeze]
    | cons c t =>
      have hlt : t.length ≤ fuel := by simpa using hl
      by_cases hc : isWhiteSpace c = true
      · have hm : matchWhiteSpaceRun (c :: t) = some ([' '], t.dropWhile isWhiteSpace) := by
          simp [matchWhiteSpaceRun, List.takeWhile, List.dropWhile, hc]
        have hlen : (t.dropWhile isWhiteSpace).length ≤ fuel :=
          le_trans (List.dropWhile_sublist _).length_le hlt
        simp only [replaceAll, hm, ih _ hlen]
        simp [squeeze, hc, squeeze_true_eq]
      · have hcf : isWhiteSpace c = false := by simpa using hc
        have hm : matchWhiteSpaceRun (c :: t) = none := by
          simp [matchWhiteSpaceRun, List.takeWhile, hcf]
        simp only [replaceAll, hm, ih _ hlt]
        simp [squeeze, hcf]

theorem collapseWhiteSpace_eq (v : JSString) : collapseWhiteSpace v = squeeze false v :=
  replaceAll_matchWhiteSpaceRun v.length v (le_refl _)

theorem squeeze_idem : ∀ (v : JSString) (b : Bool), squeeze b (squeeze b v) = squeeze b v := by
  intro v
  induction v with
  | nil => intro b; simp [squeeze]
  | cons c t ih =>
    intro b
    by_cases hc : isWhiteSpace c = true
    · cases b with
      | true => simpa [squeeze, hc] using ih true
      | false =>
        have hsp : isWhiteSpace ' ' = true := by decide
        simp [squeeze, hc, hsp, ih true]
    · have hcf : isWhiteSpace c = false := by simpa using hc
      simp [squeeze, hcf, ih false]

theorem hasNonWhiteSpace_squeeze : ∀ (v : JSString) (b : Bool),
    hasNonWhiteSpace (squeeze b v) = hasNonWhiteSpace v := by
  intro v
  induction v with
  | nil => intro b; simp [squeeze]
  | cons c t ih =>
    intro b
    have hsp : isWhiteSpace ' ' = true := by decide
    by_cases hc : isWhiteSpace c = true
    · cases b <;> simp [squeeze, hc, hasNonWhiteSpace, hsp] <;>
        simpa [hasNonWhiteSpace] using ih true
    · have hcf : isWhiteSpace c = false := by simpa using hc
      simp [squeeze, hcf, hasNonWhiteSpace]

theorem squeeze_ne_nil (v : JSString) (h : hasNonWhiteSpace v = true) (b : Bool) :
    squeeze b v ≠ [] := by
  intro hs
  have := hasNonWhiteSpace_squeeze v b
  rw [hs, h] at this
  simp [hasNonWhiteSpace] at this

theorem squeeze_snoc (c : Char) (hc : isWhiteSpace c = false) : ∀ (u : JSString) (b : Bool),
    squeeze b (u ++ [c]) = squeeze b u ++ [c] := by
  intro u
  induction u with
  | nil => intro b; simp [squeeze, hc]
  | cons x u ih =>
    intro b
    by_cases hx : isWhiteSpace x = true
    · cases b <;> simp [squeeze, hx, ih]
    · have hxf : isWhiteSpace x = false := by simpa using hx
      simp [squeeze, hxf, ih]

theorem mem_squeeze : ∀ (v : JSString) (b : Bool) (c : Char), c ∈ squeeze b v →
    c = ' ' ∨ (c ∈ v ∧ isWhiteSpace c = false) := by
  intro v
  induction v with
  | nil => intro b c h; simp [squeeze] at h
  | cons x t ih =>
    intro b c h
    by_cases hx : isWhiteSpace x = true
    · cases b with
      | true =>
        simp only [squeeze, hx, if_true] at h
        rcases ih true c h with h | ⟨h1, h2⟩
        · exact Or.inl h
        · exact Or.inr ⟨by simp [h1], h2⟩
      | false =>
        simp only [squeeze, hx, if_true, Bool.false_eq_true, if_false, List.mem_cons] at h
        rcases h with h | h
        · exact Or.inl h
        · rcases ih true c h with h | ⟨h1, h2⟩
          · exact Or.inl h
          · exact Or.inr ⟨by simp [h1], h2⟩
    · have hxf : isWhiteSpace x = false := by simpa using hx
      simp only [squeeze, hxf, Bool.false_eq_true, if_false, List.mem_cons] at h
      rcases h with h | h
      · subst h; exact Or.inr ⟨by simp, hxf⟩
      · rcases ih false c h with h | ⟨h1, h2⟩
        · exact Or.inl h
        · exact Or.inr ⟨by simp [h1], h2⟩

theorem removeBlankNodesFuel_element (host : Host) (fuel : Nat) (t : JSString)
    (a : List (JSString × JSString)) (cs : List Node) :
    ∃ cs', removeBlankNodesFuel host fuel (.element t a cs) = .element t a cs' := by
  cases fuel with
  | zero => exact ⟨cs, rfl⟩
  | succ fuel => exact ⟨_, rfl⟩

theorem isBlockLevel_element (host : Host) (t : JSString) (a : List (JSString × JSString))
    (cs : List Node) : host.isBlockLevel (.element t a cs) = host.blockLevelTag t := rfl

theorem isBlockLevel_text (host : Host) (v : JSString) :
    host.isBlockLevel (.text v) = false := rfl

theorem removeBlankChildren_congr (host : Host) (rec1 rec2 : Node → Node)
    (parentTag : JSString) : ∀ (todo : List Node) (prev : Option Node),
    (∀ t a cs, Node.element t a cs ∈ todo → rec1 (.element t a cs) = rec2 (.element t a cs)) →
    removeBlankChildren host rec1 parentTag prev todo =
      removeBlankChildren host rec2 parentTag prev todo := by
  intro todo
  induction todo with
  | nil => intro prev _; simp [removeBlankChildren]
  | cons c rest ih =>
    intro prev h
    have hrest : ∀ prev', removeBlankChildren host rec1 parentTag prev' rest =
        removeBlankChildren host rec2 parentTag prev' rest :=
      fun prev' => ih prev' (fun t a cs hm => h t a cs (by simp [hm]))
    cases c with
    | comment v => simp only [removeBlankChildren, hrest]
    | text v => simp only [removeBlankChildren, hrest]
    | element t a cs =>
      simp only [removeBlankChildren, hrest, h t a cs (by simp)]

theorem sizeList_pre (host : Host) (t : JSString) (a : List (JSString × JSString))
    (cs : List Node) :
    Node.sizeList
      (if t ≠ "PRE".toList ∧ host.isBlockLevel (.element t a cs) = true then
        trimInner host t cs else cs) ≤ Node.sizeList cs := by
  split
  · exact sizeList_trimInner host t cs
  · exact le_refl _

/-- The result of `removeBlankNodes` does not depend on the bound of the
recursion, once the bound is at least the number of nodes. -/
theorem removeBlankNodesFuel_fuel (host : Host) : ∀ (f g : Nat) (n : Node),
    n.size ≤ f → n.size ≤ g →
    removeBlankNodesFuel host f n = removeBlankNodesFuel host g n := by
  intro f
  induction f with
  | zero => intro g n h; have := size_pos n; omega
  | succ f ih =>
    intro g n hf hg
    cases g with
    | zero => have := size_pos n; omega
    | succ g =>
      cases n with
      | text v => rfl
      | comment v => rfl
      | element t a cs =>
        simp only [removeBlankNodesFuel]
        congr 1
        apply removeBlankChildren_congr
        intro t' a' cs' hm
        have h1 := size_le_sizeList_of_mem hm
        have h2 := sizeList_pre host t a cs
        simp only [Node.size] at hf hg
        exact ih g _ (by omega) (by omega)

theorem sizeList_removeBlankChildren (host : Host) (recurse : Node → Node)
    (parentTag : JSString) : ∀ (todo : List Node) (prev : Option Node),
    (∀ t a cs, Node.element t a cs ∈ todo →
      (recurse (.element t a cs)).size ≤ (Node.element t a cs).size) →
    Node.sizeList (removeBlankChildren host recurse parentTag prev todo) ≤
      Node.sizeList todo := by
  intro todo
  induction todo with
  | nil => intro prev _; simp [removeBlankChildren]
  | cons c rest ih =>
    intro prev h
    have hrest : ∀ prev', Node.sizeList
        (removeBlankChildren host recurse parentTag prev' rest) ≤ Node.sizeList rest :=
      fun prev' => ih prev' (fun t a cs hm => h t a cs (by simp [hm]))
    cases c with
    | comment v =>
      have := hrest prev
      simp only [removeBlankChildren, Node.sizeList, Node.size]
      omega
    | element t a cs =>
      have h1 := h t a cs (by simp)
      have h2 := hrest (some (recurse (.element t a cs)))
      simp only [removeBlankChildren, Node.sizeList]
      omega
    | text v =>
      simp only [removeBlankChildren]
      split
      · split
        · have := hrest (some (Node.text (collapseWhiteSpace v)))
          simp only [Node.sizeList, Node.size]; omega
        · split
          · have := hrest prev
            simp only [Node.sizeList, Node.size]; omega
          · have := hrest (some (Node.text [' ']))
            simp only [Node.sizeList, Node.size]; omega
      · have := hrest (some (Node.text v))
        simp only [Node.sizeList, Node.size]; omega

theorem size_removeBlankNodesFuel (host : Host) : ∀ (fuel : Nat) (n : Node),
    (removeBlankNodesFuel host fuel n).size ≤ n.size := by
  intro fuel
  induction fuel with
  | zero => intro n; simp [removeBlankNodesFuel]
  | succ fuel ih =>
    intro n
    cases n with
    | text v => simp [removeBlankNodesFuel]
    | comment v => simp [removeBlankNodesFuel]
    | element t a cs =>
      simp only [removeBlankNodesFuel, Node.size]
      have h1 := sizeList_removeBlankChildren host (removeBlankNodesFuel host fuel) t
        (if t ≠ "PRE".toList ∧ host.isBlockLevel (.element t a cs) = true then
          trimInner host t cs else cs) none (fun t' a' cs' _ => ih _)
      have h2 := sizeList_pre host t a cs
      omega

/-! ## Text-node normalisation -/

theorem squeeze_append : ∀ (u x : JSString) (b : Bool),
    squeeze b (u ++ x) =
      squeeze b u ++ squeeze (match u.getLast? with
        | some c => isWhiteSpace c
        | none => b) x := by
  intro u
  induction u with
  | nil => intro x b; simp [squeeze]
  | cons c u ih =>
    intro x b
    have hlast : ∀ b' : Bool, (match (c :: u).getLast? with
        | some d => isWhiteSpace d
        | none => b) =
        (match u.getLast? with
        | some d => isWhiteSpace d
        | none => isWhiteSpace c) := by
      intro _
      cases u with
      | nil => simp
      | cons d u' =>
        rw [List.getLast?_cons_cons]
        cases h : (d :: u').getLast? with
        | none => simp at h
        | some e => rfl
    rw [hlast b]
    by_cases hc : isWhiteSpace c = true
    · cases b <;> simp [squeeze, hc, ih]
    · have hcf : isWhiteSpace c = false := by simpa using hc
      simp [squeeze, hcf, ih]

theorem squeeze_true_run : ∀ (run v : JSString),
    (∀ c ∈ run, isWhiteSpace c = true) → squeeze true (run ++ v) = squeeze true v := by
  intro run
  induction run with
  | nil => intro v _; rfl
  | cons c run ih =>
    intro v h
    have hc := h c (by simp)
    simp only [List.cons_append, squeeze, hc, if_true]
    exact ih v (fun x hx => h x (by simp [hx]))

theorem squeeze_true_of_head (v : JSString)
    (hv : ∀ c, v.head? = some c → isWhiteSpace c = false) :
    squeeze true v = squeeze false v := by
  cases v with
  | nil => rfl
  | cons c t =>
    have := hv c rfl
    simp [squeeze, this]

theorem squeeze_of_no_whiteSpace : ∀ (w : JSString) (b : Bool),
    (∀ c ∈ w, isWhiteSpace c = false) → squeeze b w = w := by
  intro w
  induction w with
  | nil => intro b _; rfl
  | cons c t ih =>
    intro b h
    have hc := h c (by simp)
    simp [squeeze, hc, ih false (fun x hx => h x (by simp [hx]))]

/-- In a text that `squeeze` reads, a maximal run of white space becomes one
space and what is before and after the run is read on its own. -/
theorem squeeze_run (u run v : JSString) (hrun : run ≠ [])
    (hws : ∀ c ∈ run, isWhiteSpace c = true)
    (hu : ∀ c, u.getLast? = some c → isWhiteSpace c = false)
    (hv : ∀ c, v.head? = some c → isWhiteSpace c = false) :
    squeeze false (u ++ (run ++ v)) = squeeze false u ++ ' ' :: squeeze false v := by
  rw [squeeze_append]
  have hstate : (match u.getLast? with
      | some c => isWhiteSpace c
      | none => false) = false := by
    cases h : u.getLast? with
    | none => rfl
    | some c => exact hu c h
  rw [hstate]
  cases run with
  | nil => exact absurd rfl hrun
  | cons r run' =>
    have hr := hws r (by simp)
    simp only [List.cons_append, squeeze, hr, if_true, Bool.false_eq_true, if_false]
    change squeeze false u ++ ' ' :: squeeze true (run' ++ v) = _
    rw [squeeze_true_run run' v (fun x hx => hws x (by simp [hx])), squeeze_true_of_head v hv]

/-- C11. Text-node normalisation. For a text node whose parent is neither
`PRE` nor `CODE`, the `switch` of `removeBlankNodes` does exactly one of
three things. When the value holds a character that is no white space, the
value becomes the same text with every maximal run of white space replaced
by one space (a text without white space is unchanged). Otherwise, when the
previous sibling or the next sibling is block-level, the node is removed.
Otherwise the value becomes one space. In each case the loop goes on with
the siblings that follow, as they were: no other node is changed by the
step. -/
theorem removeBlankChildren_text (host : Host) (recurse : Node → Node)
    (parentTag value : JSString) (prev : Option Node) (rest : List Node)
    (hpre : parentTag ≠ "PRE".toList) (hcode : parentTag ≠ "CODE".toList) :
    (hasNonWhiteSpace value = true →
      removeBlankChildren host recurse parentTag prev (.text value :: rest) =
        .text (squeeze false value) ::
          removeBlankChildren host recurse parentTag (some (.text (squeeze false value)))
            rest) ∧
    (hasNonWhiteSpace value = false → hasAdjacentBlockSibling host prev rest = true →
      removeBlankChildren host recurse parentTag prev (.text value :: rest) =
        removeBlankChildren host recurse parentTag prev rest) ∧
    (hasNonWhiteSpace value = false → hasAdjacentBlockSibling host prev rest = false →
      removeBlankChildren host recurse parentTag prev (.text value :: rest) =
        .text [' '] :: removeBlankChildren host recurse parentTag (some (.text [' '])) rest) ∧
    (∀ u run v : JSString, run ≠ [] → (∀ c ∈ run, isWhiteSpace c = true) →
      (∀ c, u.getLast? = some c → isWhiteSpace c = false) →
      (∀ c, v.head? = some c → isWhiteSpace c = false) →
      squeeze false (u ++ (run ++ v)) = squeeze false u ++ ' ' :: squeeze false v) ∧
    (∀ w : JSString, (∀ c ∈ w, isWhiteSpace c = false) → squeeze false w = w) := by
  have hp : parentTag ≠ "PRE".toList ∧ parentTag ≠ "CODE".toList := ⟨hpre, hcode⟩
  refine ⟨?_, ?_, ?_, squeeze_run, fun w hw => squeeze_of_no_whiteSpace w false hw⟩
  · intro h
    simp only [removeBlankChildren, hp, h, if_true, and_self, ne_eq, not_false_eq_true,
      collapseWhiteSpace_eq]
  · intro h hadj
    simp only [removeBlankChildren, hp, h, hadj, if_true, if_false, and_self, ne_eq,
      not_false_eq_true, Bool.false_eq_true]
  · intro h hadj
    simp only [removeBlankChildren, hp, h, hadj, if_true, if_false, and_self, ne_eq,
      not_false_eq_true, Bool.false_eq_true]

/-! ## Configuration errors of `replacementForNode` -/

/-- The rules that reject the node are passed over: the loop evaluates their
filters and goes on with the rules that follow. -/
theorem convertersLoop_rejected (host : Host) (node : Node) (inner : JSString)
    (rest : List Converter) : ∀ (pre : List Converter) (i : Nat),
    (∀ c ∈ pre, canConvertNode host node c.filter = .ok false) →
    convertersLoop host node inner i (pre ++ rest) =
      ((convertersLoop host node inner (i + pre.length) rest).1,
        (List.range' i pre.length).map Event.filterEvaluated ++
          (convertersLoop host node inner (i + pre.length) rest).2) := by
  intro pre
  induction pre with
  | nil => intro i _; simp
  | cons c pre ih =>
    intro i h
    have hc := h c (by simp)
    have hpre := ih (i + 1) (fun d hd => h d (by simp [hd]))
    have e1 : i + 1 + pre.length = i + (pre.length + 1) := by omega
    have hstep : convertersLoop host node inner i (c :: (pre ++ rest)) =
        ((convertersLoop host node inner (i + 1) (pre ++ rest)).1,
          Event.filterEvaluated i ::
            (convertersLoop host node inner (i + 1) (pre ++ rest)).2) := by
      simp only [convertersLoop, hc]
    rw [List.cons_append, hstep, hpre, List.length_cons, List.range'_succ, e1]
    simp

theorem canConvertNode_filterError (host : Host) (node : Node) (f : Filter)
    (h : canConvertNode host node f = .error .filterError) : f = .other := by
  cases f with
  | regExp test =>
    simp only [canConvertNode] at h
    split at h <;> simp at h
  | string pattern =>
    simp only [canConvertNode] at h
    split at h
    · split at h <;> simp at h
    · simp at h
  | function call => simp [canConvertNode] at h
  | other => rfl

theorem convertersLoop_filterError (host : Host) (node : Node) (inner : JSString) :
    ∀ (cs : List Converter) (i : Nat),
    (convertersLoop host node inner i cs).1 = .error .filterError →
    ∃ pre post r, cs = pre ++ ⟨.other, r⟩ :: post ∧
      ∀ c ∈ pre, canConvertNode host node c.filter = .ok false := by
  intro cs
  induction cs with
  | nil => intro i h; simp [convertersLoop] at h
  | cons c cs ih =>
    intro i h
    simp only [convertersLoop] at h
    split at h
    · rename_i e he
      simp only [Except.error.injEq] at h
      subst h
      have hf := canConvertNode_filterError host node c.filter he
      refine ⟨[], cs, c.replacement, ?_, by simp⟩
      cases c with
      | mk f r =>
        simp only at hf
        subst hf
        rfl
    · rename_i hfalse
      obtain ⟨pre, post, r, hcs, hpre⟩ := ih (i + 1) h
      refine ⟨c :: pre, post, r, by rw [hcs]; rfl, ?_⟩
      intro d hd
      rcases List.mem_cons.1 hd with rfl | hd
      · exact hfalse
      · exact hpre d hd
    · split at h <;> simp at h

/-- C15. Invalid rule filter. For a node that is not blank,
`replacementForNode` throws the filter configuration error exactly when a
rule whose filter is neither a RegExp, a string nor a function is reached:
the filter of every rule before it returns false. When a rule before it
accepts the node, the invalid filter is never evaluated and its error is
not raised; for a blank node no filter is evaluated at all. -/
theorem replacementForNode_filterError_iff (host : Host) (node : Node)
    (tagName inner : JSString)
    (htag : node.tagName = some tagName) (hinner : node.innerHTML = some inner) :
    (¬ (toLowerCase tagName ∉ VOID_ELEMENTS ∧ ∀ c ∈ inner, isWhiteSpace c = true) →
      ((replacementForNode host node).1 = .error .filterError ↔
        ∃ pre post r, host.converters = pre ++ ⟨.other, r⟩ :: post ∧
          ∀ c ∈ pre, canConvertNode host node c.filter = .ok false)) ∧
    (¬ (toLowerCase tagName ∉ VOID_ELEMENTS ∧ ∀ c ∈ inner, isWhiteSpace c = true) →
      ∀ (pre mid post : List Converter) (f : Filter) (r r' : Replacement),
        host.converters = pre ++ ⟨f, r⟩ :: (mid ++ ⟨.other, r'⟩ :: post) →
        (∀ c ∈ pre, canConvertNode host node c.filter = .ok false) →
        canConvertNode host node f = .ok true →
        (replacementForNode host node).1 ≠ .error .filterError ∧
        Event.filterEvaluated (pre.length + 1 + mid.length) ∉
          (replacementForNode host node).2) ∧
    ((toLowerCase tagName ∉ VOID_ELEMENTS ∧ ∀ c ∈ inner, isWhiteSpace c = true) →
      replacementForNode host node = (.ok (some (.text [])), [])) := by
  refine ⟨?_, ?_, replacementForNode_blank host node tagName inner htag hinner⟩
  · intro hnb
    rw [replacementForNode_not_blank host node tagName inner htag hinner hnb]
    constructor
    · exact convertersLoop_filterError host node inner _ 0
    · rintro ⟨pre, post, r, hrules, hpre⟩
      rw [hrules, convertersLoop_rejected host node inner _ pre 0 hpre]
      simp [convertersLoop, canConvertNode]
  · intro hnb pre mid post f r r' hrules hpre hf
    have h := replacementForNode_not_blank host node tagName inner htag hinner hnb
    rw [hrules, convertersLoop_first_match host node inner f r _ hf pre 0 hpre] at h
    rw [h]
    cases r with
    | function call =>
      refine ⟨by simp, ?_⟩
      simp only [List.mem_append, List.mem_map, List.mem_range', List.mem_singleton,
        not_or]
      refine ⟨?_, by simp⟩
      rintro ⟨k, ⟨m, hm, rfl⟩, hk⟩
      simp only [Event.filterEvaluated.injEq] at hk
      omega
    | other =>
      refine ⟨by simp, ?_⟩
      simp only [List.mem_map, List.mem_range']
      rintro ⟨k, ⟨m, hm, rfl⟩, hk⟩
      simp only [Event.filterEvaluated.injEq] at hk
      omega

/-- C16. Non-invocable replacement. For a node that is not blank, when the
first rule whose filter accepts the node has a replacement that is no
function, `replacementForNode` throws the replacement configuration error
and returns no text node. A replacement that is no function raises nothing
on a rule that is not the first match: when the first rule that accepts
the node has a function as replacement the text node is returned whatever
the replacements of the other rules are, and when every filter returns
false the result is `null`. -/
theorem replacementForNode_replacementError (host : Host) (node : Node)
    (tagName inner : JSString)
    (htag : node.tagName = some tagName) (hinner : node.innerHTML = some inner)
    (hnb : ¬ (toLowerCase tagName ∉ VOID_ELEMENTS ∧ ∀ c ∈ inner, isWhiteSpace c = true)) :
    (∀ (pre post : List Converter) (f : Filter),
      host.converters = pre ++ ⟨f, .other⟩ :: post →
      (∀ c ∈ pre, canConvertNode host node c.filter = .ok false) →
      canConvertNode host node f = .ok true →
      replacementForNode host node =
        (.error .replacementError,
          (List.range (pre.length + 1)).map Event.filterEvaluated)) ∧
    (∀ (pre post : List Converter) (f : Filter) (call : JSString → Node → JSValue),
      host.converters = pre ++ ⟨f, .function call⟩ :: post →
      (∀ c ∈ pre, canConvertNode host node c.filter = .ok false) →
      canConvertNode host node f = .ok true →
      (replacementForNode host node).1 =
        .ok (some (.text (call (host.decodeHTMLEntities inner) node).toDOMString))) ∧
    ((∀ c ∈ host.converters, canConvertNode host node c.filter = .ok false) →
      (replacementForNode host node).1 = .ok none) := by
  have h := replacementForNode_not_blank host node tagName inner htag hinner hnb
  refine ⟨?_, ?_, ?_⟩
  · intro pre post f hrules hpre hf
    rw [h, hrules, convertersLoop_first_match host node inner f _ post hf pre 0 hpre]
    simp [List.range_eq_range']
  · intro pre post f call hrules hpre hf
    rw [h, hrules, convertersLoop_first_match host node inner f _ post hf pre 0 hpre]
  · intro hno
    rw [h, convertersLoop_no_match host node inner _ 0 hno]

/-! ## Safety of `replaceChild` in the loop of `toMarkdown` -/

theorem getAt_replaceAt_element (r : Node) : ∀ (p q : Path) (tree : Node) (t : JSString)
    (a : List (JSString × JSString)) (cs : List Node),
    tree.getAt q = some (.element t a cs) → ¬ p <+: q →
    ∃ cs', (tree.replaceAt p r).getAt q = some (.element t a cs') := by
  intro p
  induction p with
  | nil => intro q tree t a cs _ h; exact absurd List.nil_prefix h
  | cons i p ih =>
    intro q tree t a cs hg hpq
    cases tree with
    | text v => cases q <;> simp [Node.getAt] at hg
    | comment v => cases q <;> simp [Node.getAt] at hg
    | element t0 a0 cs0 =>
      cases q with
      | nil =>
        simp only [Node.getAt, Option.some.injEq, Node.element.injEq] at hg
        obtain ⟨rfl, rfl, rfl⟩ := hg
        simp only [Node.replaceAt]
        split <;> exact ⟨_, rfl⟩
      | cons j q =>
        simp only [Node.getAt, List.get?_eq_getElem?] at hg
        cases hj : cs0[j]? with
        | none => simp [hj] at hg
        | some c =>
          simp only [hj] at hg
          simp only [Node.replaceAt, List.get?_eq_getElem?]
          cases hi : cs0[i]? with
          | none =>
            exact ⟨cs, by simp [Node.getAt, List.get?_eq_getElem?, hj, hg]⟩
          | some ci =>
            simp only []
            by_cases hij : i = j
            · subst hij
              have hci : ci = c := by rw [hi] at hj; exact Option.some.inj hj
              subst hci
              have hpq' : ¬ p <+: q := fun h => hpq (List.cons_prefix_cons.2 ⟨rfl, h⟩)
              obtain ⟨cs', hg'⟩ := ih q ci t a cs hg hpq'
              have hlt : i < cs0.length := by
                rw [List.getElem?_eq_some_iff] at hi
                exact hi.1
              refine ⟨cs', ?_⟩
              simp only [Node.getAt, List.get?_eq_getElem?]
              rw [List.getElem?_set_self hlt]
              simpa using hg'
            · refine ⟨cs, ?_⟩
              simp only [Node.getAt, List.get?_eq_getElem?]
              rw [List.getElem?_set_ne hij, hj]
              simpa using hg

/-- The loop of `toMarkdown` keeps the tag and the attributes of every
element whose reference has no visited reference as a prefix. -/
theorem replaceLoop_getAt_element (host : Host) : ∀ (visit : List Path) (tree tree' : Node)
    (calls : List (Path × Event)),
    replaceLoop host visit tree = (.ok tree', calls) →
    ∀ (q : Path) (t : JSString) (a : List (JSString × JSString)) (cs : List Node),
      tree.getAt q = some (.element t a cs) → (∀ p ∈ visit, ¬ p <+: q) →
      ∃ cs', tree'.getAt q = some (.element t a cs') := by
  intro visit
  induction visit with
  | nil =>
    intro tree tree' calls h q t a cs hq _
    simp only [replaceLoop, Prod.mk.injEq, Except.ok.injEq] at h
    rw [← h.1]; exact ⟨cs, hq⟩
  | cons p rest ih =>
    intro tree tree' calls h q t a cs hq hnp
    simp only [replaceLoop] at h
    rcases hs : replaceStep host tree p with ⟨e | tree1, c1⟩
    · rw [hs] at h; simp at h
    · rw [hs] at h
      simp only [Prod.mk.injEq] at h
      rcases replaceStep_ok host tree tree1 p c1 hs with rfl | ⟨v, rfl⟩
      · exact ih tree1 tree' _ (Prod.ext h.1 rfl) q t a cs hq
          (fun x hx => hnp x (by simp [hx]))
      · obtain ⟨cs1, h1⟩ := getAt_replaceAt_element (.text v) p q tree t a cs hq
          (hnp p (by simp))
        exact ih _ tree' _ (Prod.ext h.1 rfl) q t a cs1 h1
          (fun x hx => hnp x (by simp [hx]))

/-- C19. The `replaceChild` step is safe. Let `q` be any entry of
`bfsOrder(root)`, `pre` the entries that the loop visits before it and
`post` the entries it visits after it. `q` is visited once (it is neither
in `pre` nor in `post`) and it is not the root: it has a parent. In the
tree that the loop has reached when it comes to `q`, the reference still
leads to the element it led to in `root`, with the same tag and attributes,
and its parent is an element: `node.parentNode` is not `null`, and the pass
for `q` throws no `TypeError`. The whole loop throws no `TypeError`. -/
theorem replaceLoop_parent_attached (host : Host) (root : Node)
    (pre post : List Path) (q : Path)
    (h : (bfsOrder root).reverse = pre ++ q :: post) :
    q ∉ pre ∧ q ∉ post ∧
    (∃ (parent : Path) (i : Nat), q = parent ++ [i] ∧
      ∀ (tree : Node) (calls : List (Path × Event)),
        replaceLoop host pre root = (.ok tree, calls) →
        tree.isElementAt parent ∧
        (∀ (t : JSString) (a : List (JSString × JSString)) (cs : List Node),
          root.getAt q = some (.element t a cs) →
          ∃ cs', tree.getAt (parent ++ [i]) = some (.element t a cs')) ∧
        (replaceStep host tree q).1 ≠ .error .typeError) ∧
    (replaceLoop host (bfsOrder root).reverse root).1 ≠ .error .typeError := by
  have hnodup : (bfsOrder root).reverse.Nodup := by
    have hne : ∀ {a b : Path}, Path.bfsLt a b → a ≠ b := by
      intro a b h hab
      subst hab
      exact bfsLt_irrefl a h
    exact List.nodup_reverse.2 (List.Pairwise.imp hne (bfsOrder_sorted root))
  rw [h] at hnodup
  have hqpre : q ∉ pre := by
    intro hq
    exact (List.nodup_append.1 hnodup).2.2 hq (by simp)
  have hqpost : q ∉ post := by
    have := (List.nodup_append.1 hnodup).2.1
    exact (List.nodup_cons.1 this).1
  have hqmem : q ∈ bfsOrder root := by
    have : q ∈ (bfsOrder root).reverse := by rw [h]; simp
    simpa using this
  obtain ⟨hqne, hqel⟩ := (mem_bfsOrder root q).1 hqmem
  have hpw := bfsOrder_reverse_pairwise root
  have hel : ∀ p ∈ (bfsOrder root).reverse, root.isElementAt p := by
    intro p hp
    exact ((mem_bfsOrder root p).1 (by simpa using hp)).2
  refine ⟨hqpre, hqpost, ?_, replaceLoop_ne_typeError host _ root hel hpw⟩
  obtain ⟨parent, i, rfl⟩ : ∃ parent i, q = parent ++ [i] := by
    rcases List.eq_nil_or_concat q with h0 | ⟨parent, i, h0⟩
    · exact absurd h0 hqne
    · exact ⟨parent, i, by simpa using h0⟩
  refine ⟨parent, i, rfl, ?_⟩
  intro tree calls hloop
  rw [h, List.pairwise_append] at hpw
  obtain ⟨hprepw, -, hcross⟩ := hpw
  have hpreel : ∀ p ∈ pre, root.isElementAt p := by
    intro p hp
    exact hel p (by rw [h]; simp [hp])
  have hnq : ∀ p ∈ pre, ¬ p <+: parent ++ [i] := fun p hp => hcross p hp _ (by simp)
  have hnparent : ∀ p ∈ pre, ¬ p <+: parent :=
    fun p hp hpp => hnq p hp (hpp.trans (List.prefix_append parent [i]))
  have hqtree := replaceLoop_isElementAt host pre root tree calls hpreel hprepw hloop
    (parent ++ [i]) hqel hnq
  refine ⟨?_, ?_, ?_⟩
  · exact replaceLoop_isElementAt host pre root tree calls hpreel hprepw hloop parent
      (isElementAt_of_descendant root parent [i] (by simp) hqel) hnparent
  · intro t a cs hg
    exact replaceLoop_getAt_element host pre root tree calls hloop (parent ++ [i]) t a cs hg hnq
  · rcases replaceStep_cases host tree (parent ++ [i]) hqtree with
      ⟨e, c, hs, he⟩ | ⟨c, hs⟩ | ⟨v, c, hs⟩
    · rw [hs]; simpa using he
    · rw [hs]; simp
    · rw [hs]; simp

/-! ## Blankness of an element with white-space children -/

theorem escapeText_whiteSpace : ∀ v : JSString,
    (∀ x ∈ v, isWhiteSpace x = true ∧ x.toNat ≠ 0xA0) → escapeText v = v := by
  intro v
  induction v with
  | nil => intro _; rfl
  | cons c v ih =>
    intro h
    obtain ⟨hw, hn⟩ := h c (by simp)
    have h1 : c ≠ '&' := by intro hc; subst hc; revert hw; decide
    have h2 : c ≠ '<' := by intro hc; subst hc; revert hw; decide
    have h3 : c ≠ '>' := by intro hc; subst hc; revert hw; decide
    simp [escapeText, h1, h2, h3, hn, ih (fun x hx => h x (by simp [hx]))]

theorem serializeChildren_whiteSpace (raw : Bool) : ∀ cs : List Node,
    (∀ c ∈ cs, ∃ v, c = Node.text v ∧ ∀ x ∈ v, isWhiteSpace x = true ∧ x.toNat ≠ 0xA0) →
    ∀ x ∈ Node.serializeChildren raw cs, isWhiteSpace x = true := by
  intro cs
  induction cs with
  | nil => intro _ x hx; simp [Node.serializeChildren] at hx
  | cons c cs ih =>
    intro h x hx
    obtain ⟨v, rfl, hv⟩ := h c (by simp)
    simp only [Node.serializeChildren, Node.outerHTML, List.mem_append] at hx
    rcases hx with hx | hx
    · have hx' : x ∈ v := by
        cases raw with
        | true => simpa using hx
        | false => simpa [escapeText_whiteSpace v hv] using hx
      exact (hv x hx').1
    · exact ih (fun d hd => h d (by simp [hd])) x hx

/-- C20, as the code has it. Blankness propagates upward. For an element
whose tag is not in `VOID_ELEMENTS` and whose children are all text nodes
that hold nothing but white space other than U+00A0 (empty text nodes
included, such as the text nodes that replaced blank child elements
earlier in the loop), `replacementForNode` returns an empty text node and
evaluates no filter and invokes no replacement, whatever the rules are; the
pass of the loop of `toMarkdown` puts the empty text node in its place. -/
theorem replacementForNode_blank_children (host : Host) (t : JSString)
    (a : List (JSString × JSString)) (cs : List Node)
    (hvoid : toLowerCase t ∉ VOID_ELEMENTS)
    (hcs : ∀ c ∈ cs, ∃ v, c = Node.text v ∧
      ∀ x ∈ v, isWhiteSpace x = true ∧ x.toNat ≠ 0xA0) :
    replacementForNode host (.element t a cs) = (.ok (some (.text [])), []) ∧
    (∀ (tree : Node) (p : Path), tree.getAt p = some (.element t a cs) →
      replaceStep host tree p = (.ok (tree.replaceAt p (.text [])), [])) := by
  have hblank : replacementForNode host (.element t a cs) = (.ok (some (.text [])), []) := by
    by_cases hv : toLowerCase t ∈ serializesAsVoid
    · exact replacementForNode_blank host _ t [] rfl (by simp [Node.innerHTML, hv])
        ⟨hvoid, by simp⟩
    · exact replacementForNode_blank host _ t
        (Node.serializeChildren (decide (toLowerCase t ∈ rawTextElements)) cs) rfl
        (by simp [Node.innerHTML, hv])
        ⟨hvoid, serializeChildren_whiteSpace _ cs hcs⟩
  refine ⟨hblank, ?_⟩
  intro tree p hp
  simp only [replaceStep, hp, hblank, List.map_nil]

/-! ## The `replace` calls that end `toMarkdown` -/

theorem matchBlankLine_of_ne_newline (c : Char) (t : JSString) (h : c ≠ '\n') :
    matchBlankLine (c :: t) = none := by
  unfold matchBlankLine
  split
  · rename_i t' heq
    simp only [List.cons.injEq] at heq
    exact absurd heq.1 h
  · rfl

theorem matchNewlines_of_ne_newline (c : Char) (t : JSString) (h : c ≠ '\n') :
    matchNewlines (c :: t) = none := by
  have hc : (c == '\n') = false := by simpa using h
  simp [matchNewlines, List.takeWhile, hc]

theorem length_takeWhile_lt_of_mem {p : Char → Bool} : ∀ (l : JSString) (x : Char),
    x ∈ l → p x = false → (l.takeWhile p).length < l.length := by
  intro l
  induction l with
  | nil => intro x h; cases h
  | cons c l ih =>
    intro x hx hp
    by_cases hc : p c = true
    · rcases List.mem_cons.1 hx with rfl | hx
      · rw [hp] at hc; cases hc
      · simp only [List.takeWhile, hc, List.length_cons]
        have := ih x hx hp
        omega
    · have hcf : p c = false := by simpa using hc
      simp [List.takeWhile, hcf]

theorem takeWhile_append_of_mem {p : Char → Bool} : ∀ (l y : JSString) (x : Char),
    x ∈ l → p x = false → (l ++ y).takeWhile p = l.takeWhile p := by
  intro l
  induction l with
  | nil => intro y x h; cases h
  | cons c l ih =>
    intro y x hx hp
    by_cases hc : p c = true
    · rcases List.mem_cons.1 hx with rfl | hx
      · rw [hp] at hc; cases hc
      · rw [List.cons_append]
        simp only [List.takeWhile, hc]
        rw [ih y x hx hp]
    · have hcf : p c = false := by simpa using hc
      simp [List.takeWhile, hcf]

/-- The length of the longest suffix without newline. -/
theorem tailLen_lt_of_mem (run : JSString) (x : Char) (tl : JSString) (hrun : run = x :: tl)
    (h : '\n' ∈ tl) :
    (run.reverse.takeWhile (fun c => c != '\n')).length + 2 ≤ run.length := by
  subst hrun
  have hmem : '\n' ∈ tl.reverse := by simpa using h
  rw [List.reverse_cons, takeWhile_append_of_mem tl.reverse [x] '\n' hmem (by simp)]
  have := length_takeWhile_lt_of_mem (p := fun c => c != '\n') tl.reverse '\n' hmem (by simp)
  simp only [List.length_reverse, List.length_cons] at this ⊢
  omega

theorem drop_length_sub_takeWhile_reverse (p : Char → Bool) (run : JSString) :
    run.drop (run.length - (run.reverse.takeWhile p).length) =
      (run.reverse.takeWhile p).reverse := by
  have h1 : (run.reverse.takeWhile p).length ≤ run.length := by
    have := (List.takeWhile_prefix p (l := run.reverse)).length_le
    simpa using this
  have h2 : run.reverse.takeWhile p = run.reverse.take (run.reverse.takeWhile p).length := by
    have hp : run.reverse.takeWhile p <+: run.reverse := List.takeWhile_prefix p
    exact (List.prefix_iff_eq_take.1 hp)
  generalize (run.reverse.takeWhile p).length = k at h1 h2 ⊢
  rw [h2, List.take_reverse]
  simp

theorem mem_tail_of_tailLen (run : JSString)
    (h : (run.reverse.takeWhile (fun c => c != '\n')).length + 2 ≤ run.length) :
    '\n' ∈ run.tail := by
  have hsplit := List.takeWhile_append_dropWhile (fun c => c != '\n') run.reverse
  have hlen := congrArg List.length hsplit
  simp only [List.length_append, List.length_reverse] at hlen
  have hhead := List.head?_dropWhile_not (fun c => c != '\n') run.reverse
  cases hd : run.reverse.dropWhile (fun c => c != '\n') with
  | nil => rw [hd] at hlen; simp at hlen; omega
  | cons x xs =>
    rw [hd] at hhead hlen hsplit
    have hx : x = '\n' := by simpa using hhead
    subst hx
    have hxs : 1 ≤ xs.length := by simp only [List.length_cons] at hlen; omega
    have hrun : run = xs.reverse ++
        ('\n' :: (run.reverse.takeWhile (fun c => c != '\n')).reverse) := by
      have := congrArg List.reverse hsplit
      simpa using this.symm
    cases hxr : xs.reverse with
    | nil =>
      have : xs.length = 0 := by
        have := congrArg List.length hxr
        simpa using this
      omega
    | cons y ys =>
      rw [hxr] at hrun
      rw [hrun]
      simp

theorem matchBlankLine_none_iff (t : JSString) :
    matchBlankLine ('\n' :: t) = none ↔ '\n' ∉ (t.takeWhile isWhiteSpace).tail := by
  simp only [matchBlankLine]
  constructor
  · intro h hmem
    split at h
    · simp at h
    · rename_i hlen
      apply hlen
      cases hrun : t.takeWhile isWhiteSpace with
      | nil => rw [hrun] at hmem; simp at hmem
      | cons x tl =>
        rw [hrun] at hmem
        exact tailLen_lt_of_mem (x :: tl) x tl rfl (by simpa using hmem)
  · intro h
    split
    · rename_i hlen
      exact absurd (mem_tail_of_tailLen _ hlen) h
    · rfl

theorem takeWhile_drop_of_le (p : Char → Bool) (t : JSString) (k : Nat)
    (hk : k ≤ (t.takeWhile p).length) :
    (t.drop k).takeWhile p = (t.takeWhile p).drop k := by
  induction t generalizing k with
  | nil => simp
  | cons c t ih =>
    cases k with
    | zero => simp
    | succ k =>
      by_cases hc : p c = true
      · simp only [List.takeWhile, hc, List.length_cons] at hk
        simp only [List.drop_succ_cons, List.takeWhile, hc]
        exact ih k (by omega)
      · have hcf : p c = false := by simpa using hc
        simp [List.takeWhile, hcf] at hk

/-- What a match of `/\n\s+\n/` leaves: a suffix of the input whose first
white space holds no newline, and that is not empty when the input ends
with a character that is no white space. -/
theorem matchBlankLine_some (s rep rest : JSString)
    (h : matchBlankLine s = some (rep, rest)) :
    rep = ['\n', '\n'] ∧ rest <:+ s ∧ rest.length < s.length ∧
      '\n' ∉ rest.takeWhile isWhiteSpace ∧
      (∀ u c, s = u ++ [c] → isWhiteSpace c = false → rest ≠ []) := by
  unfold matchBlankLine at h
  split at h
  · rename_i t
    simp only at h
    split at h
    · rename_i hlen
      simp only [Option.some.injEq, Prod.mk.injEq] at h
      obtain ⟨rfl, rfl⟩ := h
      have hk : (t.takeWhile isWhiteSpace).length -
          ((t.takeWhile isWhiteSpace).reverse.takeWhile (fun c => c != '\n')).length ≤
          (t.takeWhile isWhiteSpace).length := Nat.sub_le _ _
      have hrunlen : (t.takeWhile isWhiteSpace).length ≤ t.length :=
        (List.takeWhile_prefix isWhiteSpace (l := t)).length_le
      refine ⟨rfl, ?_, ?_, ?_, ?_⟩
      · exact (List.drop_suffix _ t).trans (List.suffix_cons _ _)
      · simp only [List.length_drop, List.length_cons]; omega
      · rw [takeWhile_drop_of_le isWhiteSpace t _ hk, drop_length_sub_takeWhile_reverse]
        intro hmem
        have := List.mem_takeWhile_imp (List.mem_reverse.1 hmem)
        simp at this
      · intro u c hs hc hnil
        have hlen2 : t.length ≤ (t.takeWhile isWhiteSpace).length := by
          have := congrArg List.length hnil
          simp only [List.length_drop, List.length_nil] at this
          omega
        have hall : t.takeWhile isWhiteSpace = t :=
          (List.takeWhile_prefix isWhiteSpace (l := t)).eq_of_length_le hlen2
        have hcmem : c ∈ t := by
          cases u with
          | nil =>
            simp only [List.nil_append, List.cons.injEq] at hs
            obtain ⟨_, ht⟩ := hs
            subst ht
            simp at hlen
          | cons x u' =>
            simp only [List.cons_append, List.cons.injEq] at hs
            rw [hs.2]; simp
        rw [← hall] at hcmem
        have := List.mem_takeWhile_imp hcmem
        rw [hc] at this
        cases this
    · simp at h
  · simp at h

theorem matchNewlines_some (s rep rest : JSString)
    (h : matchNewlines s = some (rep, rest)) :
    rep = ['\n', '\n'] ∧ rest <:+ s ∧ rest.length < s.length ∧
      (∀ u c, s = u ++ [c] → isWhiteSpace c = false → rest ≠ []) := by
  simp only [matchNewlines] at h
  split at h
  · rename_i hlen
    simp only [Option.some.injEq, Prod.mk.injEq] at h
    obtain ⟨rfl, rfl⟩ := h
    have hsplit := congrArg List.length
      (List.takeWhile_append_dropWhile (fun c => c == '\n') s)
    simp only [List.length_append] at hsplit
    refine ⟨rfl, List.dropWhile_suffix _, by omega, ?_⟩
    intro u c hs hc hnil
    have hall : ∀ x ∈ s, (x == '\n') = true := by
      intro x hx
      have hs' := List.takeWhile_append_dropWhile (fun c => c == '\n') s
      rw [hnil, List.append_nil] at hs'
      rw [← hs'] at hx
      exact List.mem_takeWhile_imp (p := fun c => c == '\n') hx
    have := hall c (by rw [hs]; simp)
    have hcn : c = '\n' := by simpa using this
    subst hcn
    revert hc; decide
  · simp at h

theorem replaceAll_of_no_match (m : JSString → Option (JSString × JSString)) :
    ∀ (fuel : Nat) (s : JSString), (∀ t, t <:+ s → m t = none) →
      replaceAll m fuel s = s := by
  intro fuel
  induction fuel with
  | zero => intro s _; rfl
  | succ fuel ih =>
    intro s h
    cases s with
    | nil => rfl
    | cons c t =>
      simp only [replaceAll, h (c :: t) List.suffix_rfl]
      rw [ih t (fun u hu => h u (hu.trans (List.suffix_cons c t)))]

theorem newline_isWhiteSpace : isWhiteSpace '\n' = true := by decide

/-- The first white space of the result has no newline when that of the
input has none. -/
theorem replaceAll_matchBlankLine_run : ∀ (fuel : Nat) (s : JSString),
    '\n' ∉ s.takeWhile isWhiteSpace →
      '\n' ∉ (replaceAll matchBlankLine fuel s).takeWhile isWhiteSpace := by
  intro fuel
  induction fuel with
  | zero => intro s h; exact h
  | succ fuel ih =>
    intro s h
    cases s with
    | nil => simp [replaceAll]
    | cons c t =>
      have hc : c ≠ '\n' := by
        intro hc
        subst hc
        apply h
        simp [List.takeWhile, newline_isWhiteSpace]
      simp only [replaceAll, matchBlankLine_of_ne_newline c t hc]
      cases hw : isWhiteSpace c with
      | false => simp [List.takeWhile, hw]
      | true =>
        simp only [List.takeWhile, hw] at h ⊢
        intro hmem
        rcases List.mem_cons.1 hmem with heq | hmem
        · exact hc heq.symm
        · exact ih t (fun hm => h (List.mem_cons_of_mem _ hm)) hmem

theorem replaceAll_matchBlankLine_tail : ∀ (fuel : Nat) (s : JSString),
    '\n' ∉ (s.takeWhile isWhiteSpace).tail →
      '\n' ∉ ((replaceAll matchBlankLine fuel s).takeWhile isWhiteSpace).tail := by
  intro fuel s h
  cases fuel with
  | zero => exact h
  | succ fuel =>
    cases s with
    | nil => simp [replaceAll]
    | cons c t =>
      cases hw : isWhiteSpace c with
      | false =>
        have hc : c ≠ '\n' := by
          intro hc
          subst hc
          rw [newline_isWhiteSpace] at hw
          cases hw
        simp [replaceAll, matchBlankLine_of_ne_newline c t hc, List.takeWhile, hw]
      | true =>
        simp only [List.takeWhile, hw, List.tail_cons] at h
        have hm : matchBlankLine (c :: t) = none := by
          by_cases hc : c = '\n'
          · subst hc
            exact (matchBlankLine_none_iff t).2 (fun hmem => h (List.mem_of_mem_tail hmem))
          · exact matchBlankLine_of_ne_newline c t hc
        simp only [replaceAll, hm, List.takeWhile, hw, List.tail_cons]
        exact replaceAll_matchBlankLine_run fuel t h

/-- After the second `replace`, `/\n\s+\n/` matches nowhere. -/
theorem replaceAll_matchBlankLine_done : ∀ (fuel : Nat) (s : JSString), s.length ≤ fuel →
    ∀ t, t <:+ replaceAll matchBlankLine fuel s → matchBlankLine t = none := by
  intro fuel
  induction fuel with
  | zero =>
    intro s hs t ht
    have : s = [] := List.length_eq_zero.1 (Nat.le_zero.1 hs)
    subst this
    have : t = [] := List.suffix_nil.1 ht
    subst this
    rfl
  | succ fuel ih =>
    intro s hs t ht
    cases s with
    | nil =>
      have : t = [] := List.suffix_nil.1 ht
      subst this
      rfl
    | cons c t0 =>
      simp only [List.length_cons] at hs
      cases hm : matchBlankLine (c :: t0) with
      | none =>
        simp only [replaceAll, hm] at ht
        rcases List.suffix_cons_iff.1 ht with heq | hsuf
        · subst heq
          by_cases hc : c = '\n'
          · subst hc
            exact (matchBlankLine_none_iff _).2
              (replaceAll_matchBlankLine_tail fuel t0 ((matchBlankLine_none_iff t0).1 hm))
          · exact matchBlankLine_of_ne_newline c _ hc
        · exact ih t0 (by omega) t hsuf
      | some pr =>
        obtain ⟨rep, rest⟩ := pr
        obtain ⟨hrep, _, hlt, hrun, _⟩ := matchBlankLine_some _ _ _ hm
        subst hrep
        simp only [List.length_cons] at hlt
        have hq := replaceAll_matchBlankLine_run fuel rest hrun
        simp only [replaceAll, hm] at ht
        change t <:+ '\n' :: '\n' :: replaceAll matchBlankLine fuel rest at ht
        rcases List.suffix_cons_iff.1 ht with heq | hsuf
        · subst heq
          refine (matchBlankLine_none_iff _).2 ?_
          simpa [List.takeWhile, newline_isWhiteSpace] using hq
        · rcases List.suffix_cons_iff.1 hsuf with heq | hsuf
          · subst heq
            exact (matchBlankLine_none_iff _).2 (fun hmem => hq (List.mem_of_mem_tail hmem))
          · exact ih rest (by omega) t hsuf

theorem matchBlankLine_of_blank_line (w b : JSString) (hw : w ≠ [])
    (hall : ∀ c ∈ w, isWhiteSpace c = true) :
    matchBlankLine ('\n' :: (w ++ '\n' :: b)) ≠ none := by
  intro h
  apply (matchBlankLine_none_iff _).1 h
  rw [List.takeWhile_append_of_pos hall]
  cases w with
  | nil => exact absurd rfl hw
  | cons x w =>
    simp [List.takeWhile, newline_isWhiteSpace]

theorem matchNewlines_none_or (t : JSString) :
    matchNewlines t = none ∨ ∃ b, t = '\n' :: '\n' :: '\n' :: b := by
  by_cases h : 3 ≤ (t.takeWhile (fun c => c == '\n')).length
  · right
    match t, h with
    | [], h => simp at h
    | [a], h =>
      have := (List.takeWhile_prefix (fun c => c == '\n') (l := [a])).length_le
      simp only [List.length_singleton] at this
      omega
    | [a, b], h =>
      have := (List.takeWhile_prefix (fun c => c == '\n') (l := [a, b])).length_le
      simp only [List.length_cons, List.length_nil] at this
      omega
    | a :: b :: c :: t, h =>
      by_cases ha : a = '\n'
      · by_cases hb : b = '\n'
        · by_cases hc : c = '\n'
          · exact ⟨t, by rw [ha, hb, hc]⟩
          · have hcf : (c == '\n') = false := by simpa using hc
            simp [List.takeWhile, ha, hb, hcf] at h
        · have hbf : (b == '\n') = false := by simpa using hb
          simp [List.takeWhile, ha, hbf] at h
      · have haf : (a == '\n') = false := by simpa using ha
        simp [List.takeWhile, haf] at h
  · left
    simp [matchNewlines, h]

/-- The third `replace` finds nothing left to do after the second. -/
theorem postProcess_eq (output : JSString) :
    postProcess output =
      replaceAll matchBlankLine (stripEdges output).length (stripEdges output) := by
  simp only [postProcess]
  apply replaceAll_of_no_match
  intro t ht
  rcases matchNewlines_none_or t with h | ⟨b, hb⟩
  · exact h
  · subst hb
    have := replaceAll_matchBlankLine_done _ (stripEdges output) (le_refl _) _ ht
    exact absurd this
      (matchBlankLine_of_blank_line ['\n'] b (by simp) (by simp [newline_isWhiteSpace]))

/-- C13: the string returned by the `replace` chain that ends `toMarkdown`
holds no three newlines in a row, and no non-empty run of white space
characters standing between two newlines. -/
theorem postProcess_blank_line_cap (output : JSString) :
    (∀ a b : JSString, postProcess output ≠ a ++ '\n' :: '\n' :: '\n' :: b) ∧
    (∀ a w b : JSString, w ≠ [] → (∀ c ∈ w, isWhiteSpace c = true) →
      postProcess output ≠ a ++ '\n' :: (w ++ '\n' :: b)) := by
  have key : ∀ a w b : JSString, w ≠ [] → (∀ c ∈ w, isWhiteSpace c = true) →
      postProcess output ≠ a ++ '\n' :: (w ++ '\n' :: b) := by
    intro a w b hw hall heq
    have hsuf : '\n' :: (w ++ '\n' :: b) <:+ postProcess output := by
      rw [heq]
      exact List.suffix_append _ _
    rw [postProcess_eq] at hsuf
    exact matchBlankLine_of_blank_line w b hw hall
      (replaceAll_matchBlankLine_done _ (stripEdges output) (le_refl _) _ hsuf)
  refine ⟨?_, key⟩
  intro a b
  exact key a ['\n'] b (by simp) (by simp [newline_isWhiteSpace])

theorem replaceAll_nil (m : JSString → Option (JSString × JSString)) (fuel : Nat) :
    replaceAll m fuel [] = [] := by
  cases fuel <;> rfl

theorem suffix_snoc (rest u : JSString) (c : Char) (h : rest <:+ u ++ [c]) (hne : rest ≠ []) :
    ∃ r, rest = r ++ [c] := by
  obtain ⟨p, hp⟩ := h
  rcases List.eq_nil_or_concat rest with hnil | ⟨r, d, hr⟩
  · exact absurd hnil hne
  · subst hr
    rw [List.concat_eq_append, ← List.append_assoc] at hp
    have := List.append_inj_right' hp rfl
    simp only [List.cons.injEq, and_true] at this
    subst this
    exact ⟨r, by rw [List.concat_eq_append]⟩

/-- The second `replace` keeps a last character that is no white space. -/
theorem replaceAll_matchBlankLine_last : ∀ (fuel : Nat) (s u : JSString) (c : Char),
    s = u ++ [c] → isWhiteSpace c = false →
      ∃ r, replaceAll matchBlankLine fuel s = r ++ [c] := by
  intro fuel
  induction fuel with
  | zero => intro s u c hs _; exact ⟨u, hs⟩
  | succ fuel ih =>
    intro s u c hs hc
    cases s with
    | nil => simp at hs
    | cons x t =>
      cases hm : matchBlankLine (x :: t) with
      | none =>
        simp only [replaceAll, hm]
        cases u with
        | nil =>
          simp only [List.nil_append, List.cons.injEq] at hs
          obtain ⟨hx, ht⟩ := hs
          subst hx ht
          exact ⟨[], by rw [replaceAll_nil]; rfl⟩
        | cons y u =>
          simp only [List.cons_append, List.cons.injEq] at hs
          obtain ⟨r, hr⟩ := ih t u c hs.2 hc
          exact ⟨x :: r, by rw [hr]; rfl⟩
      | some pr =>
        obtain ⟨rep, rest⟩ := pr
        obtain ⟨hrep, hsuf, _, _, hne⟩ := matchBlankLine_some _ _ _ hm
        subst hrep
        simp only [replaceAll, hm]
        rw [hs] at hsuf
        obtain ⟨r0, hr0⟩ := suffix_snoc rest u c hsuf (hne u c hs hc)
        obtain ⟨r, hr⟩ := ih rest r0 c hr0 hc
        exact ⟨'\n' :: '\n' :: r, by rw [hr]; rfl⟩

/-- The first `replace` (two alternatives anchored at the two ends): the
result is empty, or starts with none of tab, carriage return and newline
and ends with a character that is no white space. -/
theorem stripEdges_edges (output : JSString) :
    stripEdges output = [] ∨
      ((∃ c t, stripEdges output = c :: t ∧ c ≠ '\t' ∧ c ≠ '\r' ∧ c ≠ '\n') ∧
       (∃ u c, stripEdges output = u ++ [c] ∧ isWhiteSpace c = false)) := by
  simp only [stripEdges]
  generalize hrest : output.dropWhile (fun c => c == '\t' || c == '\r' || c == '\n') = rest
  have hhead := List.head?_dropWhile_not (fun c => c == '\t' || c == '\r' || c == '\n') output
  rw [hrest] at hhead
  have hlast := List.head?_dropWhile_not isWhiteSpace rest.reverse
  have hpre : (rest.reverse.dropWhile isWhiteSpace).reverse <+: rest := by
    have := List.dropWhile_suffix isWhiteSpace (l := rest.reverse)
    have h2 := List.reverse_prefix.2 this
    rwa [List.reverse_reverse] at h2
  cases hd : rest.reverse.dropWhile isWhiteSpace with
  | nil => left; rfl
  | cons c u =>
    right
    rw [hd] at hlast hpre
    have hc : isWhiteSpace c = false := by simpa using hlast
    refine ⟨?_, u.reverse, c, by simp, hc⟩
    obtain ⟨q, hq⟩ := hpre
    cases hs : (c :: u).reverse with
    | nil => simp at hs
    | cons x t =>
      rw [hs] at hq
      rw [← hq] at hhead
      have hx : (x == '\t' || x == '\r' || x == '\n') = false := by simpa using hhead
      simp only [Bool.or_eq_false_iff, beq_eq_false_iff_ne, ne_eq] at hx
      exact ⟨x, t, rfl, hx.1.1, hx.1.2, hx.2⟩

/-- C14 (amended): the string returned by the `replace` chain is empty, or
its first character is none of tab, carriage return and newline and its
last character is no white space. Leading spaces are not removed. -/
theorem postProcess_edges (output : JSString) :
    postProcess output = [] ∨
      ((∃ c t, postProcess output = c :: t ∧ c ≠ '\t' ∧ c ≠ '\r' ∧ c ≠ '\n') ∧
       (∃ u c, postProcess output = u ++ [c] ∧ isWhiteSpace c = false)) := by
  rw [postProcess_eq]
  rcases stripEdges_edges output with h | ⟨⟨c, t, hct, h1, h2, h3⟩, ⟨u, d, hud, hd⟩⟩
  · left
    rw [h]
    rfl
  · right
    constructor
    · refine ⟨c, replaceAll matchBlankLine t.length t, ?_, h1, h2, h3⟩
      rw [hct]
      simp only [List.length_cons, replaceAll, matchBlankLine_of_ne_newline c t h3]
    · obtain ⟨r, hr⟩ := replaceAll_matchBlankLine_last (stripEdges output).length
        (stripEdges output) u d hud hd
      exact ⟨r, d, hr, hd⟩

/-! ## Text in `PRE` and `CODE` elements -/

theorem trimFreeList_cons (host : Host) (c : Node) (cs : List Node) :
    Node.trimFreeList host (c :: cs) = true ↔
      c.trimFree host = true ∧ Node.trimFreeList host cs = true := by
  simp only [Node.trimFreeList, Bool.and_eq_true]

theorem trimFree_of_mem (host : Host) {x : Node} : ∀ {cs : List Node},
    Node.trimFreeList host cs = true → x ∈ cs → x.trimFree host = true
  | [], _, hx => by cases hx
  | c :: cs, h, hx => by
    rw [trimFreeList_cons] at h
    rcases List.mem_cons.1 hx with rfl | hx
    · exact h.1
    · exact trimFree_of_mem host h.2 hx

theorem textsInPreList_cons (deep inside : Bool) (c : Node) (cs : List Node) :
    Node.textsInPreList deep inside (c :: cs) =
      Node.textsInPre deep inside c ++ Node.textsInPreList deep inside cs := by
  simp only [Node.textsInPreList]

theorem textsInPreList_text (deep : Bool) (v : JSString) (cs : List Node) :
    Node.textsInPreList deep false (.text v :: cs) = Node.textsInPreList deep false cs := by
  simp [textsInPreList_cons, Node.textsInPre]

/-- The loop over the children keeps the text of `PRE` and `CODE` elements
when the recursive call keeps it in every child element. -/
theorem textsInPreList_removeBlankChildren (host : Host) (recurse : Node → Node)
    (parentTag : JSString) : ∀ (todo : List Node) (prev : Option Node),
    (∀ t a ks, Node.element t a ks ∈ todo →
      Node.textsInPre false (isPreOrCode parentTag) (recurse (.element t a ks)) =
        Node.textsInPre false (isPreOrCode parentTag) (.element t a ks)) →
    Node.textsInPreList false (isPreOrCode parentTag)
        (removeBlankChildren host recurse parentTag prev todo) =
      Node.textsInPreList false (isPreOrCode parentTag) todo := by
  intro todo
  induction todo with
  | nil => intro prev _; simp [removeBlankChildren]
  | cons c rest ih =>
    intro prev h
    have hrest : ∀ prev', Node.textsInPreList false (isPreOrCode parentTag)
        (removeBlankChildren host recurse parentTag prev' rest) =
        Node.textsInPreList false (isPreOrCode parentTag) rest :=
      fun prev' => ih prev' (fun t a ks hm => h t a ks (List.mem_cons_of_mem _ hm))
    cases c with
    | comment v =>
      simp only [removeBlankChildren, hrest, textsInPreList_cons, Node.textsInPre,
        List.nil_append]
    | element t a ks =>
      simp only [removeBlankChildren, textsInPreList_cons, hrest,
        h t a ks (List.mem_cons_self _ _)]
    | text v =>
      by_cases hp : parentTag ≠ "PRE".toList ∧ parentTag ≠ "CODE".toList
      · have hflag : isPreOrCode parentTag = false := by
          simp only [isPreOrCode, decide_eq_false hp.1, decide_eq_false hp.2, Bool.or_false]
        rw [hflag] at hrest ⊢
        simp only [removeBlankChildren, hp, ne_eq, not_false_eq_true, and_self, if_true]
        split
        · simp only [textsInPreList_text, hrest]
        · split
          · simp only [textsInPreList_text, hrest]
          · simp only [textsInPreList_text, hrest]
      · simp only [removeBlankChildren, hp, if_false, textsInPreList_cons, hrest]

theorem textsInPre_removeBlankNodesFuel (host : Host) :
    ∀ (fuel : Nat) (n : Node) (inside : Bool), n.trimFree host = true →
      Node.textsInPre false inside (removeBlankNodesFuel host fuel n) =
        Node.textsInPre false inside n := by
  intro fuel
  induction fuel with
  | zero => intro n inside _; rfl
  | succ fuel ih =>
    intro n inside hn
    cases n with
    | text v => rfl
    | comment v => rfl
    | element t a cs =>
      simp only [Node.trimFree, Bool.and_eq_true, Bool.or_eq_true, decide_eq_true_eq,
        Bool.not_eq_true'] at hn
      obtain ⟨ht, hcs⟩ := hn
      have htrim : ¬ (t ≠ "PRE".toList ∧ host.isBlockLevel (.element t a cs) = true) := by
        rintro ⟨h1, h2⟩
        rw [isBlockLevel_element] at h2
        rcases ht with ht | ht
        · exact h1 ht
        · rw [ht] at h2
          cases h2
      simp only [removeBlankNodesFuel, Node.textsInPre, Bool.false_and, Bool.false_or]
      rw [if_neg htrim]
      exact textsInPreList_removeBlankChildren host _ t _ none
        (fun t' a' ks hm => ih _ _ (trimFree_of_mem host hcs hm))

/-- C12 (amended): on a tree in which no element other than `PRE` is
block-level, so that `removeBlankNodes` reads no content back through
`innerHTML`, the text nodes that are children of a `PRE` or `CODE` element
have after `removeBlankNodes(root)` the values they had before, in the same
order, and none of them is removed. -/
theorem removeBlankNodes_pre_children (host : Host) (t : JSString)
    (a : List (JSString × JSString)) (cs : List Node)
    (h : (Node.element t a cs).trimFree host = true) :
    ∃ after : Node, removeBlankNodes host (.element t a cs) = .ok after ∧
      after.textsInPre false false = (Node.element t a cs).textsInPre false false :=
  ⟨_, rfl, textsInPre_removeBlankNodesFuel host _ _ false h⟩

/-! ## String filters -/

theorem isPatternCharacter_of_isAlphanum (c : Char) (h : c.isAlphanum = true) :
    isPatternCharacter c = true := by
  have hlist : ∀ d ∈ "^$\\.*+?()[]\x7b\x7d|".toList, d.isAlphanum = false := by decide
  have hnot : "^$\\.*+?()[]\x7b\x7d|".toList.contains c = false := by
    cases hc : "^$\\.*+?()[]\x7b\x7d|".toList.contains c with
    | false => rfl
    | true =>
      have hmem : c ∈ "^$\\.*+?()[]\x7b\x7d|".toList := by
        simpa using hc
      rw [hlist c hmem] at h
      cases h
  have hlt : c.toNat < 128 := by
    simp only [Char.isAlphanum, Char.isAlpha, Char.isUpper, Char.isLower, Char.isDigit,
      Bool.or_eq_true, Bool.and_eq_true, decide_eq_true_eq] at h
    simp only [ge_iff_le, UInt32.le_def, Fin.le_def] at h
    have : c.toNat = c.val.val := rfl
    rw [this]
    rcases h with (h | h) | h <;> exact lt_of_le_of_lt h.2 (by decide)
  simp only [isPatternCharacter, hnot, hlt, decide_True, Bool.not_false, Bool.and_self]

/-- The reader takes the letters and digits of a word as one-character
terms. -/
theorem readAll_word (rest : JSString) : ∀ (word : JSString) (alts terms : List RegEx)
    (stack : List Frame) (q l : Bool), word.all Char.isAlphanum = true →
    ∃ q' l', ParseState.readAll ⟨⟨alts, terms⟩, stack, .normal q l⟩ (word ++ rest) =
      ParseState.readAll ⟨⟨alts, terms ++ word.map RegEx.char⟩, stack, .normal q' l'⟩ rest := by
  intro word
  induction word with
  | nil =>
    intro alts terms stack q l _
    exact ⟨q, l, by simp⟩
  | cons c word ih =>
    intro alts terms stack q l h
    simp only [List.all_cons, Bool.and_eq_true] at h
    obtain ⟨q', l', hq⟩ := ih alts (terms ++ [RegEx.char c]) stack true false h.2
    refine ⟨q', l', ?_⟩
    rw [List.cons_append]
    simp only [ParseState.readAll, ParseState.read, ParseState.readNormal,
      isPatternCharacter_of_isAlphanum c h.1, if_true, ParseState.push]
    rw [hq]
    simp

theorem parse_word (word : JSString) (h : word.all Char.isAlphanum = true) :
    RegEx.parse (['^'] ++ word ++ ['$']) =
      some (.seq .start (mkSeq (word.map RegEx.char ++ [.stop]))) := by
  obtain ⟨q, l, hq⟩ := readAll_word ['$'] word [] [RegEx.start] [] false false h
  have h1 : ParseState.readAll ⟨⟨[], []⟩, [], .normal false false⟩ (['^'] ++ word ++ ['$']) =
      ParseState.readAll ⟨⟨[], [RegEx.start]⟩, [], .normal false false⟩ (word ++ ['$']) := rfl
  have h2 : ParseState.readAll ⟨⟨[], [RegEx.start] ++ word.map RegEx.char⟩, [], .normal q l⟩
      ['$'] =
      some ⟨⟨[], [RegEx.start] ++ word.map RegEx.char ++ [.stop]⟩, [], .normal false false⟩ :=
    rfl
  simp only [RegEx.parse, h1, hq, h2, closeFrame, List.foldr_nil]
  simp [mkSeq]

theorem step_nil (ignoreCase : Bool) : ∀ r : RegEx, r.step ignoreCase [] = [] := by
  intro r
  induction r with
  | empty => rfl
  | char c => rfl
  | any => rfl
  | set n rs => rfl
  | start => rfl
  | stop => rfl
  | seq a b iha ihb => simp only [RegEx.step, iha, ihb]
  | alt a b iha ihb => simp only [RegEx.step, iha, ihb, List.append_nil]
  | star a _ => rfl

theorem positions_filter : ∀ (s : JSString),
    (positions false s).filter (fun p => p.1) = [] := by
  intro s
  induction s with
  | nil => rfl
  | cons c t ih => simp only [positions, List.filter_cons, ih]; rfl

theorem positions_start (s : JSString) :
    (positions true s).filter (fun p => p.1) = [(true, s)] := by
  cases s with
  | nil => rfl
  | cons c t => simp only [positions, List.filter_cons, positions_filter]; rfl

/-- A word of one-character terms up to the end of the input matches the
inputs that are the word, up to the comparison of the matcher. -/
theorem step_word (ignoreCase : Bool) : ∀ (word : JSString) (b : Bool) (s : JSString),
    (RegEx.step ignoreCase (mkSeq (word.map RegEx.char ++ [.stop])) [(b, s)]).isEmpty =
      !decide (s.map (canonicalize ignoreCase) = word.map (canonicalize ignoreCase)) := by
  intro word
  induction word with
  | nil =>
    intro b s
    cases s with
    | nil => rfl
    | cons x t => simp [mkSeq, RegEx.step]
  | cons c word ih =>
    intro b s
    have hseq : mkSeq ((c :: word).map RegEx.char ++ [.stop]) =
        .seq (.char c) (mkSeq (word.map RegEx.char ++ [.stop])) := rfl
    rw [hseq]
    cases s with
    | nil =>
      simp only [RegEx.step, consume, List.filterMap_cons, List.filterMap_nil, step_nil]
      simp
    | cons x t =>
      by_cases hx : canonicalize ignoreCase x = canonicalize ignoreCase c
      · simp only [RegEx.step, consume, List.filterMap_cons, List.filterMap_nil, hx,
          decide_True, if_true]
        rw [ih false t]
        simp [hx]
      · simp only [RegEx.step, consume, List.filterMap_cons, List.filterMap_nil, hx,
          decide_False, step_nil]
        simp [hx, step_nil]

theorem test_word (word s : JSString) :
    RegEx.test true (.seq .start (mkSeq (word.map RegEx.char ++ [.stop]))) s =
      decide (toLowerCase s = toLowerCase word) := by
  simp only [RegEx.test, RegEx.step, positions_start, step_word, Bool.not_not]
  rfl

/-- C18 (amended): with the constructor `newRegExp`, a string filter made of
letters and digits accepts an element exactly when its tag name is the
filter string up to the case of letters. -/
theorem canConvertNode_string_word (host : Host) (hre : host.newRegExp = newRegExp)
    (word : JSString) (hw : word.all Char.isAlphanum = true) (t : JSString)
    (a : List (JSString × JSString)) (cs : List Node) :
    canConvertNode host (.element t a cs) (.string word) =
      .ok (decide (toLowerCase t = toLowerCase word)) := by
  have hnew : newRegExp (['^'] ++ word ++ ['$']) ['i'] =
      some (RegEx.test true (.seq .start (mkSeq (word.map RegEx.char ++ [.stop])))) := by
    simp only [newRegExp, parse_word word hw, Option.map_some']
    simp
  simp only [canConvertNode, hre, hnew, Node.tagName, test_word]

/-! ## Instances of the theorems at concrete inputs -/

/-- C1 at the tree of `<p>Hello <b>World</b></p>`: the loop visits `b`
(reference `[0, 1]`) before `p` (reference `[0]`). -/
theorem reverse_bfsOrder_descendants_first_witness :
    (bfsOrder helloWorld).reverse = [[0, 1]] ++ [0] :: [] ∧
    (∀ d : Path, helloWorld.isElementAt d → Path.IsProperAncestor [0] d → d ∈ [[0, 1]]) ∧
    (∀ (tree : Node) (calls : List (Path × Event)),
      replaceLoop (refHost [boldRule]) [[0, 1]] helloWorld = (.ok tree, calls) →
      tree.isElementAt [0] ∧ ∀ a : Path, Path.IsProperAncestor a [0] → tree.isElementAt a) :=
  ⟨by decide,
    (reverse_bfsOrder_descendants_first (refHost [boldRule]) helloWorld [[0, 1]] [] [0]
      (by decide)).1,
    (reverse_bfsOrder_descendants_first (refHost [boldRule]) helloWorld [[0, 1]] [] [0]
      (by decide)).2.2.2⟩

/-- C3 at a `p` element with four rules: the bold rule rejects it, the
paragraph rule accepts it, and the two rules that follow, one that matches
every node and one with an invalid filter, are not consulted. -/
theorem replacementForNode_first_match_wins_witness :
    (replacementForNode
      (refHost [boldRule, paragraphRule, ⟨.function (fun _ => true), .other⟩, ⟨.other, .other⟩])
      (.element "P".toList [] [.text "Hello".toList])).1 = .ok (some (.text "Hello".toList)) ∧
    (replacementForNode
      (refHost [boldRule, paragraphRule, ⟨.function (fun _ => true), .other⟩, ⟨.other, .other⟩])
      (.element "P".toList [] [.text "Hello".toList])).2 =
      [Event.filterEvaluated 0, Event.filterEvaluated 1, Event.replacementInvoked 1] :=
  have h := replacementForNode_first_match_wins
    (refHost [boldRule, paragraphRule, ⟨.function (fun _ => true), .other⟩, ⟨.other, .other⟩])
    (.element "P".toList [] [.text "Hello".toList]) "P".toList "Hello".toList
    [boldRule] [⟨.function (fun _ => true), .other⟩, ⟨.other, .other⟩] (.string ['p'])
    (fun content _ => .string content) rfl rfl (by decide) rfl
    (by intro c hc; rw [List.mem_singleton] at hc; subst hc; rfl) rfl
  ⟨h.2.1 _ rfl, h.2.2.1⟩

/-- C4 at the `p` element of `<p>   </p>`, which is blank, and at a `br`
element with a rule for `br`, which is not. -/
theorem replacementForNode_blank_iff_witness :
    replacementForNode (refHost [boldRule]) (.element "P".toList [] [.text "   ".toList]) =
      (.ok (some (.text [])), []) ∧
    Event.replacementInvoked 0 ∈
      (replacementForNode (refHost [⟨.string "br".toList, .function (fun _ _ => .string ['\n'])⟩])
        (.element "BR".toList [] [])).2 ∧
    convertTree (refHost [boldRule]) blankParagraph = (.ok [], []) :=
  ⟨(replacementForNode_blank_iff (refHost [boldRule])
      (.element "P".toList [] [.text "   ".toList]) "P".toList "   ".toList rfl rfl).1.2
      ⟨by decide, by decide⟩,
    ((replacementForNode_blank_iff
      (refHost [⟨.string "br".toList, .function (fun _ _ => .string ['\n'])⟩])
      (.element "BR".toList [] []) "BR".toList [] rfl rfl).2.1 (by decide)).2
      [] [] (.string "br".toList) (fun _ _ => .string ['\n']) rfl (by simp) rfl |>.1,
    (replacementForNode_blank_iff (refHost [boldRule])
      (.element "P".toList [] [.text "   ".toList]) "P".toList "   ".toList rfl rfl).2.2 rfl⟩

/-- C5 at a `p` element when the only rule is the bold rule. -/
theorem replacementForNode_pass_through_witness :
    replacementForNode (refHost [boldRule]) (.element "P".toList [] [.text "Hello".toList]) =
      (.ok none, [Event.filterEvaluated 0]) ∧
    (replaceStep (refHost [boldRule])
      (.element "BODY".toList [] [.element "P".toList [] [.text "Hello".toList]]) [0]).1 =
      .ok (.element "BODY".toList [] [.element "P".toList [] [.text "Hello".toList]]) :=
  have h := replacementForNode_pass_through (refHost [boldRule])
    (.element "P".toList [] [.text "Hello".toList]) "P".toList "Hello".toList rfl rfl
    (by decide) (by intro c hc; rw [show (refHost [boldRule]).converters = [boldRule] from rfl,
      List.mem_singleton] at hc; subst hc; rfl)
  ⟨h.1, (h.2 (.element "BODY".toList [] [.element "P".toList [] [.text "Hello".toList]])
    [0] rfl).1⟩

/-- C6, the claim as stated fails: with the bold rule only, the tree of
`<p>Hello <b>World</b></p>` does not convert to `Hello **World**`. -/
theorem convertTree_helloWorld_counterexample :
    (convertTree (refHost [boldRule]) helloWorld).1 ≠ .ok "Hello **World**".toList := by
  have h : (convertTree (refHost [boldRule]) helloWorld).1 =
      .ok "<p>Hello **World**</p>".toList := rfl
  rw [h]
  intro h2
  exact absurd (Except.ok.inj h2) (by decide)

/-- C6 at the reference host with the bold rule. -/
theorem convertTree_helloWorld_witness :
    (convertTree (refHost [boldRule]) helloWorld).1 = .ok "<p>Hello **World**</p>".toList :=
  congrArg Prod.fst
    (convertTree_helloWorld (refHost [boldRule]) (fun s => decide (toLowerCase s = ['b']))
      rfl rfl rfl rfl rfl rfl).1

/-- C7 at the reference host, whose parser reads `1\. First` as one text
node. -/
theorem escapeOlTriggers_spec_witness :
    escapeOlTriggers "12. a 3.b 4. ".toList = "12\\. a 3.b 4\\. ".toList ∧
    toMarkdown (refHost []) (.string "1. First".toList) = (.ok "1\\. First".toList, []) :=
  ⟨((escapeOlTriggers_spec (refHost []) "12. a 3.b 4. ".toList rfl rfl).1).trans (by decide),
    (escapeOlTriggers_spec (refHost []) "12. a 3.b 4. ".toList rfl rfl).2.2.2⟩

/-- C9 at the tree of `a<b>x</b>  <!--c--><p>y</p>`. The first run leaves
`a<b>x</b> <p>y</p>`: the white-space text node was visited while its next
sibling was the comment, so it became one space, and it stands next to the
`p` element once the comment is removed. The second run finds it next to a
block-level element and removes it: the serialized content after two runs
is not the one after one run. -/
theorem removeBlankNodes_twice_commentTree :
    ∃ once twice : Node, removeBlankNodes (refHost []) commentTree = .ok once ∧
      removeBlankNodes (refHost []) once = .ok twice ∧
      once.innerHTML = some "a<b>x</b> <p>y</p>".toList ∧
      twice.innerHTML = some "a<b>x</b><p>y</p>".toList ∧
      twice.innerHTML ≠ once.innerHTML :=
  ⟨_, _, rfl, rfl, by decide, by decide, by decide⟩

/-- C11 at the only child ` a \n b` of a `p` element. -/
theorem removeBlankChildren_text_witness :
    removeBlankChildren (refHost []) id "P".toList none [.text " a \n b".toList] =
      [.text " a b".toList] :=
  ((removeBlankChildren_text (refHost []) id "P".toList " a \n b".toList none []
    (by decide) (by decide)).1 (by decide)).trans rfl

/-- C15 at a `p` element: the bold rule rejects it and the second rule has
an invalid filter. -/
theorem replacementForNode_filterError_iff_witness :
    (replacementForNode (refHost [boldRule, ⟨.other, .other⟩])
      (.element "P".toList [] [.text "x".toList])).1 = .error .filterError :=
  ((replacementForNode_filterError_iff (refHost [boldRule, ⟨.other, .other⟩])
    (.element "P".toList [] [.text "x".toList]) "P".toList "x".toList rfl rfl).1
    (by decide)).2
    ⟨[boldRule], [], .other, rfl,
      by intro c hc; rw [List.mem_singleton] at hc; subst hc; rfl⟩

/-- C16 at a `p` element: the bold rule rejects it and the second rule
accepts it and has a replacement that is no function. -/
theorem replacementForNode_replacementError_witness :
    replacementForNode (refHost [boldRule, ⟨.string ['p'], .other⟩])
      (.element "P".toList [] [.text "x".toList]) =
      (.error .replacementError, [Event.filterEvaluated 0, Event.filterEvaluated 1]) :=
  (replacementForNode_replacementError (refHost [boldRule, ⟨.string ['p'], .other⟩])
    (.element "P".toList [] [.text "x".toList]) "P".toList "x".toList rfl rfl
    (by decide)).1 [boldRule] [] (.string ['p']) rfl
    (by intro c hc; rw [List.mem_singleton] at hc; subst hc; rfl) rfl

/-- C17 at a `p` element and the rule whose replacement returns the number 5:
`replacementForNode` throws nothing, neither the string of index.js 112 nor
another error, and returns a text node that holds `5`. -/
theorem replacementForNode_number_result :
    (replacementForNode
      (refHost [⟨.string ['p'], .function (fun _ _ => .number "5".toList)⟩])
      (.element "P".toList [] [.text "x".toList])).1 = .ok (some (.text "5".toList)) ∧
    (replacementForNode
      (refHost [⟨.string ['p'], .function (fun _ _ => .number "5".toList)⟩])
      (.element "P".toList [] [.text "x".toList])).1 ≠ .error .replacementError ∧
    (replacementForNode
      (refHost [⟨.string ['p'], .function (fun _ _ => .number "5".toList)⟩])
      (.element "P".toList [] [.text "x".toList])).1 ≠ .error .filterError := by
  have h : (replacementForNode
      (refHost [⟨.string ['p'], .function (fun _ _ => .number "5".toList)⟩])
      (.element "P".toList [] [.text "x".toList])).1 = .ok (some (.text "5".toList)) := rfl
  rw [h]
  exact ⟨rfl, by simp, by simp⟩

/-- C19 at the tree of `<p>Hello <b>World</b></p>`, when the loop comes to
the `p` element after the `b` element. -/
theorem replaceLoop_parent_attached_witness :
    (bfsOrder helloWorld).reverse = [[0, 1]] ++ [0] :: [] ∧
    [0] ∉ [[0, 1]] ∧
    (replaceLoop (refHost [boldRule]) (bfsOrder helloWorld).reverse helloWorld).1 ≠
      .error .typeError :=
  ⟨by decide,
    (replaceLoop_parent_attached (refHost [boldRule]) helloWorld [[0, 1]] [] [0]
      (by decide)).1,
    (replaceLoop_parent_attached (refHost [boldRule]) helloWorld [[0, 1]] [] [0]
      (by decide)).2.2.2⟩

/-- C20, the claim as stated fails: the only child of the `p` element of
`<p>&nbsp;</p>` is a text node that holds white space only, the inner HTML
`&nbsp;` is not white space, and the paragraph rule is invoked. -/
theorem replacementForNode_blank_children_counterexample :
    isWhiteSpace (Char.ofNat 0xA0) = true ∧
    replacementForNode (refHost [paragraphRule])
      (.element "P".toList [] [.text [Char.ofNat 0xA0]]) =
      (.ok (some (.text [Char.ofNat 0xA0])),
        [Event.filterEvaluated 0, Event.replacementInvoked 0]) :=
  ⟨by decide, rfl⟩

/-- C20 at a `p` element whose children are an empty text node and a text
node of a space and a newline. -/
theorem replacementForNode_blank_children_witness :
    replacementForNode (refHost [paragraphRule])
      (.element "P".toList [] [.text [], .text " \n".toList]) = (.ok (some (.text [])), []) :=
  (replacementForNode_blank_children (refHost [paragraphRule]) "P".toList []
    [.text [], .text " \n".toList] (by decide)
    (by
      intro c hc
      simp only [List.mem_cons, List.mem_singleton, List.not_mem_nil, or_false] at hc
      rcases hc with rfl | rfl
      · exact ⟨[], rfl, by decide⟩
      · exact ⟨" \n".toList, rfl, by decide⟩)).1

/-- C14, the claim as stated fails: the first `replace` removes leading
tabs, carriage returns and newlines only, so a leading space stays, also
behind a newline that is removed. -/
theorem postProcess_edges_counterexample :
    isWhiteSpace ' ' = true ∧
    postProcess " x".toList = " x".toList ∧
    postProcess "\n x".toList = " x".toList := by
  decide

/-- C12, the claim as stated fails. Below the `pre` element of
`<pre><b>x  y</b><span> <div></div></span></pre>`, the text of the `b`
element has its white space collapsed and the text of the `span` element is
removed, since `removeBlankNodes` looks at the parent of a text node only.
And the content of the block-level elements around a `pre` element is read
back through `innerHTML`: the text of `<pre>`, two newlines and `foo`, loses
a newline, and the carriage return in the `pre` element of
`<div><pre>a&#13;b</pre></div>` becomes a newline. -/
theorem removeBlankNodes_pre_children_counterexample :
    (removeBlankNodes (refHost []) preTree =
      .ok (.element "BODY".toList []
        [.element "PRE".toList []
          [.element "B".toList [] [.text "x y".toList],
           .element "SPAN".toList [] [.element "DIV".toList [] []]]]) ∧
    preTree.textsInPre true false = ["x  y".toList, " ".toList] ∧
    Node.textsInPre true false (.element "BODY".toList []
        [.element "PRE".toList []
          [.element "B".toList [] [.text "x y".toList],
           .element "SPAN".toList [] [.element "DIV".toList [] []]]]) = ["x y".toList]) ∧
    removeBlankNodes (refHost [])
        (.element "BODY".toList [] [.element "PRE".toList [] [.text "\n\nfoo".toList]]) =
      .ok (.element "BODY".toList [] [.element "PRE".toList [] [.text "\nfoo".toList]]) ∧
    removeBlankNodes (refHost [])
        (.element "BODY".toList []
          [.element "DIV".toList [] [.element "PRE".toList [] [.text "a\rb".toList]]]) =
      .ok (.element "BODY".toList []
        [.element "DIV".toList [] [.element "PRE".toList [] [.text "a\nb".toList]]]) :=
  ⟨⟨rfl, rfl, rfl⟩, rfl, rfl⟩

/-- C12 at the tree of
`<span> <pre> a  b <b> c </b></pre><code>x  y</code></span>`: the text ahead
of the `b` element is a child of the `pre` element, the one of the `code`
element a child of it, and both stay as they are. -/
theorem removeBlankNodes_pre_children_witness :
    ∃ after : Node,
      removeBlankNodes (refHost [])
        (.element "SPAN".toList []
          [.text " ".toList,
           .element "PRE".toList []
            [.text " a  b ".toList, .element "B".toList [] [.text " c ".toList]],
           .element "CODE".toList [] [.text "x  y".toList]]) = .ok after ∧
      after.textsInPre false false = [" a  b ".toList, "x  y".toList] :=
  removeBlankNodes_pre_children (refHost []) "SPAN".toList []
    [.text " ".toList,
     .element "PRE".toList []
      [.text " a  b ".toList, .element "B".toList [] [.text " c ".toList]],
     .element "CODE".toList [] [.text "x  y".toList]] (by decide)

/-- C18, the claim as stated fails: the filter string is read as a regular
expression. The filter `h[1-6]` accepts `H1`, the filter `.` accepts `B`,
and the filter `em|i`, which becomes `^em|i$`, accepts `LI` and `EMBED`. -/
theorem canConvertNode_string_word_counterexample :
    canConvertNode (regExpHost []) (.element "H1".toList [] []) (.string "h[1-6]".toList) =
      .ok true ∧
    toLowerCase "H1".toList ≠ toLowerCase "h[1-6]".toList ∧
    canConvertNode (regExpHost []) (.element "B".toList [] []) (.string ".".toList) =
      .ok true ∧
    canConvertNode (regExpHost []) (.element "LI".toList [] []) (.string "em|i".toList) =
      .ok true ∧
    canConvertNode (regExpHost []) (.element "EMBED".toList [] []) (.string "em|i".toList) =
      .ok true :=
  ⟨rfl, by decide, rfl, rfl, rfl⟩

/-- C18 at the filter `'b'`: it accepts `B` and `b` and rejects `BR`, `BODY`
and `TBODY`. -/
theorem canConvertNode_string_word_witness :
    "b".toList.all Char.isAlphanum = true ∧
    canConvertNode (regExpHost []) (.element "B".toList [] []) (.string "b".toList) =
      .ok true ∧
    canConvertNode (regExpHost []) (.element "b".toList [] []) (.string "b".toList) =
      .ok true ∧
    canConvertNode (regExpHost []) (.element "BR".toList [] []) (.string "b".toList) =
      .ok false ∧
    canConvertNode (regExpHost []) (.element "BODY".toList [] []) (.string "b".toList) =
      .ok false ∧
    canConvertNode (regExpHost []) (.element "TBODY".toList [] []) (.string "b".toList) =
      .ok false :=
  ⟨by decide,
    canConvertNode_string_word (regExpHost []) rfl "b".toList (by decide) "B".toList [] [],
    canConvertNode_string_word (regExpHost []) rfl "b".toList (by decide) "b".toList [] [],
    canConvertNode_string_word (regExpHost []) rfl "b".toList (by decide) "BR".toList [] [],
    canConvertNode_string_word (regExpHost []) rfl "b".toList (by decide) "BODY".toList [] [],
    canConvertNode_string_word (regExpHost []) rfl "b".toList (by decide) "TBODY".toList [] []⟩

end ToMarkdown
